import Mathlib

/-!
# neoGFX chess example: the asynchronous PVS search worker

A shallow embedding of `examples/games/chess/src/ai_thread.cpp` (`pvs`,
`ai_thread::set_ply_depth`, `ai_thread::eval`, `ai_thread::start`,
`ai_thread::process`) and of `examples/games/chess/include/chess/ai_thread.hpp`,
followed by theorems about it.

Conventions of the embedding.

* The external collaborators (move tables, move generation, `move_piece`,
  `undo`, the static evaluator) are the fields of `Game`; the template
  parameter `Player` is an ordinary argument.
* `double` scores are modelled by `Score`: an integer or one of the two
  infinities.  The static evaluator is taken to return integers that are
  `double` values.  Negation, `<`, `>=` and `std::max` are exact on doubles;
  `x - 1.0` is rounded to the nearest `double`, ties to even, as IEEE 754
  arithmetic does (`double_round`), so that it is exact up to magnitude
  `2^53` and may give `x` back beyond.  NaN, fractions and overflow to an
  infinity are outside the model.
* `int32_t` depths are `Int`.  A search started with `startDepth = depth = d`
  only forms `startDepth - depth` in `0 .. 36` and `depth - 1` at most 36
  times, so no wrap-around is involved unless `d` is within 36 of the least
  `int32_t`.
* References are passed copy-in / copy-out.  The frame `use` is either the
  node of the caller or arena slot `stackStackIndex`; the calls made from a
  frame select deeper slots only and `reserve` pins the storage of the
  vector, so the slot is not aliased while the frame is live.
* The thread-local `stackNodeStack` is declared inside the function template
  `pvs`: each of the two instantiations `pvs<White>` and `pvs<Black>` has a
  vector of its own.  The searches of a worker alternate between the two from
  one ply to the next, starting with the same one at ply offset 0, and the
  frame at ply offset `k >= 4` is slot `k - 4` of the vector of its
  instantiation, so an index is in use in one of the two vectors only.  The
  embedding keeps the slots in use in one list, by index; `vector_size` gives
  the size of each of the two vectors.
* Undefined behaviour (dereferencing an empty `std::optional`) and C++
  exceptions are results `Except.error _`.  No function of the file catches
  an exception; what a call that is left by one leaves behind is given apart,
  by the functions named `_unwound`.
* Results carry a ghost trace of the calls made to the collaborators; the
  worker carries a ghost log of its `set_value` calls.
* Recursion is by fuel; `pvs` supplies the fuel `pvs_fuel_bound`.
* Threads are not modelled: `ai_thread.process` is one pass of the worker
  loop run to completion.  The order in which a member function takes the
  mutex, gives it up and touches the queue is rendered apart, as a list of
  `Step`s per member function.
-/

namespace chess

/-! ## Doubles -/

/-- The number of low bits that a natural number has beyond the 53 bits of the
significand of a `double`: how often `a` is halved until it is below `2^53`.
The first argument bounds the number of halvings. -/
def excess_bits : Nat → Nat → Nat
  | 0, _ => 0
  | fuel + 1, a => if a < 2 ^ 53 then 0 else excess_bits fuel (a / 2) + 1

/-- The `double` nearest to an integer, ties to the even significand (the
default rounding of IEEE 754 arithmetic): the magnitude keeps its 53 leading
bits and is rounded up when the bits dropped are more than half a unit of the
last bit kept, or exactly half and the last bit kept is odd. -/
def double_round (v : Int) : Int :=
  let a := v.natAbs
  let e := excess_bits a a
  let q := a / 2 ^ e
  let r := a % 2 ^ e
  let up := decide (2 ^ e < 2 * r) || (decide (2 * r = 2 ^ e) && decide (q % 2 = 1))
  let m := (if up then q + 1 else q) * 2 ^ e
  if v < 0 then -(m : Int) else (m : Int)

/-! ## Scores -/

/-- Scores: finite values and the two infinities of `double`. -/
inductive Score where
  | ninf : Score
  | fin (v : Int) : Score
  | pinf : Score
  deriving DecidableEq, Repr

namespace Score

/-- Unary minus. -/
def neg : Score → Score
  | ninf => pinf
  | fin v => fin (-v)
  | pinf => ninf

/-- The expression `x - 1.0` in `double` arithmetic: the exact difference is
rounded to the nearest `double`. -/
def sub_one : Score → Score
  | ninf => ninf
  | fin v => fin (double_round (v - 1))
  | pinf => pinf

/-- The comparison `a < b`. -/
def lt : Score → Score → Bool
  | ninf, ninf => false
  | ninf, _ => true
  | fin _, ninf => false
  | fin a, fin b => decide (a < b)
  | fin _, pinf => true
  | pinf, _ => false

/-- The comparison `a >= b`. -/
def ge (a b : Score) : Bool := !(lt a b)

/-- The function `std::max(a, b)`, which is `(a < b) ? b : a`. -/
def max (a b : Score) : Score := if lt a b then b else a

end Score

/-! ## Players, nodes, collaborators -/

/-- The enumeration `chess::player` (the two sides). -/
inductive player where
  | White : player
  | Black : player
  deriving DecidableEq, Repr

/-- The side `opponent_v<Player>`. -/
def opponent_v : player → player
  | player.White => player.Black
  | player.Black => player.White

/-- The struct `game_tree_node`: optional move, optional children, optional
evaluation. -/
inductive game_tree_node (Mv : Type) where
  | mk (move : Option Mv) (children : Option (List (game_tree_node Mv)))
      (eval : Option Score) : game_tree_node Mv

namespace game_tree_node

variable {Mv : Type}

/-- Field `move`. -/
def move : game_tree_node Mv → Option Mv
  | mk m _ _ => m

/-- Field `children`. -/
def children : game_tree_node Mv → Option (List (game_tree_node Mv))
  | mk _ c _ => c

/-- Field `eval`. -/
def eval : game_tree_node Mv → Option Score
  | mk _ _ e => e

/-- Assignment to the field `eval`. -/
def set_eval (n : game_tree_node Mv) (e : Option Score) : game_tree_node Mv :=
  mk n.move n.children e

/-- Assignment to the field `children`. -/
def set_children (n : game_tree_node Mv) (c : Option (List (game_tree_node Mv))) :
    game_tree_node Mv :=
  mk n.move c n.eval

/-- A value-initialised node, as produced by `resize`. -/
def empty : game_tree_node Mv := mk none none none

/-- A child stub: the move is set, children and evaluation are absent. -/
def stub (m : Mv) : game_tree_node Mv := mk (some m) none none

end game_tree_node

/-- The external collaborators of the search core, for one set of move
tables. -/
structure Game (Pos Mv : Type) where
  /-- Legal moves of the side to move, in enumeration order. -/
  generate_legal_moves : player → Pos → List Mv
  /-- Function `move_piece(position, move)`. -/
  move_piece : Pos → Mv → Pos
  /-- Function `undo(position)`. -/
  undo : Pos → Pos
  /-- Functor `eval<Representation, Player>{}(tables, position, ply).eval`. -/
  eval : player → Pos → Int → Int

/-- Modelled from the spec: the body of `valid_moves<Player>(tables,
position, node)` is not part of the sources at hand.  Following the external
interface section, it populates the children of the node with one stub per
legal move of the position, in enumeration order, replacing what was there. -/
def valid_moves {Pos Mv : Type} (g : Game Pos Mv) (pl : player) (position : Pos)
    (node : game_tree_node Mv) : game_tree_node Mv :=
  node.set_children (some ((g.generate_legal_moves pl position).map game_tree_node.stub))

/-! ## The search -/

/-- Constant `USE_STACK_DEPTH`. -/
def USE_STACK_DEPTH : Int := 4

/-- Constant `STACK_NODE_STACK_CAPACITY`. -/
def STACK_NODE_STACK_CAPACITY : Nat := 32

/-- Failures of the embedded program. -/
inductive Failure where
  /-- The exception `stack_node_stack_limit_exceeded`. -/
  | stack_node_stack_limit_exceeded : Failure
  /-- Dereference of an empty `std::optional` (undefined behaviour). -/
  | empty_optional : Failure
  /-- The exception raised by `set_value` on a satisfied promise. -/
  | promise_already_satisfied : Failure
  /-- The fuel of the embedding ran out (never the case for `pvs`). -/
  | out_of_fuel : Failure
  deriving DecidableEq, Repr

/-- Ghost events: the calls a search makes. -/
inductive Event (Pos Mv : Type) where
  /-- Entry of `pvs` with these template and call arguments. -/
  | enter (pl : player) (startDepth depth : Int) (alpha beta : Score) : Event Pos Mv
  /-- The frame is arena slot `index`. -/
  | slot (index : Nat) : Event Pos Mv
  /-- A call of `valid_moves`. -/
  | enumerate (pl : player) (position : Pos) : Event Pos Mv
  /-- A call of the static evaluator. -/
  | evaluate (pl : player) (position : Pos) (ply : Int) : Event Pos Mv
  /-- A call of `move_piece`. -/
  | apply (m : Mv) : Event Pos Mv
  /-- A call of `undo`. -/
  | undo : Event Pos Mv

/-- What a returning call of `pvs` leaves behind. -/
structure pvs_result (Pos Mv : Type) where
  /-- The returned score. -/
  score : Score
  /-- The position argument after the call. -/
  position : Pos
  /-- The node argument after the call. -/
  node : game_tree_node Mv
  /-- The thread-local `stackNodeStack` after the call. -/
  stackNodeStack : List (game_tree_node Mv)
  /-- Ghost trace of the call. -/
  trace : List (Event Pos Mv)

/-- Lines 46 to 52 of `pvs`: make sure slot `stackStackIndex` exists.
After `reserve(STACK_NODE_STACK_CAPACITY)` the capacity is the larger of the
requested capacity and the current size. -/
def acquire_slot {Mv : Type} (stackNodeStack : List (game_tree_node Mv)) (useStack : Bool)
    (stackStackIndex : Int) : Except Failure (List (game_tree_node Mv)) :=
  if useStack && decide ((stackNodeStack.length : Int) ≤ stackStackIndex) then
    if stackStackIndex ≥ ((Nat.max STACK_NODE_STACK_CAPACITY stackNodeStack.length : Nat) : Int) then
      Except.error Failure.stack_node_stack_limit_exceeded
    else
      Except.ok (stackNodeStack ++
        List.replicate (stackStackIndex.toNat + 1 - stackNodeStack.length) game_tree_node.empty)
  else
    Except.ok stackNodeStack

/-- What the child loop of `pvs` leaves behind. -/
structure loop_result (Pos Mv : Type) where
  /-- The local `alpha` when the loop is left. -/
  alpha : Score
  /-- The position when the loop is left. -/
  position : Pos
  /-- The children of the frame when the loop is left. -/
  children : List (game_tree_node Mv)
  /-- The thread-local `stackNodeStack` when the loop is left. -/
  stackNodeStack : List (game_tree_node Mv)
  /-- Ghost trace of the loop. -/
  trace : List (Event Pos Mv)

/-- Lines 70 to 78 of `pvs`: the score of one child, by a full-window search
for the first child and by a null-window probe, followed by a re-search when
the probe lands inside the window, for the others.  The argument `search` is
the recursive call `pvs<opponent_v<Player>>(tables, _, _, startDepth,
depth - 1, _, _)`. -/
def search_child {Pos Mv : Type}
    (search : Pos → game_tree_node Mv → Score → Score → List (game_tree_node Mv) →
      Except Failure (pvs_result Pos Mv))
    (first : Bool) (position : Pos) (child : game_tree_node Mv) (alpha beta : Score)
    (stackNodeStack : List (game_tree_node Mv)) : Except Failure (pvs_result Pos Mv) :=
  if first then
    match search position child beta.neg alpha.neg stackNodeStack with
    | Except.error e => Except.error e
    | Except.ok r => Except.ok { r with score := r.score.neg }
  else
    match search position child alpha.neg.sub_one alpha.neg stackNodeStack with
    | Except.error e => Except.error e
    | Except.ok r =>
      let score := r.score.neg
      if alpha.lt score && score.lt beta then
        match search r.position r.node beta.neg score.neg r.stackNodeStack with
        | Except.error e => Except.error e
        | Except.ok r2 => Except.ok { r2 with score := r2.score.neg, trace := r.trace ++ r2.trace }
      else
        Except.ok { r with score := score }

/-- Lines 67 to 83 of `pvs`: the loop over the children of the frame. -/
def child_loop {Pos Mv : Type} (g : Game Pos Mv)
    (search : Pos → game_tree_node Mv → Score → Score → List (game_tree_node Mv) →
      Except Failure (pvs_result Pos Mv))
    (beta : Score) :
    Bool → List (game_tree_node Mv) → Pos → Score → List (game_tree_node Mv) →
      Except Failure (loop_result Pos Mv)
  | _, [], position, alpha, stackNodeStack =>
    Except.ok { alpha := alpha, position := position, children := [],
                stackNodeStack := stackNodeStack, trace := [] }
  | first, child :: rest, position, alpha, stackNodeStack =>
    match child.move with
    | none => Except.error Failure.empty_optional
    | some m =>
      match search_child search first (g.move_piece position m) child alpha beta stackNodeStack with
      | Except.error e => Except.error e
      | Except.ok r =>
        let position1 := g.undo r.position
        let alpha1 := Score.max alpha r.score
        if alpha1.ge beta then
          Except.ok { alpha := alpha1, position := position1, children := r.node :: rest,
                      stackNodeStack := r.stackNodeStack,
                      trace := Event.apply m :: r.trace ++ [Event.undo] }
        else
          match child_loop g search beta false rest position1 alpha1 r.stackNodeStack with
          | Except.error e => Except.error e
          | Except.ok l =>
            Except.ok { l with children := r.node :: l.children,
                               trace := Event.apply m :: r.trace ++ Event.undo :: l.trace }

/-- Line 53 of `pvs`: the frame `use` is arena slot `index` when `useStack`
holds and the node of the caller otherwise. -/
def select_frame {Mv : Type} (useStack : Bool) (index : Nat)
    (stackNodeStack : List (game_tree_node Mv)) (node : game_tree_node Mv) :
    game_tree_node Mv :=
  if useStack then stackNodeStack.getD index game_tree_node.empty else node

/-- Lines 55 to 61 of `pvs`: whether `valid_moves` is called for the frame. -/
def needs_expansion {Mv : Type} (useStack : Bool) (use : game_tree_node Mv) : Bool :=
  use.children.isNone || useStack

/-- Lines 54 to 61 of `pvs`: clear the evaluation of the frame and expand
it. -/
def expand_frame {Pos Mv : Type} (g : Game Pos Mv) (pl : player) (position : Pos)
    (useStack : Bool) (use : game_tree_node Mv) : game_tree_node Mv :=
  if needs_expansion useStack use then valid_moves g pl position (use.set_eval none)
  else use.set_eval none

/-- The frame `use` is a reference.  The arena after a write to the frame:
slot `index` is overwritten when `useStack` holds. -/
def store_stack {Mv : Type} (useStack : Bool) (index : Nat)
    (stackNodeStack : List (game_tree_node Mv)) (use : game_tree_node Mv) :
    List (game_tree_node Mv) :=
  if useStack then stackNodeStack.set index use else stackNodeStack

/-- The node of the caller after a write to the frame: it is overwritten
unless `useStack` holds. -/
def store_node {Mv : Type} (useStack : Bool) (node use : game_tree_node Mv) :
    game_tree_node Mv :=
  if useStack then node else use

/-- Ghost trace of lines 38 to 61 of `pvs`. -/
def entry_trace {Pos Mv : Type} (pl : player) (position : Pos) (startDepth depth : Int)
    (alpha beta : Score) (useStack : Bool) (index : Nat) (expand : Bool) :
    List (Event Pos Mv) :=
  Event.enter pl startDepth depth alpha beta ::
    ((if useStack then [Event.slot index] else []) ++
     (if expand then [Event.enumerate pl position] else []))

/-- Function `pvs<Player>(tables, position, node, startDepth, depth, alpha,
beta)` with the thread-local `stackNodeStack` made explicit, by fuel. -/
def pvs_fuel {Pos Mv : Type} (g : Game Pos Mv) :
    Nat → player → Pos → game_tree_node Mv → Int → Int → Score → Score →
      List (game_tree_node Mv) → Except Failure (pvs_result Pos Mv)
  | 0, _, _, _, _, _, _, _, _ => Except.error Failure.out_of_fuel
  | fuel + 1, pl, position, node, startDepth, depth, alpha, beta, stackNodeStack =>
    let stackUsageDepth := startDepth - depth
    let useStack := decide (stackUsageDepth ≥ USE_STACK_DEPTH)
    let stackStackIndex := stackUsageDepth - USE_STACK_DEPTH
    match acquire_slot stackNodeStack useStack stackStackIndex with
    | Except.error e => Except.error e
    | Except.ok stack1 =>
      let index := stackStackIndex.toNat
      let use0 := select_frame useStack index stack1 node
      let use2 := expand_frame g pl position useStack use0
      let stack2 := store_stack useStack index stack1 use2
      let trace0 : List (Event Pos Mv) :=
        entry_trace pl position startDepth depth alpha beta useStack index
          (needs_expansion useStack use0)
      let validMoves := use2.children.getD []
      if decide (depth = 0) || validMoves.isEmpty then
        let e := Score.fin (g.eval pl position (startDepth - depth))
        let use3 := use2.set_eval (some e)
        Except.ok { score := e, position := position,
                    node := store_node useStack node use3,
                    stackNodeStack := store_stack useStack index stack2 use3,
                    trace := trace0 ++ [Event.evaluate pl position (startDepth - depth)] }
      else
        match child_loop g
            (fun p n a b s => pvs_fuel g fuel (opponent_v pl) p n startDepth (depth - 1) a b s)
            beta true validMoves position alpha stack2 with
        | Except.error e => Except.error e
        | Except.ok l =>
          let use3 := (use2.set_children (some l.children)).set_eval (some l.alpha)
          Except.ok { score := l.alpha, position := l.position,
                      node := store_node useStack node use3,
                      stackNodeStack := store_stack useStack index l.stackNodeStack use3,
                      trace := trace0 ++ l.trace }

/-- A fuel that `pvs` cannot exhaust: the recursion stops when `depth`
reaches zero and, for a negative `depth`, when the arena overflows. -/
def pvs_fuel_bound (startDepth depth : Int) : Nat :=
  (Max.max depth (36 - (startDepth - depth))).toNat + 1

/-- Function `pvs<Player>(tables, position, node, startDepth, depth, alpha,
beta)`, with the thread-local `stackNodeStack` made explicit. -/
def pvs {Pos Mv : Type} (g : Game Pos Mv) (pl : player) (position : Pos)
    (node : game_tree_node Mv) (startDepth depth : Int) (alpha beta : Score)
    (stackNodeStack : List (game_tree_node Mv)) : Except Failure (pvs_result Pos Mv) :=
  pvs_fuel g (pvs_fuel_bound startDepth depth) pl position node startDepth depth alpha beta
    stackNodeStack

/-! ## A search that is left by an exception

No frame of `pvs` catches an exception.  When one is thrown, every frame
on the line of play is left where it stands: the moves applied on the way
down are not taken back, the nodes and arena slots written so far keep what
was written, and the evaluation of each frame on the line, cleared on entry,
stays absent. -/

/-- What a call of `pvs` leaves behind when control leaves it. -/
structure pvs_unwound (Pos Mv : Type) where
  /-- The position argument. -/
  position : Pos
  /-- The node argument. -/
  node : game_tree_node Mv
  /-- The thread-local `stackNodeStack`. -/
  stackNodeStack : List (game_tree_node Mv)

/-- What the child loop of `pvs` leaves behind when control leaves it. -/
structure loop_unwound (Pos Mv : Type) where
  /-- The position. -/
  position : Pos
  /-- The children of the frame. -/
  children : List (game_tree_node Mv)
  /-- The thread-local `stackNodeStack`. -/
  stackNodeStack : List (game_tree_node Mv)

/-- Lines 70 to 78 of `pvs` for a child whose search is left by an
exception: the exception comes from the full-window search of a first child,
from the null-window probe or, after a probe that has returned, from the
re-search.  The argument `unwound` tells what the recursive call leaves
behind. -/
def search_child_unwound {Pos Mv : Type}
    (search : Pos → game_tree_node Mv → Score → Score → List (game_tree_node Mv) →
      Except Failure (pvs_result Pos Mv))
    (unwound : Pos → game_tree_node Mv → Score → Score → List (game_tree_node Mv) →
      pvs_unwound Pos Mv)
    (first : Bool) (position : Pos) (child : game_tree_node Mv) (alpha beta : Score)
    (stackNodeStack : List (game_tree_node Mv)) : pvs_unwound Pos Mv :=
  if first then
    unwound position child beta.neg alpha.neg stackNodeStack
  else
    match search position child alpha.neg.sub_one alpha.neg stackNodeStack with
    | Except.error _ => unwound position child alpha.neg.sub_one alpha.neg stackNodeStack
    | Except.ok r =>
      let score := r.score.neg
      if alpha.lt score && score.lt beta then
        unwound r.position r.node beta.neg score.neg r.stackNodeStack
      else
        { position := r.position, node := r.node, stackNodeStack := r.stackNodeStack }

/-- Lines 67 to 83 of `pvs` for a loop that is left by an exception: the
children before the failing one have been searched and their moves taken
back, the move of the failing child stays applied, the children after it are
not reached. -/
def child_loop_unwound {Pos Mv : Type} (g : Game Pos Mv)
    (search : Pos → game_tree_node Mv → Score → Score → List (game_tree_node Mv) →
      Except Failure (pvs_result Pos Mv))
    (unwound : Pos → game_tree_node Mv → Score → Score → List (game_tree_node Mv) →
      pvs_unwound Pos Mv)
    (beta : Score) :
    Bool → List (game_tree_node Mv) → Pos → Score → List (game_tree_node Mv) →
      loop_unwound Pos Mv
  | _, [], position, _, stackNodeStack =>
    { position := position, children := [], stackNodeStack := stackNodeStack }
  | first, child :: rest, position, alpha, stackNodeStack =>
    match child.move with
    | none => { position := position, children := child :: rest, stackNodeStack := stackNodeStack }
    | some m =>
      match search_child search first (g.move_piece position m) child alpha beta stackNodeStack with
      | Except.error _ =>
        let u := search_child_unwound search unwound first (g.move_piece position m) child
          alpha beta stackNodeStack
        { position := u.position, children := u.node :: rest,
          stackNodeStack := u.stackNodeStack }
      | Except.ok r =>
        let position1 := g.undo r.position
        let alpha1 := Score.max alpha r.score
        if alpha1.ge beta then
          { position := position1, children := r.node :: rest,
            stackNodeStack := r.stackNodeStack }
        else
          let l := child_loop_unwound g search unwound beta false rest position1 alpha1
            r.stackNodeStack
          { l with children := r.node :: l.children }

/-- What a call `pvs<Player>(tables, position, node, startDepth, depth, alpha,
beta)` leaves behind when control leaves it, by fuel.  When the capacity
error is thrown on line 50, `reserve` has changed the capacity of the vector
only.  When the exception comes out of the child loop, the frame keeps the
children as the loop left them and has no evaluation.  For a call that
returns, this is what `pvs_fuel` returns. -/
def pvs_fuel_unwound {Pos Mv : Type} (g : Game Pos Mv) :
    Nat → player → Pos → game_tree_node Mv → Int → Int → Score → Score →
      List (game_tree_node Mv) → pvs_unwound Pos Mv
  | 0, _, position, node, _, _, _, _, stackNodeStack =>
    { position := position, node := node, stackNodeStack := stackNodeStack }
  | fuel + 1, pl, position, node, startDepth, depth, alpha, beta, stackNodeStack =>
    let stackUsageDepth := startDepth - depth
    let useStack := decide (stackUsageDepth ≥ USE_STACK_DEPTH)
    let stackStackIndex := stackUsageDepth - USE_STACK_DEPTH
    match acquire_slot stackNodeStack useStack stackStackIndex with
    | Except.error _ =>
      { position := position, node := node, stackNodeStack := stackNodeStack }
    | Except.ok stack1 =>
      let index := stackStackIndex.toNat
      let use0 := select_frame useStack index stack1 node
      let use2 := expand_frame g pl position useStack use0
      let stack2 := store_stack useStack index stack1 use2
      let validMoves := use2.children.getD []
      if decide (depth = 0) || validMoves.isEmpty then
        let e := Score.fin (g.eval pl position (startDepth - depth))
        let use3 := use2.set_eval (some e)
        { position := position, node := store_node useStack node use3,
          stackNodeStack := store_stack useStack index stack2 use3 }
      else
        match child_loop g
            (fun p n a b s => pvs_fuel g fuel (opponent_v pl) p n startDepth (depth - 1) a b s)
            beta true validMoves position alpha stack2 with
        | Except.error _ =>
          let l := child_loop_unwound g
            (fun p n a b s => pvs_fuel g fuel (opponent_v pl) p n startDepth (depth - 1) a b s)
            (fun p n a b s =>
              pvs_fuel_unwound g fuel (opponent_v pl) p n startDepth (depth - 1) a b s)
            beta true validMoves position alpha stack2
          let use3 := use2.set_children (some l.children)
          { position := l.position, node := store_node useStack node use3,
            stackNodeStack := store_stack useStack index l.stackNodeStack use3 }
        | Except.ok l =>
          let use3 := (use2.set_children (some l.children)).set_eval (some l.alpha)
          { position := l.position, node := store_node useStack node use3,
            stackNodeStack := store_stack useStack index l.stackNodeStack use3 }

/-- What a call of `pvs` leaves behind when control leaves it. -/
def pvs_left {Pos Mv : Type} (g : Game Pos Mv) (pl : player) (position : Pos)
    (node : game_tree_node Mv) (startDepth depth : Int) (alpha beta : Score)
    (stackNodeStack : List (game_tree_node Mv)) : pvs_unwound Pos Mv :=
  pvs_fuel_unwound g (pvs_fuel_bound startDepth depth) pl position node startDepth depth
    alpha beta stackNodeStack

/-! ## The worker -/

/-- The struct `ai_thread::work_item`.  The promise `result` is `none` until
`set_value` has been called on it. -/
structure work_item (Pos Mv : Type) where
  /-- Field `position`. -/
  position : Pos
  /-- Field `node`. -/
  node : game_tree_node Mv
  /-- Field `result`: the shared state of the promise. -/
  result : Option (game_tree_node Mv)

/-- The data members of `ai_thread` that the sequential behaviour depends on,
the thread-local objects of the worker thread (`sEvalBoard`,
`stackNodeStack`), and two ghost fields. -/
structure ai_thread (Pos Mv : Type) where
  /-- Member `iQueue`. -/
  iQueue : List (work_item Pos Mv)
  /-- Member `iPlyDepth`. -/
  iPlyDepth : Int
  /-- Member `iFinished`. -/
  iFinished : Bool
  /-- The thread-local board of `eval_board`. -/
  sEvalBoard : Pos
  /-- The thread-local `stackNodeStack` of `pvs`. -/
  stackNodeStack : List (game_tree_node Mv)
  /-- Ghost: the number of `notify_one` calls made on `iSignal`. -/
  notified : Nat
  /-- Ghost: the `set_value` calls made so far, oldest first, each with the
  index in `iQueue` of the item whose promise was satisfied. -/
  fulfilled : List (Nat × game_tree_node Mv)

/-- The state after construction, before the worker has run. -/
def ai_thread.init {Pos Mv : Type} (board : Pos) : ai_thread Pos Mv :=
  { iQueue := [], iPlyDepth := 0, iFinished := false, sEvalBoard := board,
    stackNodeStack := [], notified := 0, fulfilled := [] }

/-- Method `ai_thread::set_ply_depth`. -/
def ai_thread.set_ply_depth {Pos Mv : Type} (t : ai_thread Pos Mv) (aPlyDepth : Int) :
    ai_thread Pos Mv :=
  { t with iPlyDepth := aPlyDepth }

/-- Method `ai_thread::eval`: append a work item with a fresh promise.  The
returned reference `iQueue.back().result` is rendered as the index of the new
item in the queue. -/
def ai_thread.eval {Pos Mv : Type} (t : ai_thread Pos Mv) (aPosition : Pos)
    (aNode : game_tree_node Mv) : ai_thread Pos Mv × Nat :=
  ({ t with iQueue := t.iQueue ++ [{ position := aPosition, node := aNode, result := none }] },
   t.iQueue.length)

/-- Method `ai_thread::start`. -/
def ai_thread.start {Pos Mv : Type} (t : ai_thread Pos Mv) : ai_thread Pos Mv :=
  if t.iQueue.isEmpty then t else { t with notified := t.notified + 1 }

/-- The destructor up to the join: set the stop flag and signal. -/
def ai_thread.stop {Pos Mv : Type} (t : ai_thread Pos Mv) : ai_thread Pos Mv :=
  { t with iFinished := true, notified := t.notified + 1 }

/-- What the body of the batch loop leaves behind for one work item. -/
structure item_result (Pos Mv : Type) where
  /-- The work item after the body. -/
  item : work_item Pos Mv
  /-- The thread-local board after the body. -/
  sEvalBoard : Pos
  /-- The thread-local `stackNodeStack` after the body. -/
  stackNodeStack : List (game_tree_node Mv)

/-- Lines 144 to 150 of `ai_thread::process`: the body of the batch loop for
one work item.  The node left in the item by `std::move` is kept as it
was. -/
def process_item {Pos Mv : Type} (g : Game Pos Mv) (Player : player) (iPlyDepth : Int)
    (workItem : work_item Pos Mv) (stackNodeStack : List (game_tree_node Mv)) :
    Except Failure (item_result Pos Mv) :=
  match workItem.node.move with
  | none => Except.error Failure.empty_optional
  | some m =>
    match pvs g (opponent_v Player) (g.move_piece workItem.position m) workItem.node
        iPlyDepth iPlyDepth Score.ninf Score.pinf stackNodeStack with
    | Except.error e => Except.error e
    | Except.ok r =>
      match r.node.eval with
      | none => Except.error Failure.empty_optional
      | some e =>
        match workItem.result with
        | some _ => Except.error Failure.promise_already_satisfied
        | none =>
          let node := r.node.set_eval (some e.neg)
          Except.ok { item := { workItem with node := node, result := some node },
                      sEvalBoard := r.position, stackNodeStack := r.stackNodeStack }

/-- Lines 144 to 150 of `ai_thread::process` for an item whose body is left
by an exception: the scratch board has been assigned, and the search has
worked on the node of the item in place and on the scratch board; the promise
of the item is not satisfied.  For a body that completes, this is what
`process_item` returns. -/
def process_item_unwound {Pos Mv : Type} (g : Game Pos Mv) (Player : player) (iPlyDepth : Int)
    (workItem : work_item Pos Mv) (stackNodeStack : List (game_tree_node Mv)) :
    item_result Pos Mv :=
  match workItem.node.move with
  | none =>
    { item := workItem, sEvalBoard := workItem.position, stackNodeStack := stackNodeStack }
  | some m =>
    match pvs g (opponent_v Player) (g.move_piece workItem.position m) workItem.node
        iPlyDepth iPlyDepth Score.ninf Score.pinf stackNodeStack with
    | Except.error _ =>
      let u := pvs_left g (opponent_v Player) (g.move_piece workItem.position m) workItem.node
        iPlyDepth iPlyDepth Score.ninf Score.pinf stackNodeStack
      { item := { workItem with node := u.node }, sEvalBoard := u.position,
        stackNodeStack := u.stackNodeStack }
    | Except.ok r =>
      match r.node.eval with
      | none =>
        { item := { workItem with node := r.node }, sEvalBoard := r.position,
          stackNodeStack := r.stackNodeStack }
      | some e =>
        let node := r.node.set_eval (some e.neg)
        match workItem.result with
        | some _ =>
          { item := { workItem with node := node }, sEvalBoard := r.position,
            stackNodeStack := r.stackNodeStack }
        | none =>
          { item := { workItem with node := node, result := some node },
            sEvalBoard := r.position, stackNodeStack := r.stackNodeStack }

/-- What the batch loop leaves behind. -/
structure drain_result (Pos Mv : Type) where
  /-- The items of the queue after the loop. -/
  items : List (work_item Pos Mv)
  /-- The thread-local board after the loop. -/
  sEvalBoard : Pos
  /-- The thread-local `stackNodeStack` after the loop. -/
  stackNodeStack : List (game_tree_node Mv)
  /-- Ghost: the `set_value` calls of the loop, oldest first. -/
  fulfilled : List (Nat × game_tree_node Mv)
  /-- The exception that ended the loop, if any. -/
  failure : Option Failure

/-- Lines 142 to 151 of `ai_thread::process`: the loop over the queue, from
the item at `index` on.  The loop has no handler: an exception from the body
ends it with the failing item, the scratch board and the arena as the body
left them, and with the items after the failing one untouched. -/
def drain {Pos Mv : Type} (g : Game Pos Mv) (Player : player) (iPlyDepth : Int) :
    Nat → List (work_item Pos Mv) → Pos → List (game_tree_node Mv) → drain_result Pos Mv
  | _, [], board, stack =>
    { items := [], sEvalBoard := board, stackNodeStack := stack, fulfilled := [],
      failure := none }
  | index, workItem :: rest, _, stack =>
    match process_item g Player iPlyDepth workItem stack with
    | Except.error e =>
      let u := process_item_unwound g Player iPlyDepth workItem stack
      { items := u.item :: rest, sEvalBoard := u.sEvalBoard,
        stackNodeStack := u.stackNodeStack, fulfilled := [], failure := some e }
    | Except.ok r =>
      let d := drain g Player iPlyDepth (index + 1) rest r.sEvalBoard r.stackNodeStack
      { d with items := r.item :: d.items,
               fulfilled := (index, r.item.node) :: d.fulfilled }

/-- How one pass of the loop of `ai_thread::process` ends. -/
inductive worker_status where
  /-- The wait predicate is false: the worker stays blocked in `wait`. -/
  | blocked : worker_status
  /-- The stop flag was set: `process` returned. -/
  | stopped : worker_status
  /-- A batch was drained and the queue cleared: back to the wait. -/
  | drained : worker_status
  /-- An exception left `process`, and with it the function of the worker
  thread, which has no handler either: the program is terminated. -/
  | failed (e : Failure) : worker_status
  deriving DecidableEq, Repr

/-- One pass of the `for (;;)` loop of `ai_thread::process`.  When an
exception leaves the batch loop, the state is the one in which the exception
leaves `process`: `iQueue.clear()` is not reached. -/
def ai_thread.process {Pos Mv : Type} (g : Game Pos Mv) (Player : player)
    (t : ai_thread Pos Mv) : ai_thread Pos Mv × worker_status :=
  if t.iFinished then (t, worker_status.stopped)
  else if t.iQueue.isEmpty then (t, worker_status.blocked)
  else
    let d := drain g Player t.iPlyDepth 0 t.iQueue t.sEvalBoard t.stackNodeStack
    match d.failure with
    | some e =>
      ({ t with iQueue := d.items, sEvalBoard := d.sEvalBoard,
                stackNodeStack := d.stackNodeStack,
                fulfilled := t.fulfilled ++ d.fulfilled }, worker_status.failed e)
    | none =>
      ({ t with iQueue := [], sEvalBoard := d.sEvalBoard,
                stackNodeStack := d.stackNodeStack,
                fulfilled := t.fulfilled ++ d.fulfilled }, worker_status.drained)

/-- Submit the items in order with `ai_thread::eval`; the second component
lists the handles returned, in order. -/
def submit_all {Pos Mv : Type} (t : ai_thread Pos Mv) :
    List (Pos × game_tree_node Mv) → ai_thread Pos Mv × List Nat
  | [] => (t, [])
  | (aPosition, aNode) :: rest =>
    let s := submit_all (t.eval aPosition aNode).1 rest
    (s.1, (t.eval aPosition aNode).2 :: s.2)

/-! ## Specification-side definitions -/

/-- A caller-owned node agrees with the game at a position: either it has
not been expanded, or its children carry the legal moves of the position, in
order, and agree with the game at the positions the moves lead to. -/
inductive well_formed {Pos Mv : Type} (g : Game Pos Mv) :
    player → Pos → game_tree_node Mv → Prop where
  | unexpanded (pl : player) (position : Pos) (node : game_tree_node Mv) :
      node.children = none → well_formed g pl position node
  | expanded (pl : player) (position : Pos) (node : game_tree_node Mv)
      (cs : List (game_tree_node Mv)) :
      node.children = some cs →
      cs.map game_tree_node.move = (g.generate_legal_moves pl position).map some →
      (∀ c ∈ cs, ∀ m, c.move = some m →
        well_formed g (opponent_v pl) (g.move_piece position m) c) →
      well_formed g pl position node

/-- The moves applied and not yet undone once the calls of a trace have been
made, newest first, starting from the moves in `pending`; `none` when an
`undo` finds no move to take back. -/
def pending_moves {Pos Mv : Type} : List (Event Pos Mv) → List Mv → Option (List Mv)
  | [], pending => some pending
  | Event.apply m :: t, pending => pending_moves t (m :: pending)
  | Event.undo :: _, [] => none
  | Event.undo :: t, _ :: pending => pending_moves t pending
  | Event.enter _ _ _ _ _ :: t, pending => pending_moves t pending
  | Event.slot _ :: t, pending => pending_moves t pending
  | Event.enumerate _ _ :: t, pending => pending_moves t pending
  | Event.evaluate _ _ _ :: t, pending => pending_moves t pending

/-! ## Observations on results and traces -/

/-- The frame of a call `pvs(.., startDepth, depth, ..)` as it is found after
the call has returned `r`: arena slot `startDepth - depth - USE_STACK_DEPTH`
or the node of the caller. -/
def frame_after {Pos Mv : Type} (startDepth depth : Int) (r : pvs_result Pos Mv) :
    game_tree_node Mv :=
  select_frame (decide (startDepth - depth ≥ USE_STACK_DEPTH))
    (startDepth - depth - USE_STACK_DEPTH).toNat r.stackNodeStack r.node

/-- Whether an event is a call of `move_piece`. -/
def Event.is_apply {Pos Mv : Type} : Event Pos Mv → Bool
  | Event.apply _ => true
  | _ => false

/-- Whether an event is a call of `valid_moves`. -/
def Event.is_enumerate {Pos Mv : Type} : Event Pos Mv → Bool
  | Event.enumerate _ _ => true
  | _ => false

/-! ## Concrete games and scenarios -/

/-- A two-move game: positions are the lists of moves played, newest first.
After the lead move `0` the side to move has the moves `1` and `2`; the
position after `1` is evaluated as `-5` and the position after `2` as `-3`
for the side to move there. -/
def two_move_game : Game (List Nat) Nat :=
  { generate_legal_moves := fun _ p => if p = [0] then [1, 2] else [],
    move_piece := fun p m => m :: p,
    undo := fun p => p.tail,
    eval := fun _ p _ => if p = [1, 0] then -5 else if p = [2, 0] then -3 else 0 }

/-- A game that never ends: one legal move in every position, the position
counts the moves played and is its own evaluation. -/
def endless_game : Game Nat Unit :=
  { generate_legal_moves := fun _ _ => [()],
    move_piece := fun p _ => p + 1,
    undo := fun p => p - 1,
    eval := fun _ p _ => p }

/-- A game without legal moves: the position counts the moves played and is
evaluated as ten more than that count. -/
def stalemate_game : Game Nat Unit :=
  { generate_legal_moves := fun _ _ => [],
    move_piece := fun p _ => p + 1,
    undo := fun p => p - 1,
    eval := fun _ p _ => 10 + p }

/-- The worker of the two-move scenario: ply depth 1 and one queued item,
the empty position with a node that carries the lead move `0`. -/
def two_move_thread : ai_thread (List Nat) Nat :=
  (((ai_thread.init []).set_ply_depth 1).eval [] (game_tree_node.stub 0)).1.start

/-- What the search of the two-move scenario returns: the score `+5`, the
position after the lead move, the scored tree and the calls made. -/
def two_move_result : pvs_result (List Nat) Nat :=
  { score := Score.fin 5, position := [0],
    node := game_tree_node.mk (some 0)
      (some [game_tree_node.mk (some 1) (some []) (some (Score.fin (-5))),
             game_tree_node.mk (some 2) (some []) (some (Score.fin (-3)))])
      (some (Score.fin 5)),
    stackNodeStack := [],
    trace := [Event.enter player.Black 1 1 Score.ninf Score.pinf,
              Event.enumerate player.Black [0],
              Event.apply 1,
              Event.enter player.White 1 0 Score.ninf Score.pinf,
              Event.enumerate player.White [1, 0],
              Event.evaluate player.White [1, 0] 1,
              Event.undo,
              Event.apply 2,
              Event.enter player.White 1 0 (Score.fin (-6)) (Score.fin (-5)),
              Event.enumerate player.White [2, 0],
              Event.evaluate player.White [2, 0] 1,
              Event.undo] }

/-- What a call of `pvs<Black>` at ply offset 5 with remaining depth 0 returns
in the game without legal moves, from an empty arena: the frame is slot 1 of
the arena, and the node of the caller is not touched. -/
def fifth_ply_result : pvs_result Nat Unit :=
  { score := Score.fin 10, position := 0,
    node := game_tree_node.stub (),
    stackNodeStack := [game_tree_node.empty,
                       game_tree_node.mk none (some []) (some (Score.fin 10))],
    trace := [Event.enter player.Black 5 0 Score.ninf Score.pinf,
              Event.slot 1,
              Event.enumerate player.Black 0,
              Event.evaluate player.Black 0 5] }

/-- The children of a node whose negated evaluation is `score`: the lines
that attain the score of the node. -/
def best_lines {Mv : Type} (node : game_tree_node Mv) (score : Score) :
    List (game_tree_node Mv) :=
  (node.children.getD []).filter (fun c => decide (c.eval.map Score.neg = some score))

/-! ## The arena as a state -/

/-- Lines 46 to 52 of `pvs` as an effect on the elements of the vector, for
both outcomes: `reserve` changes the capacity only, and the exception is
thrown before `resize`. -/
def stack_after_acquire {Mv : Type} (stackNodeStack : List (game_tree_node Mv))
    (useStack : Bool) (stackStackIndex : Int) : List (game_tree_node Mv) :=
  if useStack && decide ((stackNodeStack.length : Int) ≤ stackStackIndex) then
    if stackStackIndex ≥ ((Nat.max STACK_NODE_STACK_CAPACITY stackNodeStack.length : Nat) : Int) then
      stackNodeStack
    else
      stackNodeStack ++
        List.replicate (stackStackIndex.toNat + 1 - stackNodeStack.length) game_tree_node.empty
  else
    stackNodeStack

/-! ## Further concrete games -/

/-- Whether an event is the selection of an arena slot. -/
def Event.is_slot {Pos Mv : Type} : Event Pos Mv → Bool
  | Event.slot _ => true
  | _ => false

/-- Whether an event is a call of the static evaluator. -/
def Event.is_evaluate {Pos Mv : Type} : Event Pos Mv → Bool
  | Event.evaluate _ _ _ => true
  | _ => false

/-- The events of lines 38 to 62 of the outermost frame of a trace: those
before its first call of `move_piece` or of the static evaluator. -/
def own_events {Pos Mv : Type} (trace : List (Event Pos Mv)) : List (Event Pos Mv) :=
  trace.takeWhile (fun e => !(e.is_apply || e.is_evaluate))

/-- The node reached from a node by following child indices. -/
def game_tree_node.descend {Mv : Type} : List Nat → game_tree_node Mv → Option (game_tree_node Mv)
  | [], n => some n
  | i :: path, n =>
    match n.children with
    | none => none
    | some cs =>
      match cs[i]? with
      | none => none
      | some c => game_tree_node.descend path c

/-- The negated evaluation of a child; a child without evaluation counts as
minus infinity, which leaves a maximum as it is. -/
def negated_eval {Mv : Type} (c : game_tree_node Mv) : Score :=
  match c.eval with
  | some e => e.neg
  | none => Score.ninf

/-- The maximum of `alpha` and of the negated evaluations of the children
`cs`, taken with `std::max` from left to right. -/
def negated_child_max {Mv : Type} (alpha : Score) (cs : List (game_tree_node Mv)) : Score :=
  cs.foldl (fun a c => Score.max a (negated_eval c)) alpha

/-- A game in which a node off the principal line fails low: from the empty
position the moves are `1` and `2`; after `1` the game is over and the
position is evaluated as `-5`; after `2` the only move is `3`, then the only
move is `4`, then the game is over; every other position is evaluated as
`0`. -/
def fail_low_game : Game (List Nat) Nat :=
  { generate_legal_moves := fun _ p =>
      if p = [] then [1, 2] else if p = [2] then [3] else if p = [3, 2] then [4] else [],
    move_piece := fun p m => m :: p,
    undo := fun p => p.tail,
    eval := fun _ p _ => if p = [1] then -5 else 0 }

/-- What one statement of a member function of `ai_thread` does to the mutex
`iMutex` and to the members it guards. -/
inductive Step where
  /-- A `lock_guard` or `unique_lock` on `iMutex` is constructed, or
  `iSignal.wait` takes the mutex again. -/
  | lock : Step
  /-- The scope of the lock ends, or `iSignal.wait` gives the mutex up. -/
  | unlock : Step
  /-- A read or write of `iQueue` or of one of its elements. -/
  | queue : Step
  /-- A read or write of `iFinished`. -/
  | finished : Step
  /-- A call `iSignal.notify_one()`. -/
  | notify : Step
  /-- The call `iThread.join()`. -/
  | join : Step
  deriving DecidableEq, Repr

/-- Lines 115 to 119, the statements of `ai_thread::eval`: `emplace_back`
inside the scope of the `lock_guard`, `iQueue.back()` after it. -/
def eval_steps : List Step :=
  [Step.lock, Step.queue, Step.unlock, Step.queue]

/-- Lines 125 to 130, the statements of `ai_thread::start`: `iQueue.empty()`
inside the scope of the `unique_lock`, `notify_one` after it. -/
def start_steps {Pos Mv : Type} (t : ai_thread Pos Mv) : List Step :=
  [Step.lock, Step.queue] ++
    (if t.iQueue.isEmpty then [Step.unlock] else [Step.unlock, Step.notify])

/-- Lines 98 to 103, the statements of the destructor. -/
def destructor_steps : List Step :=
  [Step.lock, Step.finished, Step.unlock, Step.notify, Step.join]

/-- Lines 138 to 152, the statements of one pass of the `for (;;)` loop of
`ai_thread::process`: the predicate of `wait` reads `iFinished` and, unless
it is set, `iQueue`; when the predicate is false `wait` gives the mutex up
and blocks; otherwise the pass returns on `iFinished` or handles each
work item and clears the queue, inside the scope of the `unique_lock`. -/
def process_steps {Pos Mv : Type} (t : ai_thread Pos Mv) : List Step :=
  if t.iFinished then [Step.lock, Step.finished, Step.finished, Step.unlock]
  else if t.iQueue.isEmpty then [Step.lock, Step.finished, Step.queue, Step.unlock]
  else [Step.lock, Step.finished, Step.queue, Step.finished] ++
    t.iQueue.map (fun _ => Step.queue) ++ [Step.queue, Step.unlock]

/-- Whether every access to `iQueue` in the statements happens while the
mutex is held; `held` tells whether it is held before the first one. -/
def queue_guarded : Bool → List Step → Bool
  | _, [] => true
  | _, Step.lock :: rest => queue_guarded true rest
  | _, Step.unlock :: rest => queue_guarded false rest
  | held, Step.queue :: rest => held && queue_guarded held rest
  | held, _ :: rest => queue_guarded held rest

/-! ## Observations on the calls of a search -/

/-- The list `validMoves` of line 62 of `pvs`: the children of the frame once
the slot has been acquired and the frame expanded. -/
def frame_valid_moves {Pos Mv : Type} (g : Game Pos Mv) (pl : player) (position : Pos)
    (node : game_tree_node Mv) (startDepth depth : Int)
    (stackNodeStack : List (game_tree_node Mv)) : List (game_tree_node Mv) :=
  (expand_frame g pl position (decide (startDepth - depth ≥ USE_STACK_DEPTH))
    (select_frame (decide (startDepth - depth ≥ USE_STACK_DEPTH))
      (startDepth - depth - USE_STACK_DEPTH).toNat
      (stack_after_acquire stackNodeStack (decide (startDepth - depth ≥ USE_STACK_DEPTH))
        (startDepth - depth - USE_STACK_DEPTH)) node)).children.getD []

/-- Whether an event is an entry of `pvs` with remaining depth `d`. -/
def Event.is_enter_at {Pos Mv : Type} (d : Int) : Event Pos Mv → Bool
  | Event.enter _ _ depth _ _ => decide (depth = d)
  | _ => false

/-- The calls of `pvs` with remaining depth `d` in a trace, in order. -/
def calls_at {Pos Mv : Type} (d : Int) (trace : List (Event Pos Mv)) : List (Event Pos Mv) :=
  trace.filter (Event.is_enter_at d)

/-- The events of a trace, each with the ply at which it happens: the ply
before the first event is `ply`, a call of `move_piece` raises the ply of the
events after it by one and a call of `undo` lowers it by one. -/
def plies {Pos Mv : Type} : List (Event Pos Mv) → Int → List (Event Pos Mv × Int)
  | [], _ => []
  | Event.apply m :: t, ply => (Event.apply m, ply) :: plies t (ply + 1)
  | Event.undo :: t, ply => (Event.undo, ply) :: plies t (ply - 1)
  | Event.enter pl sd d a b :: t, ply => (Event.enter pl sd d a b, ply) :: plies t ply
  | Event.slot i :: t, ply => (Event.slot i, ply) :: plies t ply
  | Event.enumerate pl p :: t, ply => (Event.enumerate pl p, ply) :: plies t ply
  | Event.evaluate pl p q :: t, ply => (Event.evaluate pl p q, ply) :: plies t ply

/-- The ply after the events of a trace. -/
def ply_after {Pos Mv : Type} : List (Event Pos Mv) → Int → Int
  | [], ply => ply
  | Event.apply _ :: t, ply => ply_after t (ply + 1)
  | Event.undo :: t, ply => ply_after t (ply - 1)
  | Event.enter _ _ _ _ _ :: t, ply => ply_after t ply
  | Event.slot _ :: t, ply => ply_after t ply
  | Event.enumerate _ _ :: t, ply => ply_after t ply
  | Event.evaluate _ _ _ :: t, ply => ply_after t ply

/-- What the ply of an event says about the event, in a search started with
`startDepth`: an entry of `pvs` carries `startDepth` and a remaining depth
that is not negative and is `startDepth` less the ply, the static evaluator is
given the ply, and an arena slot is selected from ply 4 on, with the index
four less than the ply. -/
def event_in_place {Pos Mv : Type} (startDepth : Int) (x : Event Pos Mv × Int) : Prop :=
  match x.1 with
  | Event.enter _ sd depth _ _ => sd = startDepth ∧ startDepth - depth = x.2 ∧ 0 ≤ depth
  | Event.evaluate _ _ ply => ply = x.2
  | Event.slot index => 4 ≤ x.2 ∧ (index : Int) = x.2 - 4
  | _ => True

/-- The nodes of the tree under `node` at ply offset 4 or more, when `node`
itself is at ply offset `k`, are found unchanged in the tree under `node1`,
and the tree under `node1` has no other nodes there, apart from child stubs at
ply offset 4. -/
def kept_from {Mv : Type} (k : Int) (node node1 : game_tree_node Mv) : Prop :=
  ∀ (path : List Nat) (n : game_tree_node Mv), k + (path.length : Int) ≥ 4 →
    (game_tree_node.descend path node = some n → game_tree_node.descend path node1 = some n) ∧
    (game_tree_node.descend path node1 = some n →
      game_tree_node.descend path node = some n ∨
        (k + (path.length : Int) = 4 ∧ ∃ m, n = game_tree_node.stub m))

/-- Whether an event, if it is an entry of `pvs` or the selection of an arena
slot, stays within the capacity of the arena: the ply offset of the entry is
at most 35, the index of the slot at most 31. -/
def Event.within_capacity {Pos Mv : Type} : Event Pos Mv → Bool
  | Event.enter _ startDepth depth _ _ =>
    decide (startDepth - depth - USE_STACK_DEPTH < (STACK_NODE_STACK_CAPACITY : Int))
  | Event.slot index => decide (index < STACK_NODE_STACK_CAPACITY)
  | _ => true

/-- The thread-local `stackNodeStack` is declared inside the function template
`pvs`, so each of the two instantiations `pvs<White>` and `pvs<Black>` has a
vector of its own.  This is the size of the vector of `pvs<pl>` after the
calls of a trace, when it was `size` before them: an entry of `pvs<pl>` at a
ply offset of 4 or more accesses index `startDepth - depth - 4` of that vector
and, as lines 46 to 52 do, leaves it with at least one slot more than the
index. -/
def vector_size {Pos Mv : Type} (pl : player) : List (Event Pos Mv) → Nat → Nat
  | [], size => size
  | Event.enter pl1 startDepth depth _ _ :: t, size =>
    vector_size pl t
      (if pl1 = pl ∧ startDepth - depth ≥ USE_STACK_DEPTH then
        Max.max size ((startDepth - depth - USE_STACK_DEPTH).toNat + 1)
      else size)
  | Event.slot _ :: t, size => vector_size pl t size
  | Event.enumerate _ _ :: t, size => vector_size pl t size
  | Event.evaluate _ _ _ :: t, size => vector_size pl t size
  | Event.apply _ :: t, size => vector_size pl t size
  | Event.undo :: t, size => vector_size pl t size

/-- Two outcomes are the same up to `R`: the same failure, or results
related by `R`. -/
def same_outcome {α : Type} (R : α → α → Prop) : Except Failure α → Except Failure α → Prop
  | Except.error e1, Except.error e2 => e1 = e2
  | Except.ok r1, Except.ok r2 => R r1 r2
  | _, _ => False

/-- Two results of `pvs` that differ in the arena at most. -/
def pvs_result.same {Pos Mv : Type} (r1 r2 : pvs_result Pos Mv) : Prop :=
  r1.score = r2.score ∧ r1.position = r2.position ∧ r1.node = r2.node ∧ r1.trace = r2.trace

/-- Two results of the child loop that differ in the arena at most. -/
def loop_result.same {Pos Mv : Type} (l1 l2 : loop_result Pos Mv) : Prop :=
  l1.alpha = l2.alpha ∧ l1.position = l2.position ∧ l1.children = l2.children ∧
    l1.trace = l2.trace

/-- Two results of the body of the batch loop that differ in the arena at
most. -/
def item_result.same {Pos Mv : Type} (r1 r2 : item_result Pos Mv) : Prop :=
  r1.item = r2.item ∧ r1.sEvalBoard = r2.sEvalBoard

/-- Two states left by a call of `pvs` that differ in the arena at most. -/
def pvs_unwound.same {Pos Mv : Type} (u1 u2 : pvs_unwound Pos Mv) : Prop :=
  u1.position = u2.position ∧ u1.node = u2.node

/-- Two states left by the child loop that differ in the arena at most. -/
def loop_unwound.same {Pos Mv : Type} (l1 l2 : loop_unwound Pos Mv) : Prop :=
  l1.position = l2.position ∧ l1.children = l2.children

/-! ## Arithmetic of scores -/

theorem Score.neg_neg (a : Score) : a.neg.neg = a := by
  cases a <;> simp [Score.neg]

theorem Score.lt_fin_fin (a b : Int) :
    Score.lt (Score.fin a) (Score.fin b) = decide (a < b) := rfl

theorem Score.max_fin_fin (a b : Int) :
    Score.max (Score.fin a) (Score.fin b) = Score.fin (Max.max a b) := by
  unfold Score.max
  rw [Score.lt_fin_fin]
  by_cases h : a < b
  · simp [h, max_eq_right (le_of_lt h)]
  · simp [h, max_eq_left (not_lt.mp h)]

theorem Score.max_ninf_left (s : Score) : Score.max Score.ninf s = s := by
  cases s <;> simp [Score.max, Score.lt]

theorem Score.max_fin_ninf (a : Int) : Score.max (Score.fin a) Score.ninf = Score.fin a := rfl

theorem Score.max_fin_pinf (a : Int) : Score.max (Score.fin a) Score.pinf = Score.pinf := rfl

theorem Score.max_pinf_left (s : Score) : Score.max Score.pinf s = Score.pinf := by
  cases s <;> rfl

theorem Score.le_trans (a b c : Score) (h1 : Score.lt b a = false) (h2 : Score.lt c b = false) :
    Score.lt c a = false := by
  cases a <;> cases b <;> cases c <;> simp [Score.lt] at h1 h2 ⊢
  omega

theorem Score.lt_of_lt_of_le (a b c : Score) (h1 : Score.lt a b = true)
    (h2 : Score.lt c b = false) : Score.lt a c = true := by
  cases a <;> cases b <;> cases c <;> simp [Score.lt] at h1 h2 ⊢
  omega

theorem Score.le_max_left (a b : Score) : Score.lt (Score.max a b) a = false := by
  cases a <;> cases b <;>
    simp [Score.lt, Score.max_fin_fin, Score.max_ninf_left, Score.max_fin_ninf,
      Score.max_fin_pinf, Score.max_pinf_left]

theorem Score.max_fin_ne_ninf (a : Score) (s : Int) : Score.max a (Score.fin s) ≠ Score.ninf := by
  cases a <;> simp [Score.max_fin_fin, Score.max_ninf_left, Score.max_pinf_left]

theorem acquire_slot_ok {Mv : Type} (stack : List (game_tree_node Mv)) (useStack : Bool)
    (index : Int) (h : index < 32) :
    ∃ stack1, acquire_slot stack useStack index = Except.ok stack1 := by
  unfold acquire_slot
  split
  · split
    · rename_i h2
      exfalso
      simp only [STACK_NODE_STACK_CAPACITY, ge_iff_le, Nat.cast_le] at h2
      have : (32 : Int) ≤ ((Nat.max 32 stack.length : Nat) : Int) := by
        exact_mod_cast Nat.le_max_left 32 stack.length
      omega
    · exact ⟨_, rfl⟩
  · exact ⟨_, rfl⟩

/-- The children of a frame after the expansion step carry the legal moves
of the position. -/
theorem frame_children {Pos Mv : Type} (g : Game Pos Mv) (pl : player) (p : Pos)
    (use0 : game_tree_node Mv) (useStack : Bool)
    (h : useStack = true ∨ well_formed g pl p use0) :
    ∃ cs, (expand_frame g pl p useStack use0).children = some cs ∧
      cs.map game_tree_node.move = (g.generate_legal_moves pl p).map some ∧
      (∀ c ∈ cs, ∀ m, c.move = some m → well_formed g (opponent_v pl) (g.move_piece p m) c) ∧
      (expand_frame g pl p useStack use0).move = use0.move := by
  have stubs : ∀ n : game_tree_node Mv,
      ∃ cs, (valid_moves g pl p n).children = some cs ∧
        cs.map game_tree_node.move = (g.generate_legal_moves pl p).map some ∧
        (∀ c ∈ cs, ∀ m, c.move = some m →
          well_formed g (opponent_v pl) (g.move_piece p m) c) ∧
        (valid_moves g pl p n).move = n.move := by
    intro n
    refine ⟨_, rfl, ?_, ?_, rfl⟩
    · simp [List.map_map, Function.comp_def, game_tree_node.stub, game_tree_node.move]
    · intro c hc m _
      simp only [List.mem_map] at hc
      obtain ⟨m', _, rfl⟩ := hc
      exact well_formed.unexpanded _ _ _ rfl
  unfold expand_frame
  by_cases hex : needs_expansion useStack use0 = true
  · rw [if_pos hex]
    exact stubs _
  · rw [if_neg hex]
    simp only [needs_expansion, Bool.or_eq_true, not_or, Bool.not_eq_true] at hex
    obtain ⟨hsome, hus⟩ := hex
    rcases h with h | h
    · rw [h] at hus; cases hus
    · cases h with
      | unexpanded _ _ _ hnone =>
        rw [hnone] at hsome
        simp at hsome
      | expanded _ _ _ cs hcs hmv hwf =>
        exact ⟨cs, by simpa [game_tree_node.set_eval, game_tree_node.children] using hcs,
          hmv, hwf, rfl⟩

/-! ## Soundness of the search -/

theorem pending_moves_append {Pos Mv : Type} (t1 t2 : List (Event Pos Mv)) (s : List Mv) :
    pending_moves (t1 ++ t2) s = (pending_moves t1 s).bind (pending_moves t2) := by
  induction t1 generalizing s with
  | nil => rfl
  | cons e t1 ih =>
    cases e with
    | undo =>
      cases s with
      | nil => rfl
      | cons m s => simpa [pending_moves] using ih s
    | apply m => simpa [pending_moves] using ih (m :: s)
    | enter _ _ _ _ _ => simpa [pending_moves] using ih s
    | slot _ => simpa [pending_moves] using ih s
    | enumerate _ _ => simpa [pending_moves] using ih s
    | evaluate _ _ _ => simpa [pending_moves] using ih s

theorem search_child_restores {Pos Mv : Type}
    (search : Pos → game_tree_node Mv → Score → Score → List (game_tree_node Mv) →
      Except Failure (pvs_result Pos Mv))
    (hs : ∀ p node a b stack r, search p node a b stack = Except.ok r →
      r.position = p ∧ ∀ s, pending_moves r.trace s = some s)
    (first : Bool) (p : Pos) (child : game_tree_node Mv) (alpha beta : Score)
    (stack : List (game_tree_node Mv)) (r : pvs_result Pos Mv)
    (h : search_child search first p child alpha beta stack = Except.ok r) :
    r.position = p ∧ ∀ s, pending_moves r.trace s = some s := by
  unfold search_child at h
  split at h
  · split at h
    · cases h
    · rename_i r1 hr1
      cases h
      exact hs _ _ _ _ _ r1 hr1
  · split at h
    · cases h
    · rename_i r1 hr1
      obtain ⟨hp1, hb1⟩ := hs _ _ _ _ _ _ hr1
      dsimp only at h
      split at h
      · split at h
        · cases h
        · rename_i r2 hr2
          obtain ⟨hp2, hb2⟩ := hs _ _ _ _ _ _ hr2
          cases h
          refine ⟨by simp [hp2, hp1], fun s => ?_⟩
          simp [pending_moves_append, hb1, hb2]
      · cases h
        exact ⟨hp1, hb1⟩

theorem child_loop_restores {Pos Mv : Type} (g : Game Pos Mv)
    (hundo : ∀ p m, g.undo (g.move_piece p m) = p)
    (search : Pos → game_tree_node Mv → Score → Score → List (game_tree_node Mv) →
      Except Failure (pvs_result Pos Mv))
    (hs : ∀ p node a b stack r, search p node a b stack = Except.ok r →
      r.position = p ∧ ∀ s, pending_moves r.trace s = some s)
    (beta : Score) (p : Pos) :
    ∀ (cs : List (game_tree_node Mv)) (first : Bool) (alpha : Score)
      (stack : List (game_tree_node Mv)) (l : loop_result Pos Mv),
      child_loop g search beta first cs p alpha stack = Except.ok l →
      l.position = p ∧ ∀ s, pending_moves l.trace s = some s := by
  intro cs
  induction cs with
  | nil =>
    intro first alpha stack l h
    simp only [child_loop] at h
    cases h
    exact ⟨rfl, fun s => rfl⟩
  | cons c rest ih =>
    intro first alpha stack l h
    simp only [child_loop] at h
    split at h
    · cases h
    · rename_i m hm
      split at h
      · cases h
      · rename_i r hr
        obtain ⟨hp, hb⟩ := search_child_restores search hs _ _ _ _ _ _ _ hr
        split at h
        · cases h
          refine ⟨by simp [hp, hundo], fun s => ?_⟩
          simp [pending_moves, pending_moves_append, hb]
        · split at h
          · cases h
          · rename_i l1 hl1
            rw [hp, hundo] at hl1
            obtain ⟨hlp, hlb⟩ := ih _ _ _ _ hl1
            cases h
            refine ⟨hlp, fun s => ?_⟩
            simp [pending_moves, pending_moves_append, hb, hlb]

theorem pvs_fuel_restores {Pos Mv : Type} (g : Game Pos Mv)
    (hundo : ∀ p m, g.undo (g.move_piece p m) = p) :
    ∀ (fuel : Nat) (pl : player) (p : Pos) (node : game_tree_node Mv) (sd depth : Int)
      (alpha beta : Score) (stack : List (game_tree_node Mv)) (r : pvs_result Pos Mv),
      pvs_fuel g fuel pl p node sd depth alpha beta stack = Except.ok r →
      r.position = p ∧ ∀ s, pending_moves r.trace s = some s := by
  intro fuel
  induction fuel with
  | zero =>
    intro pl p node sd depth alpha beta stack r h
    simp [pvs_fuel] at h
  | succ fuel ih =>
    intro pl p node sd depth alpha beta stack r h
    rw [pvs_fuel] at h
    cases hacq : acquire_slot stack (decide (sd - depth ≥ USE_STACK_DEPTH))
        (sd - depth - USE_STACK_DEPTH) with
    | error e => simp [hacq] at h
    | ok stack1 =>
      simp only [hacq] at h
      have htr : ∀ (b : Bool) (i : Nat) (e : Bool) (t : List (Event Pos Mv)) (s : List Mv),
          pending_moves (entry_trace pl p sd depth alpha beta b i e ++ t) s
            = pending_moves t s := by
        intro b i e t s
        cases b <;> cases e <;> simp [entry_trace, pending_moves]
      split at h
      · cases h
        refine ⟨rfl, fun s => ?_⟩
        rw [htr]
        rfl
      · split at h
        · cases h
        · rename_i l hl
          obtain ⟨hlp, hlb⟩ := child_loop_restores g hundo _
            (fun p' n' a b s r' hr' => ih _ p' n' sd (depth - 1) a b s r' hr') beta p _ _ _ _ _ hl
          cases h
          refine ⟨hlp, fun s => ?_⟩
          rw [htr]
          exact hlb s

/-- C5: when `undo` reverses the most recent `move_piece`, every call of
`pvs` that returns leaves the position as it was on entry, and the calls of
`move_piece` and `undo` it made are matched like brackets (each `undo` takes
back the most recent move not yet undone, none is left pending), whether
the child loop ran to its end or was left by a beta cutoff. -/
theorem pvs_restores_position {Pos Mv : Type} (g : Game Pos Mv)
    (hundo : ∀ p m, g.undo (g.move_piece p m) = p)
    (pl : player) (p : Pos) (node : game_tree_node Mv) (startDepth depth : Int)
    (alpha beta : Score) (stack : List (game_tree_node Mv)) (r : pvs_result Pos Mv)
    (h : pvs g pl p node startDepth depth alpha beta stack = Except.ok r) :
    r.position = p ∧ ∀ pending, pending_moves r.trace pending = some pending :=
  pvs_fuel_restores g hundo _ pl p node startDepth depth alpha beta stack r h

/-- An instance of C5: the search of the two-move scenario. -/
theorem pvs_restores_position_witness :
    two_move_result.position = [0] ∧
    ∀ pending, pending_moves two_move_result.trace pending = some pending :=
  pvs_restores_position two_move_game (fun _ _ => rfl) player.Black [0]
    (game_tree_node.stub 0) 1 1 Score.ninf Score.pinf [] two_move_result rfl

/-! ## C3: depth zero -/

theorem acquire_slot_length {Mv : Type} (stack stack1 : List (game_tree_node Mv))
    (index : Int) (h0 : 0 ≤ index)
    (h : acquire_slot stack true index = Except.ok stack1) :
    index.toNat < stack1.length ∧ stack1.length = Max.max stack.length (index.toNat + 1) := by
  unfold acquire_slot at h
  split at h
  · split at h
    · cases h
    · rename_i h1 h2
      cases h
      simp only [Bool.true_and, decide_eq_true_eq] at h1
      simp only [List.length_append, List.length_replicate]
      omega
  · rename_i h1
    cases h
    simp only [Bool.true_and, decide_eq_true_eq, not_le] at h1
    omega

theorem acquire_slot_caller {Mv : Type} (stack : List (game_tree_node Mv)) (index : Int) :
    acquire_slot stack false index = Except.ok stack := by
  simp [acquire_slot]

theorem getD_store_stack {Mv : Type} (stack : List (game_tree_node Mv)) (i : Nat)
    (n d : game_tree_node Mv) (h : i < stack.length) :
    (store_stack true i stack n).getD i d = n := by
  simp [store_stack, List.getD_eq_getElem?_getD, List.getElem?_set, h]

theorem length_store_stack {Mv : Type} (b : Bool) (stack : List (game_tree_node Mv)) (i : Nat)
    (n : game_tree_node Mv) : (store_stack b i stack n).length = stack.length := by
  cases b <;> simp [store_stack]

theorem game_tree_node.children_set_eval {Mv : Type} (n : game_tree_node Mv)
    (e : Option Score) : (n.set_eval e).children = n.children := rfl

theorem game_tree_node.eval_set_eval {Mv : Type} (n : game_tree_node Mv)
    (e : Option Score) : (n.set_eval e).eval = e := rfl

theorem game_tree_node.move_set_eval {Mv : Type} (n : game_tree_node Mv)
    (e : Option Score) : (n.set_eval e).move = n.move := rfl

theorem game_tree_node.children_set_children {Mv : Type} (n : game_tree_node Mv)
    (c : Option (List (game_tree_node Mv))) : (n.set_children c).children = c := rfl

theorem expand_frame_kept {Pos Mv : Type} (g : Game Pos Mv) (pl : player) (p : Pos)
    (use : game_tree_node Mv) (cs : List (game_tree_node Mv)) (h : use.children = some cs) :
    (expand_frame g pl p false use).children = some cs := by
  simp [expand_frame, needs_expansion, h, game_tree_node.children_set_eval]

theorem expand_frame_fresh {Pos Mv : Type} (g : Game Pos Mv) (pl : player) (p : Pos)
    (b : Bool) (use : game_tree_node Mv) (h : needs_expansion b use = true) :
    (expand_frame g pl p b use).children
      = some ((g.generate_legal_moves pl p).map game_tree_node.stub) := by
  simp [expand_frame, h, valid_moves, game_tree_node.children_set_children]

/-- A frame that is terminal (depth exhausted or no child) returns at once,
whatever the fuel: the static evaluation is stored in the frame and
returned. -/
theorem pvs_fuel_terminal {Pos Mv : Type} (g : Game Pos Mv) (fuel : Nat) (pl : player) (p : Pos)
    (node : game_tree_node Mv) (sd depth : Int) (alpha beta : Score)
    (stack stack1 : List (game_tree_node Mv)) (b : Bool) (i : Nat)
    (hb : decide (sd - depth ≥ USE_STACK_DEPTH) = b)
    (hi : (sd - depth - USE_STACK_DEPTH).toNat = i)
    (hacq : acquire_slot stack b (sd - depth - USE_STACK_DEPTH) = Except.ok stack1)
    (hterm : (decide (depth = 0) ||
      ((expand_frame g pl p b (select_frame b i stack1 node)).children.getD []).isEmpty) = true) :
    pvs_fuel g (fuel + 1) pl p node sd depth alpha beta stack =
      Except.ok
        { score := Score.fin (g.eval pl p (sd - depth)),
          position := p,
          node := store_node b node
            ((expand_frame g pl p b (select_frame b i stack1 node)).set_eval
              (some (Score.fin (g.eval pl p (sd - depth))))),
          stackNodeStack := store_stack b i
            (store_stack b i stack1 (expand_frame g pl p b (select_frame b i stack1 node)))
            ((expand_frame g pl p b (select_frame b i stack1 node)).set_eval
              (some (Score.fin (g.eval pl p (sd - depth))))),
          trace := entry_trace pl p sd depth alpha beta b i
              (needs_expansion b (select_frame b i stack1 node))
            ++ [Event.evaluate pl p (sd - depth)] } := by
  subst hb hi
  rw [pvs_fuel]
  simp only [hacq]
  rw [if_pos hterm]

theorem entry_trace_no_apply {Pos Mv : Type} (pl : player) (p : Pos) (sd depth : Int)
    (alpha beta : Score) (b : Bool) (i : Nat) (e : Bool) (q : Int) :
    (entry_trace pl p sd depth alpha beta b i e ++ [Event.evaluate pl p q] :
      List (Event Pos Mv)).any Event.is_apply = false := by
  cases b <;> cases e <;> rfl

theorem entry_trace_enumerate {Pos Mv : Type} (pl : player) (p : Pos) (sd depth : Int)
    (alpha beta : Score) (b : Bool) (i : Nat) (e : Bool) (q : Int) :
    (entry_trace pl p sd depth alpha beta b i e ++ [Event.evaluate pl p q] :
      List (Event Pos Mv)).any Event.is_enumerate = e := by
  cases b <;> cases e <;> rfl

/-- C3 (counterexample): with `depth = 0` and `startDepth = 36` the call
does not return the static evaluation, it fails with the capacity error; and
with `startDepth = 4` an arena slot whose children are present is enumerated
again. -/
theorem pvs_depth_zero_counterexample :
    (¬ ∃ r, pvs endless_game player.White 0 (game_tree_node.stub ()) 36 0
        Score.ninf Score.pinf [] = Except.ok r) ∧
    (∃ r, pvs endless_game player.White 0 (game_tree_node.stub ()) 4 0 Score.ninf Score.pinf
        [game_tree_node.mk none (some []) none] = Except.ok r ∧
      (frame_after 4 0 r).children = some [game_tree_node.stub ()] ∧
      r.trace.any Event.is_enumerate = true) := by
  constructor
  · rintro ⟨r, hr⟩
    have h : pvs endless_game player.White 0 (game_tree_node.stub ()) 36 0
        Score.ninf Score.pinf [] = Except.error Failure.stack_node_stack_limit_exceeded := rfl
    rw [h] at hr
    cases hr
  · exact ⟨_, rfl, rfl, rfl⟩

/-- C3 (amended): for every position, node, window and arena, `pvs` called
with `depth = 0` and `startDepth - 4 < 32` returns the static evaluation of
the position at ply offset `startDepth - depth`, which it stores as the
evaluation of the frame; it needs no fuel beyond its own frame (it makes no
recursive call), leaves the position as it is and applies no move.  When the
frame is the node of the caller (`startDepth < 4`), the arena is untouched,
children that are present are kept unchanged without a call of
`valid_moves`, and absent children are enumerated; when the frame is an
arena slot (`startDepth >= 4`), the node of the caller is untouched and the
slot is enumerated again whatever it held. -/
theorem pvs_depth_zero {Pos Mv : Type} (g : Game Pos Mv) (pl : player) (p : Pos)
    (node : game_tree_node Mv) (startDepth : Int) (alpha beta : Score)
    (stack : List (game_tree_node Mv)) (hcap : startDepth - 4 < 32) :
    ∃ r, pvs g pl p node startDepth 0 alpha beta stack = Except.ok r ∧
      (∀ fuel, pvs_fuel g (fuel + 1) pl p node startDepth 0 alpha beta stack = Except.ok r) ∧
      r.score = Score.fin (g.eval pl p (startDepth - 0)) ∧
      (frame_after startDepth 0 r).eval = some r.score ∧
      r.position = p ∧
      r.trace.any Event.is_apply = false ∧
      (startDepth < 4 → r.stackNodeStack = stack ∧
        (∀ cs, node.children = some cs →
          r.node.children = some cs ∧ r.trace.any Event.is_enumerate = false) ∧
        (node.children = none →
          r.node.children = some ((g.generate_legal_moves pl p).map game_tree_node.stub) ∧
          r.trace.any Event.is_enumerate = true)) ∧
      (4 ≤ startDepth → r.node = node ∧
        (frame_after startDepth 0 r).children
          = some ((g.generate_legal_moves pl p).map game_tree_node.stub) ∧
        r.trace.any Event.is_enumerate = true) := by
  have hfuel : ∃ f, pvs_fuel_bound startDepth 0 = f + 1 := ⟨_, rfl⟩
  obtain ⟨f, hf⟩ := hfuel
  unfold frame_after
  by_cases hk : startDepth - 0 ≥ USE_STACK_DEPTH
  · -- the frame is an arena slot
    have hk4 : 4 ≤ startDepth := by simpa [USE_STACK_DEPTH] using hk
    have hb := decide_eq_true hk
    obtain ⟨stack1, hacq⟩ := acquire_slot_ok stack true
      (startDepth - 0 - USE_STACK_DEPTH) (by simp only [USE_STACK_DEPTH]; omega)
    have hlen : (startDepth - 0 - USE_STACK_DEPTH).toNat < stack1.length :=
      (acquire_slot_length stack stack1 _ (by simp only [USE_STACK_DEPTH]; omega) hacq).1
    have hall := fun fuel => pvs_fuel_terminal g fuel pl p node startDepth 0 alpha beta stack stack1
      true _ hb rfl hacq (by simp)
    rw [hb]
    refine ⟨_, ?_, hall, rfl, ?_, rfl, entry_trace_no_apply _ _ _ _ _ _ _ _ _ _, ?_, ?_⟩
    · unfold pvs; rw [hf]; exact hall f
    · simp only [select_frame, if_true]
      rw [getD_store_stack _ _ _ _ (by rw [length_store_stack]; exact hlen)]
      rfl
    · intro h; omega
    · intro _
      refine ⟨rfl, ?_, ?_⟩
      · simp only [select_frame, if_true]
        rw [getD_store_stack _ _ _ _ (by rw [length_store_stack]; exact hlen)]
        rw [game_tree_node.children_set_eval]
        exact expand_frame_fresh g pl p true _ (by simp [needs_expansion])
      · rw [entry_trace_enumerate]
        simp [needs_expansion]
  · -- the frame is the node of the caller
    have hk4 : startDepth < 4 := by simpa [USE_STACK_DEPTH] using hk
    have hb := decide_eq_false hk
    have hall := fun fuel => pvs_fuel_terminal g fuel pl p node startDepth 0 alpha beta stack stack
      false _ hb rfl (acquire_slot_caller _ _) (by simp)
    rw [hb]
    refine ⟨_, ?_, hall, rfl, ?_, rfl, entry_trace_no_apply _ _ _ _ _ _ _ _ _ _, ?_, ?_⟩
    · unfold pvs; rw [hf]; exact hall f
    · rfl
    · intro _
      refine ⟨rfl, ?_, ?_⟩
      · intro cs hcs
        constructor
        · exact expand_frame_kept g pl p node cs hcs
        · rw [entry_trace_enumerate]
          simp [needs_expansion, select_frame, hcs]
      · intro hnone
        constructor
        · exact expand_frame_fresh g pl p false node (by simp [needs_expansion, hnone])
        · rw [entry_trace_enumerate]
          simp [needs_expansion, select_frame, hnone]
    · intro h; omega

/-- An instance of C3 (amended): an arena frame at ply offset 5 in the
endless game. -/
theorem pvs_depth_zero_witness :
    ∃ r, pvs endless_game player.White 7 (game_tree_node.stub ()) 5 0 Score.ninf Score.pinf []
        = Except.ok r ∧
      (∀ fuel, pvs_fuel endless_game (fuel + 1) player.White 7 (game_tree_node.stub ()) 5 0
        Score.ninf Score.pinf [] = Except.ok r) ∧
      r.score = Score.fin (endless_game.eval player.White 7 (5 - 0)) ∧
      (frame_after 5 0 r).eval = some r.score ∧
      r.position = 7 ∧
      r.trace.any Event.is_apply = false ∧
      ((5 : Int) < 4 → r.stackNodeStack = [] ∧
        (∀ cs, (game_tree_node.stub () : game_tree_node Unit).children = some cs →
          r.node.children = some cs ∧ r.trace.any Event.is_enumerate = false) ∧
        ((game_tree_node.stub () : game_tree_node Unit).children = none →
          r.node.children = some ((endless_game.generate_legal_moves player.White 7).map
            game_tree_node.stub) ∧
          r.trace.any Event.is_enumerate = true)) ∧
      ((4 : Int) ≤ 5 → r.node = game_tree_node.stub () ∧
        (frame_after 5 0 r).children
          = some ((endless_game.generate_legal_moves player.White 7).map game_tree_node.stub) ∧
        r.trace.any Event.is_enumerate = true) :=
  pvs_depth_zero endless_game player.White 7 (game_tree_node.stub ()) 5 Score.ninf Score.pinf []
    (by decide)

/-! ## C4 and C7: positions without legal moves, negative depths -/

theorem expand_frame_no_moves {Pos Mv : Type} (g : Game Pos Mv) (pl : player) (p : Pos)
    (b : Bool) (use : game_tree_node Mv) (hmoves : g.generate_legal_moves pl p = [])
    (h : b = true ∨ well_formed g pl p use) :
    (expand_frame g pl p b use).children = some [] := by
  obtain ⟨cs, hcs, hmv, -, -⟩ := frame_children g pl p use b h
  rw [hmoves] at hmv
  rw [hcs]
  simpa using hmv

/-- A frame without legal moves is terminal: the common part of C4 and
C7. -/
theorem pvs_fuel_no_moves {Pos Mv : Type} (g : Game Pos Mv) (pl : player) (p : Pos)
    (node : game_tree_node Mv) (sd depth : Int) (alpha beta : Score)
    (stack : List (game_tree_node Mv))
    (hmoves : g.generate_legal_moves pl p = [])
    (hcap : sd - depth - 4 < 32)
    (hwf : well_formed g pl p node) :
    ∃ r, (∀ fuel, pvs_fuel g (fuel + 1) pl p node sd depth alpha beta stack = Except.ok r) ∧
      r.score = Score.fin (g.eval pl p (sd - depth)) ∧
      (frame_after sd depth r).eval = some r.score ∧
      (frame_after sd depth r).children = some [] ∧
      r.position = p ∧
      r.trace.any Event.is_apply = false ∧
      (sd - depth < 4 → r.stackNodeStack = stack ∧
        r.node = (expand_frame g pl p false node).set_eval
          (some (Score.fin (g.eval pl p (sd - depth))))) := by
  unfold frame_after
  by_cases hk : sd - depth ≥ USE_STACK_DEPTH
  · have hk4 : 4 ≤ sd - depth := by simpa [USE_STACK_DEPTH] using hk
    have hb := decide_eq_true hk
    obtain ⟨stack1, hacq⟩ := acquire_slot_ok stack true
      (sd - depth - USE_STACK_DEPTH) (by simp only [USE_STACK_DEPTH]; omega)
    have hlen : (sd - depth - USE_STACK_DEPTH).toNat < stack1.length :=
      (acquire_slot_length stack stack1 _ (by simp only [USE_STACK_DEPTH]; omega) hacq).1
    have hch := expand_frame_no_moves g pl p true
      (select_frame true (sd - depth - USE_STACK_DEPTH).toNat stack1 node) hmoves (Or.inl rfl)
    have hall := fun fuel => pvs_fuel_terminal g fuel pl p node sd depth alpha beta stack stack1
      true _ hb rfl hacq (by simp [hch])
    rw [hb]
    refine ⟨_, hall, rfl, ?_, ?_, rfl, entry_trace_no_apply _ _ _ _ _ _ _ _ _ _, ?_⟩
    · simp only [select_frame, if_true]
      rw [getD_store_stack _ _ _ _ (by rw [length_store_stack]; exact hlen)]
      rfl
    · simp only [select_frame, if_true]
      rw [getD_store_stack _ _ _ _ (by rw [length_store_stack]; exact hlen)]
      rw [game_tree_node.children_set_eval]
      exact hch
    · intro h; omega
  · have hb := decide_eq_false hk
    have hch := expand_frame_no_moves g pl p false
      (select_frame false (sd - depth - USE_STACK_DEPTH).toNat stack node) hmoves (Or.inr hwf)
    have hall := fun fuel => pvs_fuel_terminal g fuel pl p node sd depth alpha beta stack stack
      false _ hb rfl (acquire_slot_caller _ _) (by simp [hch])
    rw [hb]
    refine ⟨_, hall, rfl, rfl, ?_, rfl, entry_trace_no_apply _ _ _ _ _ _ _ _ _ _, ?_⟩
    · exact hch
    · intro _; exact ⟨rfl, rfl⟩

/-- C4 (counterexample): in a game without legal moves, with remaining
depth 1 at ply offset 36 the call fails with the capacity error instead of
returning the static evaluation; and for a caller-owned node that carries a
child which the position does not have, the call plays that child and
returns `-11` where the static evaluation is `10`. -/
theorem pvs_no_legal_move_counterexample :
    (¬ ∃ r, pvs stalemate_game player.White 0 (game_tree_node.stub ()) 37 1
        Score.ninf Score.pinf [] = Except.ok r) ∧
    (∃ r, pvs stalemate_game player.White 0
        (game_tree_node.mk none (some [game_tree_node.stub ()]) none) 1 1
        Score.ninf Score.pinf [] = Except.ok r ∧
      r.score = Score.fin (-11) ∧ stalemate_game.eval player.White 0 0 = 10) := by
  constructor
  · rintro ⟨r, hr⟩
    have h : pvs stalemate_game player.White 0 (game_tree_node.stub ()) 37 1
        Score.ninf Score.pinf [] = Except.error Failure.stack_node_stack_limit_exceeded := rfl
    rw [h] at hr
    cases hr
  · exact ⟨_, rfl, rfl, rfl⟩

/-- C4 (amended): for every position without legal move, every node that
agrees with the game at that position, every remaining depth `> 0` with
`startDepth - depth - 4 < 32`, every window and every arena, `pvs` returns
the static evaluation of the position at ply offset `startDepth - depth`,
stores it as the evaluation of the frame and leaves the children of the
frame present and empty. -/
theorem pvs_no_legal_move {Pos Mv : Type} (g : Game Pos Mv) (pl : player) (p : Pos)
    (node : game_tree_node Mv) (startDepth depth : Int) (alpha beta : Score)
    (stack : List (game_tree_node Mv))
    (hmoves : g.generate_legal_moves pl p = [])
    (_hdepth : 0 < depth)
    (hcap : startDepth - depth - 4 < 32)
    (hwf : well_formed g pl p node) :
    ∃ r, pvs g pl p node startDepth depth alpha beta stack = Except.ok r ∧
      r.score = Score.fin (g.eval pl p (startDepth - depth)) ∧
      (frame_after startDepth depth r).eval = some r.score ∧
      (frame_after startDepth depth r).children = some [] := by
  obtain ⟨r, hr, h1, h2, h3, -⟩ := pvs_fuel_no_moves g pl p node startDepth depth alpha beta
    stack hmoves hcap hwf
  exact ⟨r, hr _, h1, h2, h3⟩

/-- An instance of C4 (amended): an arena frame in the game without legal
moves. -/
theorem pvs_no_legal_move_witness :
    ∃ r, pvs stalemate_game player.White 3 (game_tree_node.stub ()) 5 2
        Score.ninf Score.pinf [] = Except.ok r ∧
      r.score = Score.fin (stalemate_game.eval player.White 3 (5 - 2)) ∧
      (frame_after 5 2 r).eval = some r.score ∧
      (frame_after 5 2 r).children = some [] :=
  pvs_no_legal_move stalemate_game player.White 3 (game_tree_node.stub ()) 5 2
    Score.ninf Score.pinf [] rfl (by decide) (by decide) (well_formed.unexpanded _ _ _ rfl)

set_option maxRecDepth 100000 in
/-- C7 (counterexample): with the ply depth set to `-1` the worker does not
treat a submitted node as a leaf: in a game that always has a legal move the
search keeps recursing until the arena overflows, and the exception leaves
`process`; with ply depth `0` the same item is served. -/
theorem negative_ply_depth_counterexample :
    (ai_thread.process endless_game player.White
      (((ai_thread.init 0).set_ply_depth (-1)).eval 0 (game_tree_node.stub ())).1).2
        = worker_status.failed Failure.stack_node_stack_limit_exceeded ∧
    (ai_thread.process endless_game player.White
      (((ai_thread.init 0).set_ply_depth 0).eval 0 (game_tree_node.stub ())).1).2
        = worker_status.drained := by
  constructor <;> decide

/-- C7 (amended): for every negative ply depth `d`, a node whose position
has no legal move is treated as at depth 0: the search started with
`startDepth = depth = d` returns the static evaluation of the position at
ply offset 0 from its first frame, applies no move, and leaves the same
score, node, arena and position as the search started with
`startDepth = depth = 0`. -/
theorem pvs_negative_depth {Pos Mv : Type} (g : Game Pos Mv) (pl : player) (p : Pos)
    (node : game_tree_node Mv) (d : Int) (alpha beta : Score)
    (stack : List (game_tree_node Mv))
    (_hd : d < 0)
    (hmoves : g.generate_legal_moves pl p = [])
    (hwf : well_formed g pl p node) :
    ∃ r r0, pvs g pl p node d d alpha beta stack = Except.ok r ∧
      pvs g pl p node 0 0 alpha beta stack = Except.ok r0 ∧
      (∀ fuel, pvs_fuel g (fuel + 1) pl p node d d alpha beta stack = Except.ok r) ∧
      r.score = Score.fin (g.eval pl p 0) ∧
      r.trace.any Event.is_apply = false ∧
      r.score = r0.score ∧ r.node = r0.node ∧ r.stackNodeStack = r0.stackNodeStack ∧
      r.position = r0.position := by
  obtain ⟨r, hr, h1, -, -, h4, h5, h6⟩ := pvs_fuel_no_moves g pl p node d d alpha beta
    stack hmoves (by omega) hwf
  obtain ⟨r0, hr0, k1, -, -, k4, -, k6⟩ := pvs_fuel_no_moves g pl p node 0 0 alpha beta
    stack hmoves (by decide) hwf
  rw [sub_self] at h1 h6 k1 k6
  refine ⟨r, r0, hr _, hr0 _, hr, h1, h5, ?_, ?_, ?_, ?_⟩
  · rw [h1, k1]
  · rw [(h6 (by decide)).2, (k6 (by decide)).2]
  · rw [(h6 (by decide)).1, (k6 (by decide)).1]
  · rw [h4, k4]

/-- An instance of C7 (amended): ply depth -3 in the game without legal
moves. -/
theorem pvs_negative_depth_witness :
    ∃ r r0, pvs stalemate_game player.White 2 (game_tree_node.stub ()) (-3) (-3)
        Score.ninf Score.pinf [] = Except.ok r ∧
      pvs stalemate_game player.White 2 (game_tree_node.stub ()) 0 0
        Score.ninf Score.pinf [] = Except.ok r0 ∧
      (∀ fuel, pvs_fuel stalemate_game (fuel + 1) player.White 2 (game_tree_node.stub ())
        (-3) (-3) Score.ninf Score.pinf [] = Except.ok r) ∧
      r.score = Score.fin (stalemate_game.eval player.White 2 0) ∧
      r.trace.any Event.is_apply = false ∧
      r.score = r0.score ∧ r.node = r0.node ∧ r.stackNodeStack = r0.stackNodeStack ∧
      r.position = r0.position :=
  pvs_negative_depth stalemate_game player.White 2 (game_tree_node.stub ()) (-3)
    Score.ninf Score.pinf [] (by decide) rfl (well_formed.unexpanded _ _ _ rfl)

/-! ## C6: capacity of the arena -/

/-- C6: for an arena of at most 32 slots and a frame at ply offset
`k = startDepth - depth >= 4`, the frame acquires slot `k - 4`: the
acquisition fails, with `stack_node_stack_limit_exceeded`, exactly when
`k - 4 >= 32`, and `pvs` then fails with that error; for `k - 4 < 32` it
succeeds, the arena becomes the old one followed by empty slots up to index
`k - 4`, so it has `k - 4 + 1` slots when the index was at or past the old
size and is unchanged otherwise. -/
theorem frame_arena_capacity {Pos Mv : Type} (g : Game Pos Mv) (fuel : Nat) (pl : player)
    (p : Pos) (node : game_tree_node Mv) (startDepth depth : Int) (alpha beta : Score)
    (stack : List (game_tree_node Mv))
    (hlen : stack.length ≤ STACK_NODE_STACK_CAPACITY)
    (hk : startDepth - depth ≥ USE_STACK_DEPTH) :
    (acquire_slot stack (decide (startDepth - depth ≥ USE_STACK_DEPTH))
        (startDepth - depth - USE_STACK_DEPTH)
        = Except.error Failure.stack_node_stack_limit_exceeded ↔
      startDepth - depth - 4 ≥ 32) ∧
    (startDepth - depth - 4 ≥ 32 →
      pvs_fuel g (fuel + 1) pl p node startDepth depth alpha beta stack
        = Except.error Failure.stack_node_stack_limit_exceeded) ∧
    (startDepth - depth - 4 < 32 →
      ∃ stack1, acquire_slot stack (decide (startDepth - depth ≥ USE_STACK_DEPTH))
          (startDepth - depth - USE_STACK_DEPTH) = Except.ok stack1 ∧
        stack1 = stack ++ List.replicate
          ((startDepth - depth - 4).toNat + 1 - stack.length) game_tree_node.empty ∧
        ((stack.length : Int) ≤ startDepth - depth - 4 →
          stack1.length = (startDepth - depth - 4).toNat + 1) ∧
        (startDepth - depth - 4 < (stack.length : Int) → stack1 = stack)) := by
  rw [decide_eq_true hk]
  simp only [USE_STACK_DEPTH, STACK_NODE_STACK_CAPACITY] at hk hlen ⊢
  have hmax : ((Nat.max 32 stack.length : Nat) : Int) = 32 := by
    have : Nat.max 32 stack.length = 32 := Nat.max_eq_left hlen
    rw [this]; rfl
  have hfail : startDepth - depth - 4 ≥ 32 →
      acquire_slot stack true (startDepth - depth - 4)
        = Except.error Failure.stack_node_stack_limit_exceeded := by
    intro h
    unfold acquire_slot
    rw [if_pos (by simp only [Bool.true_and, decide_eq_true_eq]; omega)]
    rw [if_pos (by simp only [STACK_NODE_STACK_CAPACITY]; rw [hmax]; exact h)]
  have hok : startDepth - depth - 4 < 32 →
      acquire_slot stack true (startDepth - depth - 4)
        = Except.ok (stack ++ List.replicate
          ((startDepth - depth - 4).toNat + 1 - stack.length) game_tree_node.empty) := by
    intro h
    unfold acquire_slot
    by_cases hs : (stack.length : Int) ≤ startDepth - depth - 4
    · rw [if_pos (by simp only [Bool.true_and, decide_eq_true_eq]; exact hs)]
      rw [if_neg (by simp only [STACK_NODE_STACK_CAPACITY]; rw [hmax]; omega)]
    · rw [if_neg (by simp only [Bool.true_and, decide_eq_true_eq]; exact hs)]
      have : (startDepth - depth - 4).toNat + 1 - stack.length = 0 := by omega
      rw [this]
      simp
  refine ⟨⟨?_, hfail⟩, ?_, ?_⟩
  · intro h
    by_contra hn
    rw [hok (by omega)] at h
    cases h
  · intro h
    rw [pvs_fuel]
    simp only [USE_STACK_DEPTH]
    rw [decide_eq_true hk, hfail h]
  · intro h
    refine ⟨_, hok h, rfl, ?_, ?_⟩
    · intro hs
      simp only [List.length_append, List.length_replicate]
      omega
    · intro hs
      have : (startDepth - depth - 4).toNat + 1 - stack.length = 0 := by omega
      rw [this]
      simp

/-- An instance of C6: the empty arena and a frame at ply offset 36. -/
theorem frame_arena_capacity_witness :
    ((acquire_slot ([] : List (game_tree_node Unit)) (decide ((36 : Int) - 0 ≥ USE_STACK_DEPTH))
        (36 - 0 - USE_STACK_DEPTH)
        = Except.error Failure.stack_node_stack_limit_exceeded ↔
      (36 : Int) - 0 - 4 ≥ 32) ∧
    ((36 : Int) - 0 - 4 ≥ 32 →
      pvs_fuel endless_game (0 + 1) player.White 0 (game_tree_node.stub ()) 36 0
        Score.ninf Score.pinf []
        = Except.error Failure.stack_node_stack_limit_exceeded) ∧
    ((36 : Int) - 0 - 4 < 32 →
      ∃ stack1, acquire_slot ([] : List (game_tree_node Unit))
          (decide ((36 : Int) - 0 ≥ USE_STACK_DEPTH))
          (36 - 0 - USE_STACK_DEPTH) = Except.ok stack1 ∧
        stack1 = [] ++ List.replicate
          (((36 : Int) - 0 - 4).toNat + 1 - ([] : List (game_tree_node Unit)).length)
            game_tree_node.empty ∧
        ((([] : List (game_tree_node Unit)).length : Int) ≤ 36 - 0 - 4 →
          stack1.length = ((36 : Int) - 0 - 4).toNat + 1) ∧
        ((36 : Int) - 0 - 4 < (([] : List (game_tree_node Unit)).length : Int) →
          stack1 = []))) :=
  frame_arena_capacity endless_game 0 player.White 0 (game_tree_node.stub ()) 36 0
    Score.ninf Score.pinf [] (by decide) (by decide)

/-! ## C2 and C9: one work item -/

/-- The root frame of a search is the node of the caller: after the call the
node holds the returned score. -/
theorem pvs_fuel_caller_eval {Pos Mv : Type} (g : Game Pos Mv) (fuel : Nat) (pl : player)
    (p : Pos) (node : game_tree_node Mv) (sd depth : Int) (alpha beta : Score)
    (stack : List (game_tree_node Mv)) (r : pvs_result Pos Mv)
    (hk : ¬ sd - depth ≥ USE_STACK_DEPTH)
    (h : pvs_fuel g fuel pl p node sd depth alpha beta stack = Except.ok r) :
    r.node.eval = some r.score := by
  cases fuel with
  | zero => simp [pvs_fuel] at h
  | succ fuel =>
    rw [pvs_fuel] at h
    simp only [decide_eq_false hk, acquire_slot_caller] at h
    split at h
    · cases h; rfl
    · split at h
      · cases h
      · cases h; rfl

theorem opponent_v_opponent_v (pl : player) : opponent_v (opponent_v pl) = pl := by
  cases pl <;> rfl

/-- A call at remaining depth 0 and ply offset 1 on a child stub. -/
theorem pvs_fuel_leaf {Pos Mv : Type} (g : Game Pos Mv) (fuel : Nat) (pl : player) (q : Pos)
    (mv : Mv) (alpha beta : Score) (stack : List (game_tree_node Mv)) :
    pvs_fuel g (fuel + 1) pl q (game_tree_node.stub mv) 1 0 alpha beta stack =
      Except.ok
        { score := Score.fin (g.eval pl q 1), position := q,
          node := game_tree_node.mk (some mv)
            (some ((g.generate_legal_moves pl q).map game_tree_node.stub))
            (some (Score.fin (g.eval pl q 1))),
          stackNodeStack := stack,
          trace := [Event.enter pl 1 0 alpha beta, Event.enumerate pl q,
                    Event.evaluate pl q 1] } := by
  have h := pvs_fuel_terminal g fuel pl q (game_tree_node.stub mv) 1 0 alpha beta stack stack
    false 0 (by decide) (by decide) (acquire_slot_caller _ _) (by simp)
  rw [h]
  rfl

theorem game_tree_node.move_mk {Mv : Type} (a : Option Mv)
    (b : Option (List (game_tree_node Mv))) (c : Option Score) :
    (game_tree_node.mk a b c).move = a := rfl

theorem game_tree_node.children_mk {Mv : Type} (a : Option Mv)
    (b : Option (List (game_tree_node Mv))) (c : Option Score) :
    (game_tree_node.mk a b c).children = b := rfl

theorem game_tree_node.eval_mk {Mv : Type} (a : Option Mv)
    (b : Option (List (game_tree_node Mv))) (c : Option Score) :
    (game_tree_node.mk a b c).eval = c := rfl

/-- The search of the two-move scenario, for an arbitrary game. -/
theorem pvs_two_moves {Pos Mv : Type} (g : Game Pos Mv) (Player : player) (q : Pos)
    (n : game_tree_node Mv) (m M1 M2 : Mv) (stack : List (game_tree_node Mv))
    (hundo : ∀ p m, g.undo (g.move_piece p m) = p)
    (hm : n.move = some m) (hn : n.children = none)
    (hmoves : g.generate_legal_moves (opponent_v Player) q = [M1, M2])
    (h1 : g.eval Player (g.move_piece q M1) 1 = -5)
    (h2 : g.eval Player (g.move_piece q M2) 1 = -3) :
    ∃ pr, pvs g (opponent_v Player) q n 1 1 Score.ninf Score.pinf stack = Except.ok pr ∧
      pr.score = Score.fin 5 ∧
      pr.stackNodeStack = stack ∧
      pr.node = game_tree_node.mk (some m)
        (some [game_tree_node.mk (some M1)
                 (some ((g.generate_legal_moves Player (g.move_piece q M1)).map
                   game_tree_node.stub))
                 (some (Score.fin (-5))),
               game_tree_node.mk (some M2)
                 (some ((g.generate_legal_moves Player (g.move_piece q M2)).map
                   game_tree_node.stub))
                 (some (Score.fin (-3)))])
        (some (Score.fin 5)) := by
  have hfuel : (Max.max (1 : Int) (36 - (1 - 1))).toNat = 35 + 1 := by decide
  have hk : decide ((1 : Int) - 1 ≥ USE_STACK_DEPTH) = false := by decide
  have hmv : ∀ mv : Mv, (game_tree_node.stub mv).move = some mv := fun _ => rfl
  have hd : (1 : Int) - 1 = 0 := by decide
  unfold pvs pvs_fuel_bound
  rw [pvs_fuel]
  simp only [hk, acquire_slot_caller, select_frame, expand_frame, needs_expansion, hn,
    Option.isNone_none, Bool.or_false, if_true, Bool.false_eq_true, if_false, valid_moves,
    hmoves, List.map_cons, List.map_nil, game_tree_node.children_set_children,
    Option.getD_some, store_stack, store_node, game_tree_node.children_set_eval]
  simp only [hfuel]
  simp only [hd, child_loop, search_child, hmv, pvs_fuel_leaf, opponent_v_opponent_v,
    h1, h2, hundo]
  simp [Score.neg, Score.max, Score.lt, Score.ge, Score.sub_one, h1, h2, hundo, pvs_fuel_leaf,
    game_tree_node.set_eval, game_tree_node.set_children, game_tree_node.move_mk,
    game_tree_node.children_mk, game_tree_node.eval_mk, hm]

/-- C2: in the two-move scenario (after the lead move `m` of the work item
the side to move has exactly the moves `M1`, `M2`, in that order; the static
evaluator, scoring for the side to move at the leaf, returns -5 after `M1`
and -3 after `M2`; the ply depth is 1; the submitted node is not yet
expanded) the search returns +5 and the worker publishes the node with
evaluation -5; among the children of the published node the one for `M1` is
the only one whose negated evaluation attains the score +5 of the search. -/
theorem two_move_scenario {Pos Mv : Type} (g : Game Pos Mv) (Player : player) (p : Pos)
    (n : game_tree_node Mv) (m M1 M2 : Mv) (t : ai_thread Pos Mv)
    (hundo : ∀ p m, g.undo (g.move_piece p m) = p)
    (hm : n.move = some m) (hn : n.children = none)
    (hmoves : g.generate_legal_moves (opponent_v Player) (g.move_piece p m) = [M1, M2])
    (h1 : g.eval Player (g.move_piece (g.move_piece p m) M1) 1 = -5)
    (h2 : g.eval Player (g.move_piece (g.move_piece p m) M2) 1 = -3)
    (hq : t.iQueue = [{ position := p, node := n, result := none }])
    (hply : t.iPlyDepth = 1) (hrun : t.iFinished = false) :
    ∃ pr published,
      pvs g (opponent_v Player) (g.move_piece p m) n 1 1 Score.ninf Score.pinf t.stackNodeStack
        = Except.ok pr ∧
      pr.score = Score.fin 5 ∧
      (ai_thread.process g Player t).2 = worker_status.drained ∧
      (ai_thread.process g Player t).1.fulfilled = t.fulfilled ++ [(0, published)] ∧
      published.eval = some (Score.fin (-5)) ∧
      (best_lines published (Score.fin 5)).map game_tree_node.move = [some M1] := by
  obtain ⟨pr, hpr, hs, hst, hnode⟩ := pvs_two_moves g Player (g.move_piece p m) n m M1 M2
    t.stackNodeStack hundo hm hn hmoves h1 h2
  have hpi : process_item g Player 1 { position := p, node := n, result := none }
      t.stackNodeStack = Except.ok
        { item := { position := p, node := pr.node.set_eval (some pr.score.neg),
                    result := some (pr.node.set_eval (some pr.score.neg)) },
          sEvalBoard := pr.position, stackNodeStack := pr.stackNodeStack } := by
    simp only [process_item, hm, hpr, hnode, game_tree_node.eval_mk, hs]
  refine ⟨pr, pr.node.set_eval (some pr.score.neg), hpr, hs, ?_, ?_, ?_, ?_⟩
  · simp [ai_thread.process, hrun, hq, hply, drain, hpi]
  · simp [ai_thread.process, hrun, hq, hply, drain, hpi]
  · rw [hs]; rfl
  · rw [hnode, hs]
    simp [best_lines, game_tree_node.set_eval, game_tree_node.children_mk,
      game_tree_node.eval_mk, game_tree_node.move_mk, Score.neg, List.filter]

/-- An instance of C2: the two-move game. -/
theorem two_move_scenario_witness :
    ∃ pr published,
      pvs two_move_game (opponent_v player.White) (two_move_game.move_piece [] 0)
        (game_tree_node.stub 0) 1 1 Score.ninf Score.pinf two_move_thread.stackNodeStack
        = Except.ok pr ∧
      pr.score = Score.fin 5 ∧
      (ai_thread.process two_move_game player.White two_move_thread).2
        = worker_status.drained ∧
      (ai_thread.process two_move_game player.White two_move_thread).1.fulfilled
        = two_move_thread.fulfilled ++ [(0, published)] ∧
      published.eval = some (Score.fin (-5)) ∧
      (best_lines published (Score.fin 5)).map game_tree_node.move = [some 1] :=
  two_move_scenario two_move_game player.White [] (game_tree_node.stub 0) 0 1 2 two_move_thread
    (fun _ _ => rfl) rfl rfl rfl rfl rfl rfl rfl rfl

/-- C9: for every work item with position `p` and a node `n` that carries
the lead move `m`, and every ply depth `d`: when the search
`pvs<opponent>(move_piece(p, m), n, d, d, -inf, +inf)` returns the score `s`
and the node `n1`, the worker publishes `n1` with its evaluation replaced by
`-s`; the position `p` kept in the item is unchanged. -/
theorem process_item_negates {Pos Mv : Type} (g : Game Pos Mv) (Player : player) (d : Int)
    (p : Pos) (n : game_tree_node Mv) (m : Mv) (stack : List (game_tree_node Mv))
    (pr : pvs_result Pos Mv)
    (hm : n.move = some m)
    (hp : pvs g (opponent_v Player) (g.move_piece p m) n d d Score.ninf Score.pinf stack
      = Except.ok pr) :
    ∃ r, process_item g Player d { position := p, node := n, result := none } stack
        = Except.ok r ∧
      r.item.result = some r.item.node ∧
      r.item.node = pr.node.set_eval (some pr.score.neg) ∧
      r.item.node.eval = some pr.score.neg ∧
      r.item.position = p ∧
      r.stackNodeStack = pr.stackNodeStack := by
  have he : pr.node.eval = some pr.score :=
    pvs_fuel_caller_eval g _ _ _ _ _ _ _ _ _ pr (by simp [USE_STACK_DEPTH]) hp
  refine ⟨{ item := { position := p, node := pr.node.set_eval (some pr.score.neg),
                      result := some (pr.node.set_eval (some pr.score.neg)) },
            sEvalBoard := pr.position, stackNodeStack := pr.stackNodeStack }, ?_,
    rfl, rfl, rfl, rfl, rfl⟩
  simp only [process_item, hm, hp, he]

/-- An instance of C9: the work item of the two-move scenario. -/
theorem process_item_negates_witness :
    ∃ r, process_item two_move_game player.White 1
        { position := [], node := game_tree_node.stub 0, result := none } []
        = Except.ok r ∧
      r.item.result = some r.item.node ∧
      r.item.node = two_move_result.node.set_eval (some two_move_result.score.neg) ∧
      r.item.node.eval = some two_move_result.score.neg ∧
      r.item.position = [] ∧
      r.stackNodeStack = two_move_result.stackNodeStack :=
  process_item_negates two_move_game player.White 1 [] (game_tree_node.stub 0) 0 []
    two_move_result rfl rfl

/-! ## C8: delivery in submission order -/

theorem process_item_ok {Pos Mv : Type} (g : Game Pos Mv) (Player : player) (d : Int)
    (it : work_item Pos Mv) (stack : List (game_tree_node Mv)) (r : item_result Pos Mv)
    (h : process_item g Player d it stack = Except.ok r) :
    it.result = none ∧ r.item.result = some r.item.node := by
  unfold process_item at h
  split at h
  · cases h
  · split at h
    · cases h
    · split at h
      · cases h
      · split at h
        · cases h
        · rename_i hnone
          cases h
          exact ⟨hnone, rfl⟩

/-- The batch loop serves the items in the order of the queue, one
`set_value` per item, and stops at the first failure. -/
theorem drain_sound {Pos Mv : Type} (g : Game Pos Mv) (Player : player) (d : Int) :
    ∀ (items : List (work_item Pos Mv)) (index : Nat) (board : Pos)
      (stack : List (game_tree_node Mv)),
      ((drain g Player d index items board stack).fulfilled.map Prod.fst
        = List.range' index (drain g Player d index items board stack).fulfilled.length) ∧
      (drain g Player d index items board stack).fulfilled.length ≤ items.length ∧
      ((drain g Player d index items board stack).failure = none →
        (drain g Player d index items board stack).fulfilled.length = items.length ∧
        (drain g Player d index items board stack).items.length = items.length ∧
        (∀ it ∈ (drain g Player d index items board stack).items, it.result.isSome = true) ∧
        (∀ it ∈ items, it.result = none)) ∧
      (∀ (k i : Nat) (n : game_tree_node Mv),
        (drain g Player d index items board stack).fulfilled[k]? = some (i, n) →
        ∃ it stack1 r, items[k]? = some it ∧
          process_item g Player d it stack1 = Except.ok r ∧ n = r.item.node) := by
  intro items
  induction items with
  | nil =>
    intro index board stack
    simp [drain]
  | cons it rest ih =>
    intro index board stack
    cases hpi : process_item g Player d it stack with
    | error e =>
      simp [drain, hpi]
    | ok r =>
      obtain ⟨i1, i2, i3, i4⟩ := ih (index + 1) r.sEvalBoard r.stackNodeStack
      obtain ⟨hnone, hsome⟩ := process_item_ok g Player d it stack r hpi
      simp only [drain, hpi]
      refine ⟨?_, ?_, ?_, ?_⟩
      · simp only [List.map_cons, List.length_cons, List.range'_succ, i1]
      · simp only [List.length_cons]; omega
      · intro hf
        obtain ⟨j1, j2, j3, j4⟩ := i3 hf
        refine ⟨by simp [j1], by simp [j2], ?_, ?_⟩
        · intro it' hit'
          simp only [List.mem_cons] at hit'
          rcases hit' with rfl | hit'
          · simp [hsome]
          · exact j3 it' hit'
        · intro it' hit'
          simp only [List.mem_cons] at hit'
          rcases hit' with rfl | hit'
          · exact hnone
          · exact j4 it' hit'
      · intro k i n hk
        cases k with
        | zero =>
          simp only [List.getElem?_cons_zero, Option.some.injEq, Prod.mk.injEq] at hk
          exact ⟨it, stack, r, by simp, hpi, hk.2.symm⟩
        | succ k =>
          simp only [List.getElem?_cons_succ] at hk
          obtain ⟨it', s', r', h1, h2, h3⟩ := i4 k i n hk
          exact ⟨it', s', r', by simpa using h1, h2, h3⟩

theorem submit_all_sound {Pos Mv : Type} (subs : List (Pos × game_tree_node Mv)) :
    ∀ t : ai_thread Pos Mv,
      (submit_all t subs).1 = { t with iQueue := (t.iQueue ++
        subs.map (fun s => ({ position := s.1, node := s.2, result := none } :
          work_item Pos Mv))) } ∧
      (submit_all t subs).2 = List.range' t.iQueue.length subs.length := by
  induction subs with
  | nil => intro t; simp [submit_all]
  | cons s rest ih =>
    intro t
    obtain ⟨p, n⟩ := s
    obtain ⟨h1, h2⟩ := ih (t.eval p n).1
    simp only [submit_all, h1, h2]
    constructor
    · simp [ai_thread.eval]
    · simp [ai_thread.eval, List.range'_succ]

/-- C8: items submitted in the order `i1, ..., in` to a worker with an empty
queue get the handles `0, ..., n - 1` in that order; when the worker then
drains the queue, the `set_value` calls it makes are, in order, on the
handles `0, 1, 2, ...` (all `n` of them when the batch completes), and the
node written to the `k`-th handle is the node that the body of the batch loop
computes from the `k`-th submitted item. -/
theorem fifo_delivery {Pos Mv : Type} (g : Game Pos Mv) (Player : player)
    (t0 : ai_thread Pos Mv) (subs : List (Pos × game_tree_node Mv))
    (hq : t0.iQueue = []) :
    (submit_all t0 subs).2 = List.range subs.length ∧
    ∃ log, (ai_thread.process g Player (submit_all t0 subs).1).1.fulfilled = t0.fulfilled ++ log ∧
      log.map Prod.fst = (submit_all t0 subs).2.take log.length ∧
      ((ai_thread.process g Player (submit_all t0 subs).1).2 = worker_status.drained →
        log.length = subs.length) ∧
      (∀ (k i : Nat) (n : game_tree_node Mv), log[k]? = some (i, n) →
        ∃ sub stack r, subs[k]? = some sub ∧
          process_item g Player t0.iPlyDepth
            { position := sub.1, node := sub.2, result := none } stack = Except.ok r ∧
          n = r.item.node) := by
  obtain ⟨hs1, hs2⟩ := submit_all_sound subs t0
  rw [hq] at hs1 hs2
  simp only [List.length_nil, List.nil_append] at hs1 hs2
  have hrange : (submit_all t0 subs).2 = List.range subs.length := by
    rw [hs2, List.range_eq_range']
  refine ⟨hrange, ?_⟩
  rw [hrange, hs1]
  unfold ai_thread.process
  by_cases hfin : t0.iFinished = true
  · refine ⟨[], by simp [hfin], by simp, ?_, ?_⟩
    · simp [hfin]
    · intro k i n hk; simp at hk
  · simp only [hfin, Bool.false_eq_true, if_false]
    cases subs with
    | nil =>
      refine ⟨[], by simp, by simp, ?_, ?_⟩
      · simp
      · intro k i n hk; simp at hk
    | cons s rest =>
      simp only [List.map_cons, List.isEmpty_cons, Bool.false_eq_true, if_false]
      obtain ⟨d1, d2, d3, d4⟩ := drain_sound g Player t0.iPlyDepth
        ((s :: rest).map (fun s => ({ position := s.1, node := s.2, result := none } :
          work_item Pos Mv))) 0 t0.sEvalBoard t0.stackNodeStack
      simp only [List.map_cons, List.length_cons, List.length_map] at d1 d2 d3 d4
      have hpre : ∀ m, m ≤ rest.length + 1 →
          List.range' 0 m = (List.range (rest.length + 1)).take m := by
        intro m hm
        rw [List.take_range, Nat.min_eq_left hm, List.range_eq_range']
      have hget : ∀ (k i : Nat) (n : game_tree_node Mv),
          (drain g Player t0.iPlyDepth 0
            ({ position := s.1, node := s.2, result := none } ::
              rest.map (fun s => ({ position := s.1, node := s.2, result := none } :
                work_item Pos Mv))) t0.sEvalBoard t0.stackNodeStack).fulfilled[k]? = some (i, n) →
          ∃ sub stack r, (s :: rest)[k]? = some sub ∧
            process_item g Player t0.iPlyDepth
              { position := sub.1, node := sub.2, result := none } stack = Except.ok r ∧
            n = r.item.node := by
        intro k i n hk
        obtain ⟨it, s1, r, h1, h2, h3⟩ := d4 k i n hk
        have h1' : ((s :: rest).map (fun s => ({ position := s.1, node := s.2, result := none } :
            work_item Pos Mv)))[k]? = some it := by simpa using h1
        rw [List.getElem?_map] at h1'
        cases hsub : (s :: rest)[k]? with
        | none => rw [hsub] at h1'; simp at h1'
        | some sub =>
          rw [hsub] at h1'
          simp only [Option.map_some', Option.some.injEq] at h1'
          subst h1'
          exact ⟨sub, s1, r, rfl, h2, h3⟩
      split
      · rename_i e he
        refine ⟨_, rfl, ?_, ?_, hget⟩
        · rw [d1]; exact hpre _ d2
        · intro h; cases h
      · rename_i he
        refine ⟨_, rfl, ?_, ?_, hget⟩
        · rw [d1]; exact hpre _ d2
        · intro _; simpa using (d3 he).1

/-- An instance of C8: two items submitted to a fresh worker. -/
theorem fifo_delivery_witness :
    (submit_all (ai_thread.init ([] : List Nat) : ai_thread (List Nat) Nat)
        [([], game_tree_node.stub 0), ([0], game_tree_node.stub 1)]).2
      = List.range [(([] : List Nat), (game_tree_node.stub 0 : game_tree_node Nat)),
          ([0], game_tree_node.stub 1)].length ∧
    ∃ log, (ai_thread.process two_move_game player.White
        (submit_all (ai_thread.init ([] : List Nat) : ai_thread (List Nat) Nat)
          [([], game_tree_node.stub 0), ([0], game_tree_node.stub 1)]).1).1.fulfilled
        = (ai_thread.init ([] : List Nat) : ai_thread (List Nat) Nat).fulfilled ++ log ∧
      log.map Prod.fst = (submit_all (ai_thread.init ([] : List Nat) : ai_thread (List Nat) Nat)
        [([], game_tree_node.stub 0), ([0], game_tree_node.stub 1)]).2.take log.length ∧
      ((ai_thread.process two_move_game player.White
        (submit_all (ai_thread.init ([] : List Nat) : ai_thread (List Nat) Nat)
          [([], game_tree_node.stub 0), ([0], game_tree_node.stub 1)]).1).2
          = worker_status.drained →
        log.length = [(([] : List Nat), (game_tree_node.stub 0 : game_tree_node Nat)),
          ([0], game_tree_node.stub 1)].length) ∧
      (∀ (k i : Nat) (n : game_tree_node Nat), log[k]? = some (i, n) →
        ∃ sub stack r, [(([] : List Nat), (game_tree_node.stub 0 : game_tree_node Nat)),
            ([0], game_tree_node.stub 1)][k]? = some sub ∧
          process_item two_move_game player.White
            (ai_thread.init ([] : List Nat) : ai_thread (List Nat) Nat).iPlyDepth
            { position := sub.1, node := sub.2, result := none } stack = Except.ok r ∧
          n = r.item.node) :=
  fifo_delivery two_move_game player.White (ai_thread.init [])
    [([], game_tree_node.stub 0), ([0], game_tree_node.stub 1)] rfl

/-! ## C10: one fulfilment per item -/

/-- C10: when the worker drains a batch of `n` queued items and every
search succeeds, the queue is empty afterwards and the `set_value` calls of
the batch are exactly one per item, on the handles `0, ..., n - 1`: every
promise was unwritten before the batch, and every item has its promise
written when the queue is cleared. -/
theorem drain_fulfils_each_once {Pos Mv : Type} (g : Game Pos Mv) (Player : player)
    (t : ai_thread Pos Mv)
    (hok : (ai_thread.process g Player t).2 = worker_status.drained) :
    (ai_thread.process g Player t).1.iQueue = [] ∧
    (∃ log, (ai_thread.process g Player t).1.fulfilled = t.fulfilled ++ log ∧
      log.map Prod.fst = List.range t.iQueue.length) ∧
    (∀ it ∈ t.iQueue, it.result = none) ∧
    (drain g Player t.iPlyDepth 0 t.iQueue t.sEvalBoard t.stackNodeStack).items.length
      = t.iQueue.length ∧
    (∀ it ∈ (drain g Player t.iPlyDepth 0 t.iQueue t.sEvalBoard t.stackNodeStack).items,
      it.result.isSome = true) := by
  obtain ⟨d1, _, d3, _⟩ := drain_sound g Player t.iPlyDepth t.iQueue 0 t.sEvalBoard
    t.stackNodeStack
  unfold ai_thread.process at hok ⊢
  by_cases hfin : t.iFinished = true
  · simp [hfin] at hok
  · simp only [hfin, Bool.false_eq_true, if_false] at hok ⊢
    by_cases hemp : t.iQueue.isEmpty = true
    · simp [hemp] at hok
    · simp only [hemp, Bool.false_eq_true, if_false] at hok ⊢
      cases hfail : (drain g Player t.iPlyDepth 0 t.iQueue t.sEvalBoard t.stackNodeStack).failure
        with
      | some e =>
        rw [hfail] at hok
        simp at hok
      | none =>
        obtain ⟨j1, j2, j3, j4⟩ := d3 hfail
        refine ⟨rfl, ⟨_, rfl, ?_⟩, j4, j2, j3⟩
        rw [d1, j1, List.range_eq_range']

/-- An instance of C10: the batch of the two-move scenario. -/
theorem drain_fulfils_each_once_witness :
    (ai_thread.process two_move_game player.White two_move_thread).1.iQueue = [] ∧
    (∃ log, (ai_thread.process two_move_game player.White two_move_thread).1.fulfilled
        = two_move_thread.fulfilled ++ log ∧
      log.map Prod.fst = List.range two_move_thread.iQueue.length) ∧
    (∀ it ∈ two_move_thread.iQueue, it.result = none) ∧
    (drain two_move_game player.White two_move_thread.iPlyDepth 0 two_move_thread.iQueue
      two_move_thread.sEvalBoard two_move_thread.stackNodeStack).items.length
      = two_move_thread.iQueue.length ∧
    (∀ it ∈ (drain two_move_game player.White two_move_thread.iPlyDepth 0
        two_move_thread.iQueue two_move_thread.sEvalBoard two_move_thread.stackNodeStack).items,
      it.result.isSome = true) :=
  drain_fulfils_each_once two_move_game player.White two_move_thread (by decide)

/-! ## C15: the size of the arena -/

theorem acquire_slot_eq_after {Mv : Type} (stack stack1 : List (game_tree_node Mv))
    (b : Bool) (index : Int) (h : acquire_slot stack b index = Except.ok stack1) :
    stack1 = stack_after_acquire stack b index := by
  unfold acquire_slot at h
  unfold stack_after_acquire
  split at h
  · rename_i h1
    split at h
    · cases h
    · rename_i h2
      cases h
      rw [if_pos h1, if_neg h2]
  · rename_i h1
    cases h
    rw [if_neg h1]

theorem acquire_slot_size {Mv : Type} (stack stack1 : List (game_tree_node Mv))
    (b : Bool) (index : Int) (hlen : stack.length ≤ STACK_NODE_STACK_CAPACITY)
    (h : acquire_slot stack b index = Except.ok stack1) :
    stack.length ≤ stack1.length ∧ stack1.length ≤ STACK_NODE_STACK_CAPACITY := by
  unfold acquire_slot at h
  simp only [STACK_NODE_STACK_CAPACITY] at hlen h ⊢
  split at h
  · split at h
    · cases h
    · rename_i h1 h2
      cases h
      have hmax : ((Nat.max 32 stack.length : Nat) : Int) = 32 := by
        have : Nat.max 32 stack.length = 32 := Nat.max_eq_left hlen
        rw [this]; rfl
      rw [hmax] at h2
      simp only [List.length_append, List.length_replicate]
      omega
  · cases h
    exact ⟨le_refl _, hlen⟩

theorem search_child_size {Pos Mv : Type}
    (search : Pos → game_tree_node Mv → Score → Score → List (game_tree_node Mv) →
      Except Failure (pvs_result Pos Mv))
    (hs : ∀ p node a b stack r, stack.length ≤ STACK_NODE_STACK_CAPACITY →
      search p node a b stack = Except.ok r →
      stack.length ≤ r.stackNodeStack.length ∧
        r.stackNodeStack.length ≤ STACK_NODE_STACK_CAPACITY)
    (first : Bool) (p : Pos) (child : game_tree_node Mv) (alpha beta : Score)
    (stack : List (game_tree_node Mv)) (r : pvs_result Pos Mv)
    (hlen : stack.length ≤ STACK_NODE_STACK_CAPACITY)
    (h : search_child search first p child alpha beta stack = Except.ok r) :
    stack.length ≤ r.stackNodeStack.length ∧
      r.stackNodeStack.length ≤ STACK_NODE_STACK_CAPACITY := by
  unfold search_child at h
  split at h
  · split at h
    · cases h
    · rename_i r1 hr1
      cases h
      exact hs _ _ _ _ _ r1 hlen hr1
  · split at h
    · cases h
    · rename_i r1 hr1
      obtain ⟨h1, h2⟩ := hs _ _ _ _ _ _ hlen hr1
      dsimp only at h
      split at h
      · split at h
        · cases h
        · rename_i r2 hr2
          obtain ⟨k1, k2⟩ := hs _ _ _ _ _ _ h2 hr2
          cases h
          exact ⟨le_trans h1 k1, k2⟩
      · cases h
        exact ⟨h1, h2⟩

theorem child_loop_size {Pos Mv : Type} (g : Game Pos Mv)
    (search : Pos → game_tree_node Mv → Score → Score → List (game_tree_node Mv) →
      Except Failure (pvs_result Pos Mv))
    (hs : ∀ p node a b stack r, stack.length ≤ STACK_NODE_STACK_CAPACITY →
      search p node a b stack = Except.ok r →
      stack.length ≤ r.stackNodeStack.length ∧
        r.stackNodeStack.length ≤ STACK_NODE_STACK_CAPACITY)
    (beta : Score) :
    ∀ (cs : List (game_tree_node Mv)) (first : Bool) (p : Pos) (alpha : Score)
      (stack : List (game_tree_node Mv)) (l : loop_result Pos Mv),
      stack.length ≤ STACK_NODE_STACK_CAPACITY →
      child_loop g search beta first cs p alpha stack = Except.ok l →
      stack.length ≤ l.stackNodeStack.length ∧
        l.stackNodeStack.length ≤ STACK_NODE_STACK_CAPACITY := by
  intro cs
  induction cs with
  | nil =>
    intro first p alpha stack l hlen h
    simp only [child_loop] at h
    cases h
    exact ⟨le_refl _, hlen⟩
  | cons c rest ih =>
    intro first p alpha stack l hlen h
    simp only [child_loop] at h
    split at h
    · cases h
    · split at h
      · cases h
      · rename_i r hr
        obtain ⟨h1, h2⟩ := search_child_size search hs _ _ _ _ _ _ _ hlen hr
        split at h
        · cases h
          exact ⟨h1, h2⟩
        · split at h
          · cases h
          · rename_i l1 hl1
            obtain ⟨k1, k2⟩ := ih _ _ _ _ _ h2 hl1
            cases h
            exact ⟨le_trans h1 k1, k2⟩

theorem pvs_fuel_size {Pos Mv : Type} (g : Game Pos Mv) :
    ∀ (fuel : Nat) (pl : player) (p : Pos) (node : game_tree_node Mv) (sd depth : Int)
      (alpha beta : Score) (stack : List (game_tree_node Mv)) (r : pvs_result Pos Mv),
      stack.length ≤ STACK_NODE_STACK_CAPACITY →
      pvs_fuel g fuel pl p node sd depth alpha beta stack = Except.ok r →
      stack.length ≤ r.stackNodeStack.length ∧
        r.stackNodeStack.length ≤ STACK_NODE_STACK_CAPACITY := by
  intro fuel
  induction fuel with
  | zero =>
    intro pl p node sd depth alpha beta stack r _ h
    simp [pvs_fuel] at h
  | succ fuel ih =>
    intro pl p node sd depth alpha beta stack r hlen h
    rw [pvs_fuel] at h
    cases hacq : acquire_slot stack (decide (sd - depth ≥ USE_STACK_DEPTH))
        (sd - depth - USE_STACK_DEPTH) with
    | error e => simp [hacq] at h
    | ok stack1 =>
      obtain ⟨a1, a2⟩ := acquire_slot_size stack stack1 _ _ hlen hacq
      simp only [hacq] at h
      split at h
      · cases h
        simp only [length_store_stack]
        exact ⟨a1, a2⟩
      · split at h
        · cases h
        · rename_i l hl
          obtain ⟨k1, k2⟩ := child_loop_size g _
            (fun p' n' a b s r' hs' hr' => ih _ p' n' sd (depth - 1) a b s r' hs' hr')
            beta _ _ _ _ _ _ (by rw [length_store_stack]; exact a2) hl
          rw [length_store_stack] at k1
          cases h
          simp only [length_store_stack]
          exact ⟨le_trans a1 k1, k2⟩

theorem process_item_size {Pos Mv : Type} (g : Game Pos Mv) (Player : player) (d : Int)
    (it : work_item Pos Mv) (stack : List (game_tree_node Mv)) (r : item_result Pos Mv)
    (hlen : stack.length ≤ STACK_NODE_STACK_CAPACITY)
    (h : process_item g Player d it stack = Except.ok r) :
    stack.length ≤ r.stackNodeStack.length ∧
      r.stackNodeStack.length ≤ STACK_NODE_STACK_CAPACITY := by
  unfold process_item at h
  split at h
  · cases h
  · split at h
    · cases h
    · rename_i pr hpr
      split at h
      · cases h
      · split at h
        · cases h
        · cases h
          exact pvs_fuel_size g _ _ _ _ _ _ _ _ _ pr hlen hpr

/-! ## C11: a failing search -/

/-- C16: once the stop flag is set, the next pass of the worker loop returns
from `process` whatever the queue holds: the state is left as it is (no item
is searched, no handle is written, the queue is not modified), and every
later pass does the same; a stop request sets the flag without touching the
queue, and no operation of the worker clears the flag. -/
theorem stop_is_terminal {Pos Mv : Type} (g : Game Pos Mv) (Player : player)
    (t t0 : ai_thread Pos Mv) (aPosition : Pos) (aNode : game_tree_node Mv) (aPlyDepth : Int)
    (hfin : t.iFinished = true) :
    ai_thread.process g Player t = (t, worker_status.stopped) ∧
    (∀ n : Nat, (fun s => (ai_thread.process g Player s).1)^[n] t = t) ∧
    (t0.stop.iFinished = true ∧ t0.stop.iQueue = t0.iQueue ∧
      t0.stop.fulfilled = t0.fulfilled ∧
      ai_thread.process g Player t0.stop = (t0.stop, worker_status.stopped)) ∧
    ((t.eval aPosition aNode).1.iFinished = true ∧ t.start.iFinished = true ∧
      (t.set_ply_depth aPlyDepth).iFinished = true ∧ t.stop.iFinished = true) := by
  have hp : ∀ s : ai_thread Pos Mv, s.iFinished = true →
      ai_thread.process g Player s = (s, worker_status.stopped) := by
    intro s hs
    simp [ai_thread.process, hs]
  refine ⟨hp t hfin, ?_, ⟨rfl, rfl, rfl, hp _ rfl⟩, hfin, ?_, hfin, rfl⟩
  · intro n
    induction n with
    | zero => rfl
    | succ n ih =>
      rw [Function.iterate_succ_apply', ih, hp t hfin]
  · unfold ai_thread.start
    split
    · exact hfin
    · exact hfin

/-- An instance of C16: a stop request on the worker of the two-move
scenario, whose item is still queued. -/
theorem stop_is_terminal_witness :
    ai_thread.process two_move_game player.White two_move_thread.stop
      = (two_move_thread.stop, worker_status.stopped) ∧
    (∀ n : Nat, (fun s => (ai_thread.process two_move_game player.White s).1)^[n]
      two_move_thread.stop = two_move_thread.stop) ∧
    (two_move_thread.stop.iFinished = true ∧ two_move_thread.stop.iQueue = two_move_thread.iQueue ∧
      two_move_thread.stop.fulfilled = two_move_thread.fulfilled ∧
      ai_thread.process two_move_game player.White two_move_thread.stop
        = (two_move_thread.stop, worker_status.stopped)) ∧
    ((two_move_thread.stop.eval [] (game_tree_node.stub 0)).1.iFinished = true ∧
      two_move_thread.stop.start.iFinished = true ∧
      (two_move_thread.stop.set_ply_depth 3).iFinished = true ∧
      two_move_thread.stop.stop.iFinished = true) :=
  stop_is_terminal two_move_game player.White two_move_thread.stop two_move_thread []
    (game_tree_node.stub 0) 3 rfl

/-- C17: `start` signals the worker exactly when the queue is not empty;
with an empty queue it does nothing at all; in both cases the queue, the ply
depth and the stop flag are unchanged. -/
theorem start_signals_iff_nonempty {Pos Mv : Type} (t : ai_thread Pos Mv) :
    (t.start.notified = t.notified + 1 ↔ t.iQueue ≠ []) ∧
    (t.start.notified = t.notified ↔ t.iQueue = []) ∧
    (t.iQueue = [] → t.start = t) ∧
    t.start.iQueue = t.iQueue ∧ t.start.iPlyDepth = t.iPlyDepth ∧
    t.start.iFinished = t.iFinished := by
  unfold ai_thread.start
  cases hq : t.iQueue with
  | nil => simp [hq]
  | cons it rest => simp [hq]

/-- An instance of C17: a fresh worker, whose queue is empty. -/
theorem start_signals_iff_nonempty_witness :
    ((ai_thread.init 0 : ai_thread Nat Unit).start.notified
        = (ai_thread.init 0 : ai_thread Nat Unit).notified + 1 ↔
      (ai_thread.init 0 : ai_thread Nat Unit).iQueue ≠ []) ∧
    ((ai_thread.init 0 : ai_thread Nat Unit).start.notified
        = (ai_thread.init 0 : ai_thread Nat Unit).notified ↔
      (ai_thread.init 0 : ai_thread Nat Unit).iQueue = []) ∧
    ((ai_thread.init 0 : ai_thread Nat Unit).iQueue = [] →
      (ai_thread.init 0 : ai_thread Nat Unit).start = ai_thread.init 0) ∧
    (ai_thread.init 0 : ai_thread Nat Unit).start.iQueue
      = (ai_thread.init 0 : ai_thread Nat Unit).iQueue ∧
    (ai_thread.init 0 : ai_thread Nat Unit).start.iPlyDepth
      = (ai_thread.init 0 : ai_thread Nat Unit).iPlyDepth ∧
    (ai_thread.init 0 : ai_thread Nat Unit).start.iFinished
      = (ai_thread.init 0 : ai_thread Nat Unit).iFinished :=
  start_signals_iff_nonempty (ai_thread.init 0)

/-! ## One frame of the search -/

/-- Inversion of a returning call: the slot was acquired, and the frame
either was terminal or ran the child loop. -/
theorem pvs_fuel_ok_cases {Pos Mv : Type} (g : Game Pos Mv) (fuel : Nat) (pl : player) (p : Pos)
    (node : game_tree_node Mv) (sd depth : Int) (alpha beta : Score)
    (stack : List (game_tree_node Mv)) (r : pvs_result Pos Mv) (b : Bool) (i : Nat)
    (hb : decide (sd - depth ≥ USE_STACK_DEPTH) = b)
    (hi : (sd - depth - USE_STACK_DEPTH).toNat = i)
    (h : pvs_fuel g (fuel + 1) pl p node sd depth alpha beta stack = Except.ok r) :
    ∃ stack1, acquire_slot stack b (sd - depth - USE_STACK_DEPTH) = Except.ok stack1 ∧
      (((decide (depth = 0) ||
          ((expand_frame g pl p b (select_frame b i stack1 node)).children.getD []).isEmpty)
            = true ∧
        r = { score := Score.fin (g.eval pl p (sd - depth)),
              position := p,
              node := store_node b node
                ((expand_frame g pl p b (select_frame b i stack1 node)).set_eval
                  (some (Score.fin (g.eval pl p (sd - depth))))),
              stackNodeStack := store_stack b i
                (store_stack b i stack1 (expand_frame g pl p b (select_frame b i stack1 node)))
                ((expand_frame g pl p b (select_frame b i stack1 node)).set_eval
                  (some (Score.fin (g.eval pl p (sd - depth))))),
              trace := entry_trace pl p sd depth alpha beta b i
                  (needs_expansion b (select_frame b i stack1 node))
                ++ [Event.evaluate pl p (sd - depth)] }) ∨
       ((decide (depth = 0) ||
          ((expand_frame g pl p b (select_frame b i stack1 node)).children.getD []).isEmpty)
            = false ∧
        ∃ l, child_loop g
            (fun p n a b s => pvs_fuel g fuel (opponent_v pl) p n sd (depth - 1) a b s)
            beta true ((expand_frame g pl p b (select_frame b i stack1 node)).children.getD [])
            p alpha
            (store_stack b i stack1 (expand_frame g pl p b (select_frame b i stack1 node)))
            = Except.ok l ∧
          r = { score := l.alpha, position := l.position,
                node := store_node b node
                  (((expand_frame g pl p b (select_frame b i stack1 node)).set_children
                    (some l.children)).set_eval (some l.alpha)),
                stackNodeStack := store_stack b i l.stackNodeStack
                  (((expand_frame g pl p b (select_frame b i stack1 node)).set_children
                    (some l.children)).set_eval (some l.alpha)),
                trace := entry_trace pl p sd depth alpha beta b i
                    (needs_expansion b (select_frame b i stack1 node))
                  ++ l.trace })) := by
  subst hb hi
  rw [pvs_fuel] at h
  cases hacq : acquire_slot stack (decide (sd - depth ≥ USE_STACK_DEPTH))
      (sd - depth - USE_STACK_DEPTH) with
  | error e => simp [hacq] at h
  | ok stack1 =>
    simp only [hacq] at h
    refine ⟨stack1, rfl, ?_⟩
    split at h
    · rename_i hterm
      left
      cases h
      exact ⟨hterm, rfl⟩
    · rename_i hterm
      right
      split at h
      · cases h
      · rename_i l hl
        cases h
        exact ⟨by simpa using hterm, l, hl, rfl⟩

/-- The fuel of `pvs` is a successor. -/
theorem pvs_eq_pvs_fuel {Pos Mv : Type} (g : Game Pos Mv) (pl : player) (p : Pos)
    (node : game_tree_node Mv) (sd depth : Int) (alpha beta : Score)
    (stack : List (game_tree_node Mv)) :
    pvs g pl p node sd depth alpha beta stack
      = pvs_fuel g ((Max.max depth (36 - (sd - depth))).toNat + 1) pl p node sd depth alpha beta
          stack := rfl

/-- A frame that is not terminal runs the child loop and stores what the
loop leaves. -/
theorem pvs_fuel_inner {Pos Mv : Type} (g : Game Pos Mv) (fuel : Nat) (pl : player) (p : Pos)
    (node : game_tree_node Mv) (sd depth : Int) (alpha beta : Score)
    (stack stack1 : List (game_tree_node Mv)) (b : Bool) (i : Nat) (l : loop_result Pos Mv)
    (hb : decide (sd - depth ≥ USE_STACK_DEPTH) = b)
    (hi : (sd - depth - USE_STACK_DEPTH).toNat = i)
    (hacq : acquire_slot stack b (sd - depth - USE_STACK_DEPTH) = Except.ok stack1)
    (hterm : (decide (depth = 0) ||
      ((expand_frame g pl p b (select_frame b i stack1 node)).children.getD []).isEmpty) = false)
    (hl : child_loop g
        (fun p n a b s => pvs_fuel g fuel (opponent_v pl) p n sd (depth - 1) a b s)
        beta true ((expand_frame g pl p b (select_frame b i stack1 node)).children.getD [])
        p alpha
        (store_stack b i stack1 (expand_frame g pl p b (select_frame b i stack1 node)))
        = Except.ok l) :
    pvs_fuel g (fuel + 1) pl p node sd depth alpha beta stack =
      Except.ok
        { score := l.alpha, position := l.position,
          node := store_node b node
            (((expand_frame g pl p b (select_frame b i stack1 node)).set_children
              (some l.children)).set_eval (some l.alpha)),
          stackNodeStack := store_stack b i l.stackNodeStack
            (((expand_frame g pl p b (select_frame b i stack1 node)).set_children
              (some l.children)).set_eval (some l.alpha)),
          trace := entry_trace pl p sd depth alpha beta b i
              (needs_expansion b (select_frame b i stack1 node))
            ++ l.trace } := by
  subst hb hi
  rw [pvs_fuel]
  simp only [hacq]
  rw [if_neg (by simp [hterm])]
  simp only [hl]

/-- The child loop starts with a call of `move_piece` when there is a
child. -/
theorem child_loop_trace_head {Pos Mv : Type} (g : Game Pos Mv)
    (search : Pos → game_tree_node Mv → Score → Score → List (game_tree_node Mv) →
      Except Failure (pvs_result Pos Mv))
    (beta : Score) (first : Bool) (c : game_tree_node Mv) (rest : List (game_tree_node Mv))
    (p : Pos) (alpha : Score) (stack : List (game_tree_node Mv)) (l : loop_result Pos Mv)
    (h : child_loop g search beta first (c :: rest) p alpha stack = Except.ok l) :
    ∃ m t, c.move = some m ∧ l.trace = Event.apply m :: t := by
  simp only [child_loop] at h
  split at h
  · cases h
  · rename_i m hm
    split at h
    · cases h
    · split at h
      · cases h
        exact ⟨m, _, hm, rfl⟩
      · split at h
        · cases h
        · cases h
          exact ⟨m, _, hm, rfl⟩

theorem search_child_node_kept {Pos Mv : Type}
    (search : Pos → game_tree_node Mv → Score → Score → List (game_tree_node Mv) →
      Except Failure (pvs_result Pos Mv))
    (hs : ∀ p node a b stack r, search p node a b stack = Except.ok r → r.node = node)
    (first : Bool) (p : Pos) (child : game_tree_node Mv) (alpha beta : Score)
    (stack : List (game_tree_node Mv)) (r : pvs_result Pos Mv)
    (h : search_child search first p child alpha beta stack = Except.ok r) :
    r.node = child := by
  unfold search_child at h
  split at h
  · split at h
    · cases h
    · rename_i r1 hr1
      cases h
      exact hs _ _ _ _ _ r1 hr1
  · split at h
    · cases h
    · rename_i r1 hr1
      have h1 := hs _ _ _ _ _ _ hr1
      dsimp only at h
      split at h
      · split at h
        · cases h
        · rename_i r2 hr2
          have h2 := hs _ _ _ _ _ _ hr2
          cases h
          exact h2.trans h1
      · cases h
        exact h1

/-- When the calls made for the children do not write their node argument,
the child loop leaves the children as they were. -/
theorem child_loop_children_kept {Pos Mv : Type} (g : Game Pos Mv)
    (search : Pos → game_tree_node Mv → Score → Score → List (game_tree_node Mv) →
      Except Failure (pvs_result Pos Mv))
    (hs : ∀ p node a b stack r, search p node a b stack = Except.ok r → r.node = node)
    (beta : Score) :
    ∀ (cs : List (game_tree_node Mv)) (first : Bool) (p : Pos) (alpha : Score)
      (stack : List (game_tree_node Mv)) (l : loop_result Pos Mv),
      child_loop g search beta first cs p alpha stack = Except.ok l → l.children = cs := by
  intro cs
  induction cs with
  | nil =>
    intro first p alpha stack l h
    simp only [child_loop] at h
    cases h
    rfl
  | cons c rest ih =>
    intro first p alpha stack l h
    simp only [child_loop] at h
    split at h
    · cases h
    · split at h
      · cases h
      · rename_i r hr
        have hn := search_child_node_kept search hs _ _ _ _ _ _ _ hr
        split at h
        · cases h
          simp [hn]
        · split at h
          · cases h
          · rename_i l1 hl1
            have := ih _ _ _ _ _ hl1
            cases h
            simp [hn, this]

/-- A call whose frame is an arena slot returns its node argument as it
was, and does not depend on it. -/
theorem pvs_fuel_arena_frame {Pos Mv : Type} (g : Game Pos Mv) (fuel : Nat) (pl : player)
    (p : Pos) (node node1 : game_tree_node Mv) (sd depth : Int) (alpha beta : Score)
    (stack : List (game_tree_node Mv)) (r : pvs_result Pos Mv)
    (hk : sd - depth ≥ USE_STACK_DEPTH)
    (h : pvs_fuel g fuel pl p node sd depth alpha beta stack = Except.ok r) :
    r.node = node ∧
    pvs_fuel g fuel pl p node1 sd depth alpha beta stack = Except.ok { r with node := node1 } := by
  cases fuel with
  | zero => simp [pvs_fuel] at h
  | succ fuel =>
    have hb := decide_eq_true hk
    obtain ⟨stack1, hacq, hcase⟩ := pvs_fuel_ok_cases g fuel pl p node sd depth alpha beta stack r
      true _ hb rfl h
    rcases hcase with ⟨hterm, hr⟩ | ⟨hterm, l, hl, hr⟩
    · subst hr
      refine ⟨rfl, ?_⟩
      exact pvs_fuel_terminal g fuel pl p node1 sd depth alpha beta stack stack1 true _ hb rfl
        hacq hterm
    · subst hr
      refine ⟨rfl, ?_⟩
      exact pvs_fuel_inner g fuel pl p node1 sd depth alpha beta stack stack1 true _ l hb rfl
        hacq hterm hl

/-! ## C19 and C20: the frame of a call -/

theorem expand_frame_children_some {Pos Mv : Type} (g : Game Pos Mv) (pl : player) (p : Pos)
    (b : Bool) (use : game_tree_node Mv) :
    (expand_frame g pl p b use).children.isSome = true := by
  unfold expand_frame
  by_cases hex : needs_expansion b use = true
  · rw [if_pos hex]; rfl
  · rw [if_neg hex]
    simp only [needs_expansion, Bool.or_eq_true, not_or, Bool.not_eq_true] at hex
    rw [game_tree_node.children_set_eval]
    cases hc : use.children with
    | none => rw [hc] at hex; simp at hex
    | some cs => rfl

theorem expand_frame_move {Pos Mv : Type} (g : Game Pos Mv) (pl : player) (p : Pos)
    (b : Bool) (use : game_tree_node Mv) :
    (expand_frame g pl p b use).move = use.move := by
  unfold expand_frame
  split <;> rfl

theorem expand_frame_eval {Pos Mv : Type} (g : Game Pos Mv) (pl : player) (p : Pos)
    (b : Bool) (use : game_tree_node Mv) :
    (expand_frame g pl p b use).eval = none := by
  unfold expand_frame
  split <;> rfl

/-- After a returning call whose frame is an arena slot, the slot holds the
frame: its evaluation is the returned score and its children are present. -/
theorem pvs_fuel_arena_slot {Pos Mv : Type} (g : Game Pos Mv) (fuel : Nat) (pl : player)
    (p : Pos) (node : game_tree_node Mv) (sd depth : Int) (alpha beta : Score)
    (stack : List (game_tree_node Mv)) (r : pvs_result Pos Mv)
    (hlen : stack.length ≤ STACK_NODE_STACK_CAPACITY)
    (hk : sd - depth ≥ USE_STACK_DEPTH)
    (h : pvs_fuel g fuel pl p node sd depth alpha beta stack = Except.ok r) :
    (frame_after sd depth r).eval = some r.score ∧
    (frame_after sd depth r).children.isSome = true ∧
    ∃ t, r.trace = Event.enter pl sd depth alpha beta ::
      Event.slot (sd - depth - USE_STACK_DEPTH).toNat :: t := by
  cases fuel with
  | zero => simp [pvs_fuel] at h
  | succ fuel =>
    have hb := decide_eq_true hk
    have hk4 : 0 ≤ sd - depth - USE_STACK_DEPTH := by
      simp only [USE_STACK_DEPTH] at hk ⊢; omega
    obtain ⟨stack1, hacq, hcase⟩ := pvs_fuel_ok_cases g fuel pl p node sd depth alpha beta stack r
      true _ hb rfl h
    have hi := (acquire_slot_length stack stack1 _ hk4 hacq).1
    have hs1 := (acquire_slot_size stack stack1 true _ hlen hacq).2
    unfold frame_after
    rw [hb]
    rcases hcase with ⟨-, hr⟩ | ⟨-, l, hl, hr⟩
    · subst hr
      simp only [select_frame, if_true]
      rw [getD_store_stack _ _ _ _ (by rw [length_store_stack]; exact hi)]
      refine ⟨rfl, ?_, _, rfl⟩
      rw [game_tree_node.children_set_eval]
      exact expand_frame_children_some _ _ _ _ _
    · subst hr
      have hsz := child_loop_size g _
        (fun p' n' a b s r' hs' hr' =>
          pvs_fuel_size g fuel (opponent_v pl) p' n' sd (depth - 1) a b s r' hs' hr')
        beta _ _ _ _ _ _ (by rw [length_store_stack]; exact hs1) hl
      rw [length_store_stack] at hsz
      simp only [select_frame, if_true]
      rw [getD_store_stack _ _ _ _ (lt_of_lt_of_le hi hsz.1)]
      exact ⟨rfl, rfl, _, rfl⟩

/-- After a returning call whose frame is the node of the caller, the first
two events of the call select no arena slot. -/
theorem pvs_fuel_caller_trace {Pos Mv : Type} (g : Game Pos Mv) (fuel : Nat) (pl : player)
    (p : Pos) (node : game_tree_node Mv) (sd depth : Int) (alpha beta : Score)
    (stack : List (game_tree_node Mv)) (r : pvs_result Pos Mv)
    (hk : ¬ sd - depth ≥ USE_STACK_DEPTH)
    (h : pvs_fuel g fuel pl p node sd depth alpha beta stack = Except.ok r) :
    (r.trace.take 2).any Event.is_slot = false ∧
    r.node.children.isSome = true ∧ r.node.move = node.move := by
  cases fuel with
  | zero => simp [pvs_fuel] at h
  | succ fuel =>
    have hb := decide_eq_false hk
    obtain ⟨stack1, hacq, hcase⟩ := pvs_fuel_ok_cases g fuel pl p node sd depth alpha beta stack r
      false _ hb rfl h
    rcases hcase with ⟨-, hr⟩ | ⟨hterm, l, hl, hr⟩
    · subst hr
      refine ⟨?_, ?_, ?_⟩
      · cases needs_expansion false (select_frame false (sd - depth - USE_STACK_DEPTH).toNat
          stack1 node) <;> rfl
      · simp only [store_node, Bool.false_eq_true, if_false, game_tree_node.children_set_eval]
        exact expand_frame_children_some _ _ _ _ _
      · simp only [store_node, Bool.false_eq_true, if_false, game_tree_node.move_set_eval]
        rw [expand_frame_move]
        rfl
    · subst hr
      refine ⟨?_, rfl, ?_⟩
      · cases hcs : (expand_frame g pl p false (select_frame false
            (sd - depth - USE_STACK_DEPTH).toNat stack1 node)).children.getD [] with
        | nil => simp [hcs] at hterm
        | cons c rest =>
          rw [hcs] at hl
          obtain ⟨m, t, -, ht⟩ := child_loop_trace_head g _ _ _ _ _ _ _ _ _ hl
          rw [ht]
          cases needs_expansion false (select_frame false (sd - depth - USE_STACK_DEPTH).toNat
            stack1 node) <;> rfl
      · show (((expand_frame g pl p false _).set_children _).set_eval _).move = node.move
        rw [game_tree_node.move_set_eval]
        show (expand_frame g pl p false _).move = node.move
        rw [expand_frame_move]
        rfl

/-- C19: for every call of `pvs` that returns, on an arena of at most 32
slots, with `k = startDepth - depth`: when `k >= 4` the frame is arena slot
`k - 4` (the slot is selected first, it holds the returned score as its
evaluation and has its children present afterwards), the node of the caller
is returned unwritten, and the call does the same for any other node
argument; when `k < 4` the frame is the node of the caller (no slot is
selected for the frame, and the node holds the returned score as its
evaluation and has its children present afterwards; its move is kept). -/
theorem frame_selection {Pos Mv : Type} (g : Game Pos Mv) (pl : player) (p : Pos)
    (node node1 : game_tree_node Mv) (startDepth depth : Int) (alpha beta : Score)
    (stack : List (game_tree_node Mv)) (r : pvs_result Pos Mv)
    (hlen : stack.length ≤ STACK_NODE_STACK_CAPACITY)
    (h : pvs g pl p node startDepth depth alpha beta stack = Except.ok r) :
    (startDepth - depth ≥ 4 →
      r.node = node ∧
      pvs g pl p node1 startDepth depth alpha beta stack = Except.ok { r with node := node1 } ∧
      frame_after startDepth depth r
        = r.stackNodeStack.getD (startDepth - depth - 4).toNat game_tree_node.empty ∧
      (frame_after startDepth depth r).eval = some r.score ∧
      (frame_after startDepth depth r).children.isSome = true ∧
      r.trace.take 2 = [Event.enter pl startDepth depth alpha beta,
        Event.slot (startDepth - depth - 4).toNat]) ∧
    (startDepth - depth < 4 →
      frame_after startDepth depth r = r.node ∧
      r.node.eval = some r.score ∧
      r.node.children.isSome = true ∧
      r.node.move = node.move ∧
      (r.trace.take 2).any Event.is_slot = false) := by
  constructor
  · intro hk
    have hk' : startDepth - depth ≥ USE_STACK_DEPTH := hk
    obtain ⟨h1, h2⟩ := pvs_fuel_arena_frame g _ pl p node node1 startDepth depth alpha beta
      stack r hk' h
    obtain ⟨h3, h4, t, h5⟩ := pvs_fuel_arena_slot g _ pl p node startDepth depth alpha beta
      stack r hlen hk' h
    refine ⟨h1, h2, ?_, h3, h4, ?_⟩
    · simp only [frame_after, select_frame, USE_STACK_DEPTH]
      rw [if_pos (decide_eq_true hk)]
    · rw [h5]; rfl
  · intro hk
    have hk' : ¬ startDepth - depth ≥ USE_STACK_DEPTH := by
      simp only [USE_STACK_DEPTH]; omega
    obtain ⟨h1, h2, h3⟩ := pvs_fuel_caller_trace g _ pl p node startDepth depth alpha beta
      stack r hk' h
    refine ⟨?_, pvs_fuel_caller_eval g _ pl p node startDepth depth alpha beta stack r hk' h,
      h2, h3, h1⟩
    simp only [frame_after, select_frame]
    rw [if_neg (by rw [decide_eq_false hk']; simp)]

theorem own_events_append {Pos Mv : Type} (pre t1 : List (Event Pos Mv)) (x : Event Pos Mv)
    (hpre : ∀ e ∈ pre, (e.is_apply || e.is_evaluate) = false)
    (hx : (x.is_apply || x.is_evaluate) = true) :
    own_events (pre ++ x :: t1) = pre := by
  induction pre with
  | nil =>
    show List.takeWhile _ (x :: t1) = []
    rw [List.takeWhile_cons]
    simp only [hx, Bool.not_true, Bool.false_eq_true, if_false]
  | cons e pre ih =>
    have he := hpre e (List.mem_cons_self _ _)
    have ih1 := ih (fun e1 h1 => hpre e1 (List.mem_cons_of_mem _ h1))
    show List.takeWhile _ (e :: (pre ++ x :: t1)) = e :: pre
    rw [List.takeWhile_cons]
    simp only [he, Bool.not_false, if_true]
    exact congrArg _ ih1

theorem own_events_entry {Pos Mv : Type} (pl : player) (p : Pos) (sd depth : Int)
    (alpha beta : Score) (b : Bool) (i : Nat) (e : Bool) (t : List (Event Pos Mv))
    (ht : ∃ x t1, t = x :: t1 ∧ (x.is_apply || x.is_evaluate) = true) :
    own_events (entry_trace pl p sd depth alpha beta b i e ++ t)
      = entry_trace pl p sd depth alpha beta b i e := by
  obtain ⟨x, t1, rfl, hx⟩ := ht
  apply own_events_append _ _ _ _ hx
  intro y hy
  cases b <;> cases e <;> simp [entry_trace] at hy <;>
    rcases hy with rfl | rfl | rfl <;> rfl

theorem entry_trace_count {Pos Mv : Type} (pl : player) (p : Pos) (sd depth : Int)
    (alpha beta : Score) (b : Bool) (i : Nat) (e : Bool) :
    (entry_trace pl p sd depth alpha beta b i e : List (Event Pos Mv)).countP
        Event.is_enumerate = (if e then 1 else 0) ∧
    ∀ x ∈ (entry_trace pl p sd depth alpha beta b i e : List (Event Pos Mv)),
      x.is_enumerate = true → x = Event.enumerate pl p := by
  cases b <;> cases e <;> simp [entry_trace, Event.is_enumerate]

theorem pvs_fuel_move_kept {Pos Mv : Type} (g : Game Pos Mv) (fuel : Nat) (pl : player)
    (p : Pos) (node : game_tree_node Mv) (sd depth : Int) (alpha beta : Score)
    (stack : List (game_tree_node Mv)) (r : pvs_result Pos Mv)
    (h : pvs_fuel g fuel pl p node sd depth alpha beta stack = Except.ok r) :
    r.node.move = node.move := by
  by_cases hk : sd - depth ≥ USE_STACK_DEPTH
  · rw [(pvs_fuel_arena_frame g fuel pl p node node sd depth alpha beta stack r hk h).1]
  · exact (pvs_fuel_caller_trace g fuel pl p node sd depth alpha beta stack r hk h).2.2

theorem search_child_move_kept {Pos Mv : Type}
    (search : Pos → game_tree_node Mv → Score → Score → List (game_tree_node Mv) →
      Except Failure (pvs_result Pos Mv))
    (hs : ∀ p node a b stack r, search p node a b stack = Except.ok r → r.node.move = node.move)
    (first : Bool) (p : Pos) (child : game_tree_node Mv) (alpha beta : Score)
    (stack : List (game_tree_node Mv)) (r : pvs_result Pos Mv)
    (h : search_child search first p child alpha beta stack = Except.ok r) :
    r.node.move = child.move := by
  unfold search_child at h
  split at h
  · split at h
    · cases h
    · rename_i r1 hr1
      cases h
      exact hs _ _ _ _ _ r1 hr1
  · split at h
    · cases h
    · rename_i r1 hr1
      have h1 := hs _ _ _ _ _ _ hr1
      dsimp only at h
      split at h
      · split at h
        · cases h
        · rename_i r2 hr2
          have h2 := hs _ _ _ _ _ _ hr2
          cases h
          exact h2.trans h1
      · cases h
        exact h1

theorem child_loop_moves_kept {Pos Mv : Type} (g : Game Pos Mv)
    (search : Pos → game_tree_node Mv → Score → Score → List (game_tree_node Mv) →
      Except Failure (pvs_result Pos Mv))
    (hs : ∀ p node a b stack r, search p node a b stack = Except.ok r → r.node.move = node.move)
    (beta : Score) :
    ∀ (cs : List (game_tree_node Mv)) (first : Bool) (p : Pos) (alpha : Score)
      (stack : List (game_tree_node Mv)) (l : loop_result Pos Mv),
      child_loop g search beta first cs p alpha stack = Except.ok l →
      l.children.map game_tree_node.move = cs.map game_tree_node.move := by
  intro cs
  induction cs with
  | nil =>
    intro first p alpha stack l h
    simp only [child_loop] at h
    cases h
    rfl
  | cons c rest ih =>
    intro first p alpha stack l h
    simp only [child_loop] at h
    split at h
    · cases h
    · split at h
      · cases h
      · rename_i r hr
        have hn := search_child_move_kept search hs _ _ _ _ _ _ _ hr
        split at h
        · cases h
          simp [hn]
        · split at h
          · cases h
          · rename_i l1 hl1
            have := ih _ _ _ _ _ hl1
            cases h
            simp [hn, this]

/-- The own events and the children of the frame of a returning call. -/
theorem pvs_fuel_expansion {Pos Mv : Type} (g : Game Pos Mv) (fuel : Nat) (pl : player)
    (p : Pos) (node : game_tree_node Mv) (sd depth : Int) (alpha beta : Score)
    (stack : List (game_tree_node Mv)) (r : pvs_result Pos Mv) (b : Bool) (i : Nat)
    (hb : decide (sd - depth ≥ USE_STACK_DEPTH) = b)
    (hi : (sd - depth - USE_STACK_DEPTH).toNat = i)
    (h : pvs_fuel g fuel pl p node sd depth alpha beta stack = Except.ok r) :
    ∃ stack1, acquire_slot stack b (sd - depth - USE_STACK_DEPTH) = Except.ok stack1 ∧
      own_events r.trace = entry_trace pl p sd depth alpha beta b i
        (needs_expansion b (select_frame b i stack1 node)) ∧
      (b = false → ∃ cs1, r.node.children = some cs1 ∧
        cs1.map game_tree_node.move
          = ((expand_frame g pl p false node).children.getD []).map game_tree_node.move) := by
  cases fuel with
  | zero => simp [pvs_fuel] at h
  | succ fuel =>
    obtain ⟨stack1, hacq, hcase⟩ := pvs_fuel_ok_cases g fuel pl p node sd depth alpha beta stack r
      b i hb hi h
    refine ⟨stack1, hacq, ?_, ?_⟩
    · rcases hcase with ⟨-, hr⟩ | ⟨hterm, l, hl, hr⟩
      · subst hr
        exact own_events_entry _ _ _ _ _ _ _ _ _ _ ⟨_, _, rfl, rfl⟩
      · subst hr
        cases hcs : (expand_frame g pl p b (select_frame b i stack1 node)).children.getD [] with
        | nil => simp [hcs] at hterm
        | cons c rest =>
          rw [hcs] at hl
          obtain ⟨m, t, -, ht⟩ := child_loop_trace_head g _ _ _ _ _ _ _ _ _ hl
          exact own_events_entry _ _ _ _ _ _ _ _ _ _ ⟨_, _, ht, rfl⟩
    · intro hbf
      subst hbf
      rcases hcase with ⟨-, hr⟩ | ⟨hterm, l, hl, hr⟩
      · subst hr
        have hsome := expand_frame_children_some g pl p false node
        cases hc : (expand_frame g pl p false node).children with
        | none => rw [hc] at hsome; simp at hsome
        | some cs =>
          refine ⟨cs, ?_, by simp⟩
          show ((expand_frame g pl p false node).set_eval _).children = some cs
          rw [game_tree_node.children_set_eval, hc]
      · subst hr
        refine ⟨l.children, rfl, ?_⟩
        exact child_loop_moves_kept g _
          (fun p' n' a b' s r' hr' =>
            pvs_fuel_move_kept g fuel (opponent_v pl) p' n' sd (depth - 1) a b' s r' hr')
          beta _ _ _ _ _ _ hl

/-- C20: on every frame visit the evaluation of the frame is cleared first;
`valid_moves` is then called exactly once, for the current side and position,
when the frame is an arena slot (whatever the slot held) or when the children
of the frame are absent, and not at all when the frame is a node of the
caller whose children are present: those children are then the ones the
frame works on, and the node has the same moves in the same order
afterwards. -/
theorem expansion_policy {Pos Mv : Type} (g : Game Pos Mv) (pl : player) (p : Pos)
    (node : game_tree_node Mv) (startDepth depth : Int) (alpha beta : Score)
    (stack : List (game_tree_node Mv)) (r : pvs_result Pos Mv)
    (h : pvs g pl p node startDepth depth alpha beta stack = Except.ok r) :
    (∀ (b : Bool) (use : game_tree_node Mv), (expand_frame g pl p b use).eval = none) ∧
    (∀ x ∈ own_events r.trace, x.is_enumerate = true → x = Event.enumerate pl p) ∧
    (startDepth - depth ≥ 4 → (own_events r.trace).countP Event.is_enumerate = 1) ∧
    (startDepth - depth < 4 → node.children = none →
      (own_events r.trace).countP Event.is_enumerate = 1 ∧
      ∃ cs1, r.node.children = some cs1 ∧
        cs1.map game_tree_node.move = (g.generate_legal_moves pl p).map some) ∧
    (startDepth - depth < 4 → ∀ cs, node.children = some cs →
      (own_events r.trace).countP Event.is_enumerate = 0 ∧
      (expand_frame g pl p false node).children = some cs ∧
      ∃ cs1, r.node.children = some cs1 ∧
        cs1.map game_tree_node.move = cs.map game_tree_node.move) := by
  obtain ⟨stack1, -, hown, hch⟩ := pvs_fuel_expansion g _ pl p node startDepth depth alpha beta
    stack r _ _ rfl rfl h
  refine ⟨fun b use => expand_frame_eval g pl p b use, ?_, ?_, ?_, ?_⟩
  · intro x hx
    rw [hown] at hx
    exact (entry_trace_count _ _ _ _ _ _ _ _ _).2 x hx
  · intro hk
    have hk' : startDepth - depth ≥ USE_STACK_DEPTH := hk
    rw [hown, (entry_trace_count _ _ _ _ _ _ _ _ _).1, decide_eq_true hk']
    simp [needs_expansion]
  · intro hk hnone
    have hk' : ¬ startDepth - depth ≥ USE_STACK_DEPTH := by
      simp only [USE_STACK_DEPTH]; omega
    have hb := decide_eq_false hk'
    rw [hb] at hown hch
    obtain ⟨cs1, h1, h2⟩ := hch rfl
    constructor
    · rw [hown, (entry_trace_count _ _ _ _ _ _ _ _ _).1]
      simp [needs_expansion, select_frame, hnone]
    · refine ⟨cs1, h1, ?_⟩
      rw [h2, expand_frame_fresh g pl p false node (by simp [needs_expansion, hnone])]
      simp [List.map_map, Function.comp_def, game_tree_node.stub, game_tree_node.move]
  · intro hk cs hcs
    have hk' : ¬ startDepth - depth ≥ USE_STACK_DEPTH := by
      simp only [USE_STACK_DEPTH]; omega
    have hb := decide_eq_false hk'
    rw [hb] at hown hch
    obtain ⟨cs1, h1, h2⟩ := hch rfl
    refine ⟨?_, expand_frame_kept g pl p node cs hcs, cs1, h1, ?_⟩
    · rw [hown, (entry_trace_count _ _ _ _ _ _ _ _ _).1]
      simp [needs_expansion, select_frame, hcs]
    · rw [h2, expand_frame_kept g pl p node cs hcs]
      rfl

/-! ## C12: scores computed in the arena -/

/-- C12 (counterexample): in the endless game at ply depth 4 the frame at
ply offset 4 is scored in arena slot 0, which holds the evaluation 4
afterwards; the node of the caller's tree at ply offset 4 has no evaluation
after the search, while its parent at ply offset 3 holds -4. -/
theorem arena_copy_back_counterexample :
    ∃ r, pvs endless_game player.White 0 (game_tree_node.stub ()) 4 4 Score.ninf Score.pinf []
        = Except.ok r ∧
      r.trace.any Event.is_slot = true ∧
      (r.stackNodeStack.getD 0 game_tree_node.empty).eval = some (Score.fin 4) ∧
      (game_tree_node.descend [0, 0, 0] r.node).map game_tree_node.eval
        = some (some (Score.fin (-4))) ∧
      (game_tree_node.descend [0, 0, 0, 0] r.node).map game_tree_node.eval = some none :=
  ⟨_, rfl, rfl, rfl, rfl, rfl⟩

/-- C12 (amended): for every frame scored in an arena slot (ply offset
`>= 4`, arena of at most 32 slots) the final evaluation stays in the slot and
is handed to the calling frame as the returned score only; it is not copied
into the node of the caller, which is returned as it was.  After a call at
ply offset 3 the children of the node, which are the nodes of the caller's
tree at ply offset 4, are therefore the children the frame started from:
fresh stubs without evaluation when the node was not expanded before. -/
theorem arena_score_stays_in_slot {Pos Mv : Type} (g : Game Pos Mv) (pl : player) (p : Pos)
    (node : game_tree_node Mv) (startDepth depth : Int) (alpha beta : Score)
    (stack : List (game_tree_node Mv)) (r : pvs_result Pos Mv)
    (hlen : stack.length ≤ STACK_NODE_STACK_CAPACITY)
    (h : pvs g pl p node startDepth depth alpha beta stack = Except.ok r) :
    (startDepth - depth ≥ 4 →
      r.node = node ∧
      (r.stackNodeStack.getD (startDepth - depth - 4).toNat game_tree_node.empty).eval
        = some r.score) ∧
    (startDepth - depth = 3 →
      r.node.children = (expand_frame g pl p false node).children ∧
      (node.children = none →
        r.node.children = some ((g.generate_legal_moves pl p).map game_tree_node.stub) ∧
        ∀ cs, r.node.children = some cs → ∀ c ∈ cs, c.eval = none)) := by
  constructor
  · intro hk
    have hk' : startDepth - depth ≥ USE_STACK_DEPTH := hk
    have h1 := (pvs_fuel_arena_frame g _ pl p node node startDepth depth alpha beta stack r
      hk' h).1
    have h2 := (pvs_fuel_arena_slot g _ pl p node startDepth depth alpha beta stack r hlen
      hk' h).1
    refine ⟨h1, ?_⟩
    rw [← h2]
    simp only [frame_after, select_frame, USE_STACK_DEPTH]
    rw [if_pos (decide_eq_true hk)]
  · intro hk
    have hk' : ¬ startDepth - depth ≥ USE_STACK_DEPTH := by
      simp only [USE_STACK_DEPTH]; omega
    have hb := decide_eq_false hk'
    obtain ⟨stack1, hacq, hcase⟩ := pvs_fuel_ok_cases g _ pl p node startDepth depth alpha beta
      stack r false _ hb rfl h
    have hkept : r.node.children = (expand_frame g pl p false node).children := by
      rcases hcase with ⟨-, hr⟩ | ⟨hterm, l, hl, hr⟩
      · subst hr
        rfl
      · subst hr
        have hcs := child_loop_children_kept g _
          (fun p' n' a b' s r' hr' =>
            (pvs_fuel_arena_frame g _ (opponent_v pl) p' n' n' startDepth (depth - 1) a b' s r'
              (by simp only [USE_STACK_DEPTH]; omega) hr').1)
          beta _ _ _ _ _ _ hl
        have hsome := expand_frame_children_some g pl p false node
        show some l.children = (expand_frame g pl p false node).children
        rw [hcs]
        show some ((expand_frame g pl p false node).children.getD []) = _
        cases hc : (expand_frame g pl p false node).children with
        | none => rw [hc] at hsome; simp at hsome
        | some cs => rfl
    refine ⟨hkept, ?_⟩
    intro hnone
    have hfresh := expand_frame_fresh g pl p false node (by simp [needs_expansion, hnone])
    rw [hfresh] at hkept
    refine ⟨hkept, ?_⟩
    intro cs hcs c hc
    rw [hkept] at hcs
    cases hcs
    simp only [List.mem_map] at hc
    obtain ⟨m, -, rfl⟩ := hc
    rfl

/-! ## C13 and C14: evaluations of a node and of its children -/

theorem search_child_eval {Pos Mv : Type}
    (search : Pos → game_tree_node Mv → Score → Score → List (game_tree_node Mv) →
      Except Failure (pvs_result Pos Mv))
    (hs : ∀ p node a b stack r, search p node a b stack = Except.ok r →
      r.node.eval = some r.score)
    (first : Bool) (p : Pos) (child : game_tree_node Mv) (alpha beta : Score)
    (stack : List (game_tree_node Mv)) (r : pvs_result Pos Mv)
    (h : search_child search first p child alpha beta stack = Except.ok r) :
    r.node.eval.isSome = true ∧ negated_eval r.node = r.score := by
  have key : ∀ r1 : pvs_result Pos Mv, r1.node.eval = some r1.score →
      r1.node.eval.isSome = true ∧ negated_eval r1.node = r1.score.neg := by
    intro r1 h1
    simp [negated_eval, h1]
  unfold search_child at h
  split at h
  · split at h
    · cases h
    · rename_i r1 hr1
      cases h
      exact key r1 (hs _ _ _ _ _ r1 hr1)
  · split at h
    · cases h
    · rename_i r1 hr1
      dsimp only at h
      split at h
      · split at h
        · cases h
        · rename_i r2 hr2
          cases h
          exact key r2 (hs _ _ _ _ _ r2 hr2)
      · cases h
        exact key r1 (hs _ _ _ _ _ r1 hr1)

/-- When every call made for a child leaves the returned score in the child,
the child loop visits a leading part of the children, leaves the others as
they were, and its `alpha` is the maximum of the incoming `alpha` and of the
negated evaluations of the children visited; children are left unvisited only
after a beta cutoff. -/
theorem child_loop_evals {Pos Mv : Type} (g : Game Pos Mv)
    (search : Pos → game_tree_node Mv → Score → Score → List (game_tree_node Mv) →
      Except Failure (pvs_result Pos Mv))
    (hs : ∀ p node a b stack r, search p node a b stack = Except.ok r →
      r.node.eval = some r.score)
    (beta : Score) :
    ∀ (cs : List (game_tree_node Mv)) (first : Bool) (p : Pos) (alpha : Score)
      (stack : List (game_tree_node Mv)) (l : loop_result Pos Mv),
      child_loop g search beta first cs p alpha stack = Except.ok l →
      ∃ visited rest, l.children = visited ++ rest ∧
        (cs ≠ [] → visited ≠ []) ∧
        (∃ pre, cs = pre ++ rest ∧ pre.length = visited.length) ∧
        (∀ c ∈ visited, c.eval.isSome = true) ∧
        l.alpha = negated_child_max alpha visited ∧
        (rest ≠ [] → l.alpha.ge beta = true) := by
  intro cs
  induction cs with
  | nil =>
    intro first p alpha stack l h
    simp only [child_loop] at h
    cases h
    exact ⟨[], [], rfl, fun hne => absurd rfl hne, ⟨[], rfl, rfl⟩,
      fun c hc => by simp at hc, rfl, fun hne => absurd rfl hne⟩
  | cons c rest ih =>
    intro first p alpha stack l h
    simp only [child_loop] at h
    split at h
    · cases h
    · split at h
      · cases h
      · rename_i r hr
        obtain ⟨he, hn⟩ := search_child_eval search hs _ _ _ _ _ _ _ hr
        split at h
        · rename_i hcut
          cases h
          refine ⟨[r.node], rest, rfl, fun _ => by simp, ⟨[c], rfl, rfl⟩, ?_, ?_, fun _ => hcut⟩
          · intro c1 hc1
            simp only [List.mem_singleton] at hc1
            rw [hc1]; exact he
          · simp [negated_child_max, hn]
        · split at h
          · cases h
          · rename_i l1 hl1
            obtain ⟨visited, rest1, h1, -, ⟨pre, h3, h3'⟩, h4, h5, h6⟩ := ih _ _ _ _ _ hl1
            cases h
            refine ⟨r.node :: visited, rest1, by simp [h1], fun _ => by simp,
              ⟨c :: pre, by simp [h3], by simp [h3']⟩, ?_, ?_, h6⟩
            · intro c1 hc1
              simp only [List.mem_cons] at hc1
              rcases hc1 with rfl | hc1
              · exact he
              · exact h4 c1 hc1
            · simp only [h5, negated_child_max, List.foldl_cons, hn]

theorem search_child_finite {Pos Mv : Type}
    (search : Pos → game_tree_node Mv → Score → Score → List (game_tree_node Mv) →
      Except Failure (pvs_result Pos Mv))
    (hs : ∀ p node a b stack r, a ≠ Score.pinf → b ≠ Score.ninf →
      search p node a b stack = Except.ok r → ∃ x, r.score = Score.fin x)
    (first : Bool) (p : Pos) (child : game_tree_node Mv) (alpha beta : Score)
    (stack : List (game_tree_node Mv)) (r : pvs_result Pos Mv)
    (ha : alpha ≠ Score.pinf) (hb : beta ≠ Score.ninf)
    (hfin : first = false → alpha ≠ Score.ninf)
    (h : search_child search first p child alpha beta stack = Except.ok r) :
    ∃ x, r.score = Score.fin x := by
  have hnb : beta.neg ≠ Score.pinf := by cases beta <;> simp [Score.neg] at hb ⊢
  have hna : alpha.neg ≠ Score.ninf := by cases alpha <;> simp [Score.neg] at ha ⊢
  unfold search_child at h
  split at h
  · split at h
    · cases h
    · rename_i r1 hr1
      cases h
      obtain ⟨x, hx⟩ := hs _ _ _ _ _ r1 hnb hna hr1
      exact ⟨-x, by simp [hx, Score.neg]⟩
  · rename_i hf
    have hf' : first = false := by simpa using hf
    have hne := hfin hf'
    split at h
    · cases h
    · rename_i r1 hr1
      obtain ⟨x1, hx1⟩ := hs _ _ _ _ _ r1
        (by cases alpha <;> simp [Score.neg, Score.sub_one] at hne ⊢) hna hr1
      dsimp only at h
      split at h
      · split at h
        · cases h
        · rename_i r2 hr2
          obtain ⟨x2, hx2⟩ := hs _ _ _ _ _ r2 hnb (by rw [hx1]; simp [Score.neg]) hr2
          cases h
          exact ⟨-x2, by simp [hx2, Score.neg]⟩
      · cases h
        exact ⟨-x1, by simp [hx1, Score.neg]⟩

theorem child_loop_finite {Pos Mv : Type} (g : Game Pos Mv)
    (search : Pos → game_tree_node Mv → Score → Score → List (game_tree_node Mv) →
      Except Failure (pvs_result Pos Mv))
    (hs : ∀ p node a b stack r, a ≠ Score.pinf → b ≠ Score.ninf →
      search p node a b stack = Except.ok r → ∃ x, r.score = Score.fin x)
    (beta : Score) (hb : beta ≠ Score.ninf) :
    ∀ (cs : List (game_tree_node Mv)) (first : Bool) (p : Pos) (alpha : Score)
      (stack : List (game_tree_node Mv)) (l : loop_result Pos Mv),
      alpha ≠ Score.pinf → (first = false → alpha ≠ Score.ninf) →
      child_loop g search beta first cs p alpha stack = Except.ok l →
      l.alpha ≠ Score.pinf ∧ (cs ≠ [] → l.alpha ≠ Score.ninf) := by
  intro cs
  induction cs with
  | nil =>
    intro first p alpha stack l ha _ h
    simp only [child_loop] at h
    cases h
    exact ⟨ha, fun hne => absurd rfl hne⟩
  | cons c rest ih =>
    intro first p alpha stack l ha hfin h
    simp only [child_loop] at h
    split at h
    · cases h
    · split at h
      · cases h
      · rename_i r hr
        obtain ⟨x, hx⟩ := search_child_finite search hs _ _ _ _ _ _ _ ha hb hfin hr
        have hmax : Score.max alpha r.score ≠ Score.pinf ∧
            Score.max alpha r.score ≠ Score.ninf := by
          rw [hx]
          cases alpha <;>
            simp [Score.max_fin_fin, Score.max_ninf_left, Score.max_pinf_left] at ha ⊢
        split at h
        · cases h
          exact ⟨hmax.1, fun _ => hmax.2⟩
        · split at h
          · cases h
          · rename_i l1 hl1
            obtain ⟨k1, k2⟩ := ih _ _ _ _ _ hmax.1 (fun _ => hmax.2) hl1
            cases h
            refine ⟨k1, fun _ => ?_⟩
            cases rest with
            | nil =>
              simp only [child_loop] at hl1
              cases hl1
              exact hmax.2
            | cons c2 rest2 => exact k2 (by simp)

/-- A call with a window whose lower bound is not plus infinity and whose
upper bound is not minus infinity returns a finite score. -/
theorem pvs_fuel_finite {Pos Mv : Type} (g : Game Pos Mv) :
    ∀ (fuel : Nat) (pl : player) (p : Pos) (node : game_tree_node Mv) (sd depth : Int)
      (alpha beta : Score) (stack : List (game_tree_node Mv)) (r : pvs_result Pos Mv),
      alpha ≠ Score.pinf → beta ≠ Score.ninf →
      pvs_fuel g fuel pl p node sd depth alpha beta stack = Except.ok r →
      ∃ x, r.score = Score.fin x := by
  intro fuel
  induction fuel with
  | zero =>
    intro pl p node sd depth alpha beta stack r _ _ h
    simp [pvs_fuel] at h
  | succ fuel ih =>
    intro pl p node sd depth alpha beta stack r ha hb h
    obtain ⟨stack1, hacq, hcase⟩ := pvs_fuel_ok_cases g fuel pl p node sd depth alpha beta stack r
      _ _ rfl rfl h
    rcases hcase with ⟨-, hr⟩ | ⟨hterm, l, hl, hr⟩
    · subst hr
      exact ⟨_, rfl⟩
    · subst hr
      obtain ⟨k1, k2⟩ := child_loop_finite g _
        (fun p' n' a b' s r' ha' hb' hr' => ih _ p' n' sd (depth - 1) a b' s r' ha' hb' hr')
        beta hb _ true p alpha _ l ha (fun hf => by cases hf) hl
      have hne : (expand_frame g pl p (decide (sd - depth ≥ USE_STACK_DEPTH))
          (select_frame (decide (sd - depth ≥ USE_STACK_DEPTH))
            (sd - depth - USE_STACK_DEPTH).toNat stack1 node)).children.getD [] ≠ [] := by
        intro hnil
        rw [hnil] at hterm
        simp at hterm
      have k3 := k2 hne
      show ∃ x, l.alpha = Score.fin x
      cases hla : l.alpha with
      | ninf => exact absurd hla k3
      | pinf => exact absurd hla k1
      | fin x => exact ⟨x, rfl⟩

theorem negated_child_max_attained {Mv : Type} :
    ∀ (cs : List (game_tree_node Mv)) (alpha : Score),
      negated_child_max alpha cs = alpha ∨
        ∃ c ∈ cs, negated_eval c = negated_child_max alpha cs := by
  intro cs
  induction cs with
  | nil => intro alpha; exact Or.inl rfl
  | cons c rest ih =>
    intro alpha
    have hstep : negated_child_max alpha (c :: rest)
        = negated_child_max (Score.max alpha (negated_eval c)) rest := rfl
    rw [hstep]
    rcases ih (Score.max alpha (negated_eval c)) with h | ⟨c1, hc1, h1⟩
    · rw [h]
      have hm : Score.max alpha (negated_eval c) = alpha ∨
          Score.max alpha (negated_eval c) = negated_eval c := by
        unfold Score.max
        split
        · exact Or.inr rfl
        · exact Or.inl rfl
      rcases hm with hm | hm
      · exact Or.inl hm
      · exact Or.inr ⟨c, by simp, hm.symm⟩
    · exact Or.inr ⟨c1, by simp [hc1], h1⟩

/-- A returning call on a frame of the caller at ply offset at most 2 whose
remaining depth is not 0 and whose children are not empty afterwards: the
children are a visited leading part, each with an evaluation, followed by the
children cut off; the score is the maximum of `alpha` and of the negated
evaluations of the visited children. -/
theorem pvs_fuel_caller_children {Pos Mv : Type} (g : Game Pos Mv) (fuel : Nat) (pl : player)
    (p : Pos) (node : game_tree_node Mv) (sd depth : Int) (alpha beta : Score)
    (stack : List (game_tree_node Mv)) (r : pvs_result Pos Mv)
    (cs : List (game_tree_node Mv))
    (hk : sd - depth < 3) (hd : depth ≠ 0)
    (h : pvs_fuel g fuel pl p node sd depth alpha beta stack = Except.ok r)
    (hcs : r.node.children = some cs) (hne : cs ≠ []) :
    ∃ visited rest, cs = visited ++ rest ∧ visited ≠ [] ∧
      (∀ c ∈ visited, c.eval.isSome = true) ∧
      r.score = negated_child_max alpha visited ∧
      r.node.eval = some r.score ∧
      (rest ≠ [] → r.score.ge beta = true) ∧
      (alpha ≠ Score.pinf → beta ≠ Score.ninf → ∃ x, r.score = Score.fin x) := by
  cases fuel with
  | zero => simp [pvs_fuel] at h
  | succ fuel =>
    have hk' : ¬ sd - depth ≥ USE_STACK_DEPTH := by
      simp only [USE_STACK_DEPTH]; omega
    have hfin := pvs_fuel_finite g (fuel + 1) pl p node sd depth alpha beta stack r
    have heval := pvs_fuel_caller_eval g (fuel + 1) pl p node sd depth alpha beta stack r hk' h
    obtain ⟨stack1, -, hcase⟩ := pvs_fuel_ok_cases g fuel pl p node sd depth alpha beta
      stack r false _ (decide_eq_false hk') rfl h
    rcases hcase with ⟨hterm, hr⟩ | ⟨-, l, hl, hr⟩
    · exfalso
      subst hr
      have hdz : decide (depth = 0) = false := decide_eq_false hd
      rw [hdz, Bool.false_or] at hterm
      have hcs' : (expand_frame g pl p false (select_frame false
          (sd - depth - USE_STACK_DEPTH).toNat stack1 node)).children = some cs := by
        rw [← hcs]
        simp only [store_node, Bool.false_eq_true, if_false,
          game_tree_node.children_set_eval]
      rw [hcs'] at hterm
      cases cs with
      | nil => exact hne rfl
      | cons c rest => simp at hterm
    · obtain ⟨visited, rest, h1, h2, -, h4, h5, h6⟩ := child_loop_evals g _
        (fun p' n' a b' s r' hr' =>
          pvs_fuel_caller_eval g fuel (opponent_v pl) p' n' sd (depth - 1) a b' s r'
            (by simp only [USE_STACK_DEPTH]; omega) hr')
        beta _ true p alpha _ l hl
      have hrc : r.node.children = some l.children := by
        rw [hr]
        simp only [store_node, Bool.false_eq_true, if_false,
          game_tree_node.children_set_eval, game_tree_node.children_set_children]
      have hrs : r.score = l.alpha := by rw [hr]
      rw [hrc] at hcs
      cases hcs
      have hv : visited ≠ [] := by
        cases visited with
        | nil =>
          exfalso
          apply h2 _ rfl
          intro hnil
          rw [hnil] at hl
          simp only [child_loop] at hl
          cases hl
          exact hne rfl
        | cons v vs => simp
      exact ⟨visited, rest, h1, hv, h4, by rw [hrs, h5], heval,
        fun hr1 => by rw [hrs]; exact h6 hr1, fun ha hb => hfin ha hb h⟩

/-- C13 (counterexample): in `fail_low_game` searched to depth 3 with the
full window, the node reached by the second move and then the first is a
node of the caller at ply offset 2 with remaining depth 1; its one child is
scored `0`, so the maximum of the negated evaluations of its children is `0`,
yet the evaluation of the node is `5`, the lower bound of the window it was
searched with. -/
theorem best_child_eval_counterexample :
    ∃ r b, pvs fail_low_game player.White [] game_tree_node.empty 3 3 Score.ninf Score.pinf []
        = Except.ok r ∧
      game_tree_node.descend [1, 0] r.node = some b ∧
      (b.children.getD []).map game_tree_node.eval = [some (Score.fin 0)] ∧
      negated_child_max Score.ninf (b.children.getD []) = Score.fin 0 ∧
      b.eval = some (Score.fin 5) :=
  ⟨_, _, rfl, rfl, rfl, rfl, rfl⟩

/-- C13 (amended): after a returning call of `pvs` with the window
`(alpha, beta)` on a node of the caller at ply offset at most 2 with remaining
depth other than 0, when the children of the node are present and not empty:
the children are a non-empty leading part that was visited, each with an
evaluation, followed by the children that were cut off; the evaluation of the
node is the maximum of `alpha` and of the negated evaluations of the visited
children; children are cut off only when that value is at least `beta`.  With
the full window every child is visited and the evaluation of the node is the
maximum of the negated evaluations of its children. -/
theorem node_eval_window_max {Pos Mv : Type} (g : Game Pos Mv) (pl : player) (p : Pos)
    (node : game_tree_node Mv) (startDepth depth : Int) (alpha beta : Score)
    (stack : List (game_tree_node Mv)) (r : pvs_result Pos Mv)
    (cs : List (game_tree_node Mv))
    (hk : startDepth - depth < 3) (hd : depth ≠ 0)
    (h : pvs g pl p node startDepth depth alpha beta stack = Except.ok r)
    (hcs : r.node.children = some cs) (hne : cs ≠ []) :
    (∃ visited rest, cs = visited ++ rest ∧ visited ≠ [] ∧
      (∀ c ∈ visited, c.eval.isSome = true) ∧
      r.node.eval = some (negated_child_max alpha visited) ∧
      (rest ≠ [] → (negated_child_max alpha visited).ge beta = true)) ∧
    (alpha = Score.ninf → beta = Score.pinf →
      r.node.eval = some (negated_child_max Score.ninf cs)) := by
  obtain ⟨visited, rest, h1, h2, h3, h4, h5, h6, h7⟩ := pvs_fuel_caller_children g _ pl p node
    startDepth depth alpha beta stack r cs hk hd h hcs hne
  constructor
  · exact ⟨visited, rest, h1, h2, h3, by rw [h5, h4], fun hr => by rw [← h4]; exact h6 hr⟩
  · intro ha hb
    subst ha hb
    obtain ⟨x, hx⟩ := h7 (by simp) (by simp)
    have hrest : rest = [] := by
      by_contra hr
      have := h6 hr
      rw [hx] at this
      simp [Score.ge, Score.lt] at this
    rw [hrest, List.append_nil] at h1
    rw [h5, h4, h1]

/-- An instance of C13 (amended): the search of the two-move scenario. -/
theorem node_eval_window_max_witness :
    (∃ visited rest,
      [game_tree_node.mk (some 1) (some []) (some (Score.fin (-5))),
        game_tree_node.mk (some 2) (some []) (some (Score.fin (-3)))] = visited ++ rest ∧
      visited ≠ [] ∧
      (∀ c ∈ visited, c.eval.isSome = true) ∧
      two_move_result.node.eval = some (negated_child_max Score.ninf visited) ∧
      (rest ≠ [] → (negated_child_max Score.ninf visited).ge Score.pinf = true)) ∧
    (Score.ninf = Score.ninf → Score.pinf = Score.pinf →
      two_move_result.node.eval = some (negated_child_max Score.ninf
        [game_tree_node.mk (some 1) (some []) (some (Score.fin (-5))),
          game_tree_node.mk (some 2) (some []) (some (Score.fin (-3)))])) :=
  node_eval_window_max two_move_game player.Black [0] (game_tree_node.stub 0) 1 1
    Score.ninf Score.pinf [] two_move_result _ (by decide) (by decide) rfl rfl (by simp)

/-- C14 (counterexample): after the search of the two-move scenario the node
has two children and both have an evaluation present, `-5` and `-3`. -/
theorem one_scored_child_counterexample :
    ∃ r cs, pvs two_move_game player.Black [0] (game_tree_node.stub 0) 1 1
        Score.ninf Score.pinf [] = Except.ok r ∧
      r.node.children = some cs ∧
      cs.map game_tree_node.eval = [some (Score.fin (-5)), some (Score.fin (-3))] ∧
      (cs.filter (fun c => c.eval.isSome)).length = 2 :=
  ⟨_, _, rfl, rfl, rfl, rfl⟩

/-- C14 (amended): after a returning call of `pvs` on a node of the caller at
ply offset at most 2 with remaining depth other than 0, when the children of
the node are present and not empty: every child that was visited has an
evaluation present, these are a non-empty leading part of the children, and
children are left unvisited only after a beta cutoff.  With the full window
every child has an evaluation present, and at least one child has the
negation of the evaluation of the node as its evaluation. -/
theorem visited_children_scored {Pos Mv : Type} (g : Game Pos Mv) (pl : player) (p : Pos)
    (node : game_tree_node Mv) (startDepth depth : Int) (alpha beta : Score)
    (stack : List (game_tree_node Mv)) (r : pvs_result Pos Mv)
    (cs : List (game_tree_node Mv))
    (hk : startDepth - depth < 3) (hd : depth ≠ 0)
    (h : pvs g pl p node startDepth depth alpha beta stack = Except.ok r)
    (hcs : r.node.children = some cs) (hne : cs ≠ []) :
    (∃ visited rest, cs = visited ++ rest ∧ visited ≠ [] ∧
      (∀ c ∈ visited, c.eval.isSome = true) ∧
      (rest ≠ [] → r.score.ge beta = true)) ∧
    (alpha = Score.ninf → beta = Score.pinf →
      (cs.filter (fun c => c.eval.isSome)).length = cs.length ∧
      ∃ c ∈ cs, c.eval.map Score.neg = r.node.eval) := by
  obtain ⟨visited, rest, h1, h2, h3, h4, h5, h6, h7⟩ := pvs_fuel_caller_children g _ pl p node
    startDepth depth alpha beta stack r cs hk hd h hcs hne
  constructor
  · exact ⟨visited, rest, h1, h2, h3, h6⟩
  · intro ha hb
    subst ha hb
    obtain ⟨x, hx⟩ := h7 (by simp) (by simp)
    have hrest : rest = [] := by
      by_contra hr
      have := h6 hr
      rw [hx] at this
      simp [Score.ge, Score.lt] at this
    rw [hrest, List.append_nil] at h1
    subst h1
    constructor
    · rw [List.filter_eq_self.mpr h3]
    · rcases negated_child_max_attained cs Score.ninf with hm | ⟨c, hc, hm⟩
      · rw [← h4, hx] at hm
        cases hm
      · refine ⟨c, hc, ?_⟩
        rw [h5, h4, ← hm]
        have hsome := h3 c hc
        unfold negated_eval
        cases hce : c.eval with
        | none => rw [hce] at hsome; cases hsome
        | some e => rfl

/-- An instance of C14 (amended): the search of the two-move scenario. -/
theorem visited_children_scored_witness :
    (∃ visited rest,
      [game_tree_node.mk (some 1) (some []) (some (Score.fin (-5))),
        game_tree_node.mk (some 2) (some []) (some (Score.fin (-3)))] = visited ++ rest ∧
      visited ≠ [] ∧
      (∀ c ∈ visited, c.eval.isSome = true) ∧
      (rest ≠ [] → two_move_result.score.ge Score.pinf = true)) ∧
    (Score.ninf = Score.ninf → Score.pinf = Score.pinf →
      ([game_tree_node.mk (some 1) (some []) (some (Score.fin (-5))),
        game_tree_node.mk (some 2) (some []) (some (Score.fin (-3)))].filter
          (fun c => c.eval.isSome)).length = 2 ∧
      ∃ c ∈ [game_tree_node.mk (some 1) (some []) (some (Score.fin (-5))),
        game_tree_node.mk (some 2) (some []) (some (Score.fin (-3)))],
        c.eval.map Score.neg = two_move_result.node.eval) :=
  visited_children_scored two_move_game player.Black [0] (game_tree_node.stub 0) 1 1
    Score.ninf Score.pinf [] two_move_result _ (by decide) (by decide) rfl rfl (by simp)

/-- An instance of C12 (amended): a frame at ply offset 4 of the endless
game, scored in arena slot 0. -/
theorem arena_score_stays_in_slot_witness :
    ∃ r, pvs endless_game player.White 0 (game_tree_node.stub ()) 4 0 Score.ninf Score.pinf []
        = Except.ok r ∧
      (((4 : Int) - 0 ≥ 4 →
        r.node = game_tree_node.stub () ∧
        (r.stackNodeStack.getD ((4 : Int) - 0 - 4).toNat game_tree_node.empty).eval
          = some r.score) ∧
      ((4 : Int) - 0 = 3 →
        r.node.children
          = (expand_frame endless_game player.White 0 false (game_tree_node.stub ())).children ∧
        ((game_tree_node.stub ()).children = none →
          r.node.children = some ((endless_game.generate_legal_moves player.White 0).map
            game_tree_node.stub) ∧
          ∀ cs, r.node.children = some cs → ∀ c ∈ cs, c.eval = none))) :=
  ⟨_, rfl, arena_score_stays_in_slot endless_game player.White 0 (game_tree_node.stub ()) 4 0
    Score.ninf Score.pinf [] _ (by decide) rfl⟩

/-- An instance of C19: a frame at ply offset 4 of the endless game. -/
theorem frame_selection_witness :
    ∃ r, pvs endless_game player.White 0 (game_tree_node.stub ()) 4 0 Score.ninf Score.pinf []
        = Except.ok r ∧
      r.node = game_tree_node.stub () ∧
      pvs endless_game player.White 0 game_tree_node.empty 4 0 Score.ninf Score.pinf []
        = Except.ok { r with node := game_tree_node.empty } ∧
      frame_after 4 0 r = r.stackNodeStack.getD 0 game_tree_node.empty ∧
      (frame_after 4 0 r).eval = some r.score ∧
      (frame_after 4 0 r).children.isSome = true ∧
      r.trace.take 2 = [Event.enter player.White 4 0 Score.ninf Score.pinf, Event.slot 0] :=
  ⟨_, rfl, (frame_selection endless_game player.White 0 (game_tree_node.stub ())
    game_tree_node.empty 4 0 Score.ninf Score.pinf [] _ (by decide) rfl).1 (by decide)⟩

/-- An instance of C20: the search of the two-move scenario, whose node was
not expanded before. -/
theorem expansion_policy_witness :
    (own_events two_move_result.trace).countP Event.is_enumerate = 1 ∧
    ∃ cs1, two_move_result.node.children = some cs1 ∧
      cs1.map game_tree_node.move
        = (two_move_game.generate_legal_moves player.Black [0]).map some :=
  (expansion_policy two_move_game player.Black [0] (game_tree_node.stub 0) 1 1
    Score.ninf Score.pinf [] two_move_result rfl).2.2.2.1 (by decide) rfl

/-! ## C18: the queue and its mutex -/

theorem queue_guarded_accesses (n : Nat) (rest : List Step) :
    queue_guarded true (List.replicate n Step.queue ++ rest) = queue_guarded true rest := by
  induction n with
  | zero => rfl
  | succ n ih =>
    rw [List.replicate_succ, List.cons_append]
    simp only [queue_guarded, Bool.true_and]
    exact ih

/-- C18: `ai_thread::eval` reads `iQueue.back()` after the scope of its
`lock_guard` has ended, so this access to the queue happens while the mutex is
not held; the accesses of `start`, of the destructor and of every pass of
`process` all happen while it is held. -/
theorem eval_reads_queue_unguarded {Pos Mv : Type} :
    queue_guarded false eval_steps = false ∧
    queue_guarded false (eval_steps.take 3) = true ∧
    eval_steps.drop 3 = [Step.queue] ∧
    queue_guarded false destructor_steps = true ∧
    (∀ t : ai_thread Pos Mv, queue_guarded false (start_steps t) = true) ∧
    (∀ t : ai_thread Pos Mv, queue_guarded false (process_steps t) = true) := by
  refine ⟨rfl, rfl, rfl, rfl, ?_, ?_⟩
  · intro t
    unfold start_steps
    cases t.iQueue.isEmpty <;> rfl
  · intro t
    unfold process_steps
    cases t.iFinished
    · cases hq : t.iQueue.isEmpty
      · simp only [Bool.false_eq_true, if_false, List.map_const', List.cons_append,
          List.nil_append, queue_guarded, Bool.true_and]
        exact queue_guarded_accesses _ _
      · rfl
    · rfl

/-! ## Inversion of the child loop -/

/-- Inversion of a returning search of one child. -/
theorem search_child_ok_cases {Pos Mv : Type}
    (search : Pos → game_tree_node Mv → Score → Score → List (game_tree_node Mv) →
      Except Failure (pvs_result Pos Mv))
    (first : Bool) (p : Pos) (child : game_tree_node Mv) (alpha beta : Score)
    (stack : List (game_tree_node Mv)) (r : pvs_result Pos Mv)
    (h : search_child search first p child alpha beta stack = Except.ok r) :
    (first = true ∧ ∃ r1, search p child beta.neg alpha.neg stack = Except.ok r1 ∧
      r = { r1 with score := r1.score.neg }) ∨
    (first = false ∧ ∃ r1, search p child alpha.neg.sub_one alpha.neg stack = Except.ok r1 ∧
      (((alpha.lt r1.score.neg && r1.score.neg.lt beta) = true ∧
        ∃ r2, search r1.position r1.node beta.neg r1.score.neg.neg r1.stackNodeStack
            = Except.ok r2 ∧
          r = { r2 with score := r2.score.neg, trace := r1.trace ++ r2.trace }) ∨
       ((alpha.lt r1.score.neg && r1.score.neg.lt beta) = false ∧
        r = { r1 with score := r1.score.neg }))) := by
  unfold search_child at h
  split at h
  · rename_i hf
    left
    split at h
    · cases h
    · rename_i r1 hr1
      cases h
      exact ⟨hf, r1, hr1, rfl⟩
  · rename_i hf
    right
    refine ⟨by simpa using hf, ?_⟩
    split at h
    · cases h
    · rename_i r1 hr1
      refine ⟨r1, hr1, ?_⟩
      dsimp only at h
      split at h
      · rename_i hc
        left
        split at h
        · cases h
        · rename_i r2 hr2
          cases h
          exact ⟨hc, r2, hr2, rfl⟩
      · rename_i hc
        right
        cases h
        exact ⟨by simpa using hc, rfl⟩

/-- Inversion of a returning child loop on a non-empty list. -/
theorem child_loop_ok_cases {Pos Mv : Type} (g : Game Pos Mv)
    (search : Pos → game_tree_node Mv → Score → Score → List (game_tree_node Mv) →
      Except Failure (pvs_result Pos Mv))
    (beta : Score) (first : Bool) (c : game_tree_node Mv) (rest : List (game_tree_node Mv))
    (p : Pos) (alpha : Score) (stack : List (game_tree_node Mv)) (l : loop_result Pos Mv)
    (h : child_loop g search beta first (c :: rest) p alpha stack = Except.ok l) :
    ∃ m r, c.move = some m ∧
      search_child search first (g.move_piece p m) c alpha beta stack = Except.ok r ∧
      (((Score.max alpha r.score).ge beta = true ∧
        l = { alpha := Score.max alpha r.score, position := g.undo r.position,
              children := r.node :: rest, stackNodeStack := r.stackNodeStack,
              trace := Event.apply m :: r.trace ++ [Event.undo] }) ∨
       ((Score.max alpha r.score).ge beta = false ∧
        ∃ l1, child_loop g search beta false rest (g.undo r.position)
            (Score.max alpha r.score) r.stackNodeStack = Except.ok l1 ∧
          l = { l1 with children := r.node :: l1.children,
                        trace := Event.apply m :: r.trace ++ Event.undo :: l1.trace })) := by
  simp only [child_loop] at h
  split at h
  · cases h
  · rename_i m hm
    split at h
    · cases h
    · rename_i r hr
      refine ⟨m, r, hm, hr, ?_⟩
      split at h
      · rename_i hcut
        left
        cases h
        exact ⟨hcut, rfl⟩
      · rename_i hcut
        right
        split at h
        · cases h
        · rename_i l1 hl1
          cases h
          exact ⟨by simpa using hcut, l1, hl1, rfl⟩

/-! ## The plies of a trace -/

theorem ply_after_append {Pos Mv : Type} :
    ∀ (t1 t2 : List (Event Pos Mv)) (k : Int),
      ply_after (t1 ++ t2) k = ply_after t2 (ply_after t1 k) := by
  intro t1
  induction t1 with
  | nil => intro t2 k; rfl
  | cons e t ih =>
    intro t2 k
    cases e <;> exact ih _ _

theorem plies_append {Pos Mv : Type} :
    ∀ (t1 t2 : List (Event Pos Mv)) (k : Int),
      plies (t1 ++ t2) k = plies t1 k ++ plies t2 (ply_after t1 k) := by
  intro t1
  induction t1 with
  | nil => intro t2 k; rfl
  | cons e t ih =>
    intro t2 k
    cases e <;> exact congrArg (List.cons _) (ih _ _)

theorem plies_entry_trace {Pos Mv : Type} (pl : player) (p : Pos) (sd depth : Int)
    (alpha beta : Score) (b : Bool) (i : Nat) (ex : Bool) (k : Int) :
    ply_after (entry_trace pl p sd depth alpha beta b i ex : List (Event Pos Mv)) k = k ∧
    plies (entry_trace pl p sd depth alpha beta b i ex : List (Event Pos Mv)) k
      = (entry_trace pl p sd depth alpha beta b i ex).map (fun e => (e, k)) := by
  cases b <;> cases ex <;> exact ⟨rfl, rfl⟩

theorem search_child_plies {Pos Mv : Type}
    (search : Pos → game_tree_node Mv → Score → Score → List (game_tree_node Mv) →
      Except Failure (pvs_result Pos Mv))
    (Q : Event Pos Mv × Int → Prop) (K : Int)
    (hs : ∀ p node a b stack r, search p node a b stack = Except.ok r →
      (∀ k, ply_after r.trace k = k) ∧ ∀ x ∈ plies r.trace K, Q x)
    (first : Bool) (p : Pos) (child : game_tree_node Mv) (alpha beta : Score)
    (stack : List (game_tree_node Mv)) (r : pvs_result Pos Mv)
    (h : search_child search first p child alpha beta stack = Except.ok r) :
    (∀ k, ply_after r.trace k = k) ∧ ∀ x ∈ plies r.trace K, Q x := by
  rcases search_child_ok_cases search first p child alpha beta stack r h with
    ⟨-, r1, h1, rfl⟩ | ⟨-, r1, h1, ⟨-, r2, h2, rfl⟩ | ⟨-, rfl⟩⟩
  · exact hs _ _ _ _ _ r1 h1
  · obtain ⟨a1, a2⟩ := hs _ _ _ _ _ r1 h1
    obtain ⟨b1, b2⟩ := hs _ _ _ _ _ r2 h2
    constructor
    · intro k
      show ply_after (r1.trace ++ r2.trace) k = k
      rw [ply_after_append, a1, b1]
    · intro x hx
      change x ∈ plies (r1.trace ++ r2.trace) K at hx
      rw [plies_append, a1, List.mem_append] at hx
      rcases hx with hx | hx
      · exact a2 x hx
      · exact b2 x hx
  · exact hs _ _ _ _ _ r1 h1

theorem child_loop_plies {Pos Mv : Type} (g : Game Pos Mv)
    (search : Pos → game_tree_node Mv → Score → Score → List (game_tree_node Mv) →
      Except Failure (pvs_result Pos Mv))
    (Q : Event Pos Mv × Int → Prop) (K : Int)
    (hs : ∀ p node a b stack r, search p node a b stack = Except.ok r →
      (∀ k, ply_after r.trace k = k) ∧ ∀ x ∈ plies r.trace (K + 1), Q x)
    (hQa : ∀ m, Q (Event.apply m, K)) (hQu : Q (Event.undo, K + 1))
    (beta : Score) :
    ∀ (cs : List (game_tree_node Mv)) (first : Bool) (p : Pos) (alpha : Score)
      (stack : List (game_tree_node Mv)) (l : loop_result Pos Mv),
      child_loop g search beta first cs p alpha stack = Except.ok l →
      ply_after l.trace K = K ∧ ∀ x ∈ plies l.trace K, Q x := by
  intro cs
  induction cs with
  | nil =>
    intro first p alpha stack l h
    simp only [child_loop] at h
    cases h
    exact ⟨rfl, fun x hx => by simp [plies] at hx⟩
  | cons c rest ih =>
    intro first p alpha stack l h
    obtain ⟨m, r, -, hr, hcase⟩ := child_loop_ok_cases g search beta first c rest p alpha stack l h
    obtain ⟨a1, a2⟩ := search_child_plies search Q (K + 1) hs _ _ _ _ _ _ _ hr
    rcases hcase with ⟨-, rfl⟩ | ⟨-, l1, hl1, rfl⟩
    · constructor
      · show ply_after (Event.apply m :: r.trace ++ [Event.undo]) K = K
        rw [List.cons_append, ply_after, ply_after_append, a1]
        simp [ply_after]
      · intro x hx
        change x ∈ plies (Event.apply m :: r.trace ++ [Event.undo]) K at hx
        rw [List.cons_append, plies, plies_append, a1] at hx
        simp only [plies, List.mem_cons, List.mem_append, List.mem_singleton,
          List.not_mem_nil, or_false] at hx
        rcases hx with rfl | hx | rfl
        · exact hQa m
        · exact a2 x hx
        · exact hQu
    · obtain ⟨b1, b2⟩ := ih _ _ _ _ _ hl1
      constructor
      · show ply_after (Event.apply m :: r.trace ++ Event.undo :: l1.trace) K = K
        rw [List.cons_append, ply_after, ply_after_append, a1, ply_after]
        simpa using b1
      · intro x hx
        change x ∈ plies (Event.apply m :: r.trace ++ Event.undo :: l1.trace) K at hx
        rw [List.cons_append, plies, plies_append, a1, plies] at hx
        simp only [List.mem_cons, List.mem_append, add_sub_cancel_right] at hx
        rcases hx with rfl | hx | rfl | hx
        · exact hQa m
        · exact a2 x hx
        · exact hQu
        · exact b2 x hx

/-- Every event of the trace of a returning call with a remaining depth that
is not negative happens at a ply from `sd - depth` to `sd` and is in place
there; the applied moves are all taken back. -/
theorem pvs_fuel_plies {Pos Mv : Type} (g : Game Pos Mv) :
    ∀ (fuel : Nat) (pl : player) (p : Pos) (node : game_tree_node Mv) (sd depth : Int)
      (alpha beta : Score) (stack : List (game_tree_node Mv)) (r : pvs_result Pos Mv),
      0 ≤ depth →
      pvs_fuel g fuel pl p node sd depth alpha beta stack = Except.ok r →
      (∀ k, ply_after r.trace k = k) ∧
      ∀ x ∈ plies r.trace (sd - depth),
        sd - depth ≤ x.2 ∧ x.2 ≤ sd ∧ event_in_place sd x := by
  intro fuel
  induction fuel with
  | zero =>
    intro pl p node sd depth alpha beta stack r _ h
    simp [pvs_fuel] at h
  | succ fuel ih =>
    intro pl p node sd depth alpha beta stack r hd h
    obtain ⟨stack1, hacq, hcase⟩ := pvs_fuel_ok_cases g fuel pl p node sd depth alpha beta stack r
      _ _ rfl rfl h
    have hentry : ∀ x ∈ (entry_trace pl p sd depth alpha beta
        (decide (sd - depth ≥ USE_STACK_DEPTH)) (sd - depth - USE_STACK_DEPTH).toNat
        (needs_expansion (decide (sd - depth ≥ USE_STACK_DEPTH))
          (select_frame (decide (sd - depth ≥ USE_STACK_DEPTH))
            (sd - depth - USE_STACK_DEPTH).toNat stack1 node)) :
          List (Event Pos Mv)).map (fun e => (e, sd - depth)),
        sd - depth ≤ x.2 ∧ x.2 ≤ sd ∧ event_in_place sd x := by
      intro x hx
      simp only [entry_trace, List.map_cons, List.map_append, List.mem_cons, List.mem_append]
        at hx
      rcases hx with rfl | hx | hx
      · exact ⟨le_refl _, by omega, rfl, rfl, hd⟩
      · by_cases hk : sd - depth ≥ USE_STACK_DEPTH
        · rw [decide_eq_true hk] at hx
          simp only [if_true, List.map_cons, List.map_nil, List.mem_singleton] at hx
          subst hx
          simp only [USE_STACK_DEPTH] at hk
          refine ⟨le_refl _, by omega, hk, ?_⟩
          simp only [USE_STACK_DEPTH]
          omega
        · rw [decide_eq_false hk] at hx
          simp at hx
      · split at hx
        · simp only [List.map_cons, List.map_nil, List.mem_singleton] at hx
          subst hx
          exact ⟨le_refl _, by omega, trivial⟩
        · simp at hx
    rcases hcase with ⟨-, hr⟩ | ⟨hterm, l, hl, hr⟩
    · subst hr
      constructor
      · intro k
        show ply_after (_ ++ [Event.evaluate pl p (sd - depth)]) k = k
        rw [ply_after_append, (plies_entry_trace _ _ _ _ _ _ _ _ _ _).1]
        rfl
      · intro x hx
        change x ∈ plies (_ ++ [Event.evaluate pl p (sd - depth)]) (sd - depth) at hx
        rw [plies_append, (plies_entry_trace _ _ _ _ _ _ _ _ _ _).1,
          (plies_entry_trace _ _ _ _ _ _ _ _ _ _).2, List.mem_append] at hx
        rcases hx with hx | hx
        · exact hentry x hx
        · simp only [plies, List.mem_singleton] at hx
          subst hx
          exact ⟨le_refl _, by omega, rfl⟩
    · subst hr
      have hd0 : depth ≠ 0 := by
        intro h0
        rw [h0] at hterm
        simp at hterm
      have hloop := child_loop_plies g _
        (fun x => sd - depth ≤ x.2 ∧ x.2 ≤ sd ∧ event_in_place sd x) (sd - depth)
        (fun p' n' a b' s r' hr' => by
          obtain ⟨c1, c2⟩ := ih (opponent_v pl) p' n' sd (depth - 1) a b' s r' (by omega) hr'
          refine ⟨c1, fun x hx => ?_⟩
          have hK : sd - depth + 1 = sd - (depth - 1) := by omega
          rw [hK] at hx
          obtain ⟨d1, d2, d3⟩ := c2 x hx
          exact ⟨by omega, d2, d3⟩)
        (fun m => ⟨le_refl _, by omega, trivial⟩)
        ⟨by show sd - depth ≤ sd - depth + 1; omega, by show sd - depth + 1 ≤ sd; omega, trivial⟩
        beta _ true p alpha _ l hl
      constructor
      · intro k
        show ply_after (_ ++ l.trace) k = k
        rw [ply_after_append, (plies_entry_trace _ _ _ _ _ _ _ _ _ _).1]
        have := child_loop_plies g _ (fun _ => True) k
          (fun p' n' a b' s r' hr' =>
            ⟨(ih (opponent_v pl) p' n' sd (depth - 1) a b' s r' (by omega) hr').1,
              fun _ _ => trivial⟩)
          (fun _ => trivial) trivial beta _ true p alpha _ l hl
        exact this.1
      · intro x hx
        change x ∈ plies (_ ++ l.trace) (sd - depth) at hx
        rw [plies_append, (plies_entry_trace _ _ _ _ _ _ _ _ _ _).1,
          (plies_entry_trace _ _ _ _ _ _ _ _ _ _).2, List.mem_append] at hx
        rcases hx with hx | hx
        · exact hentry x hx
        · exact hloop.2 x hx

/-! ## The two kinds of frame -/

/-- A returning call either is terminal (remaining depth 0 or no valid
move), evaluates the position and has made no other call, or runs the child
loop on its valid moves, starting with the first child. -/
theorem pvs_fuel_frame_cases {Pos Mv : Type} (g : Game Pos Mv) (fuel : Nat) (pl : player)
    (p : Pos) (node : game_tree_node Mv) (sd depth : Int) (alpha beta : Score)
    (stack : List (game_tree_node Mv)) (r : pvs_result Pos Mv)
    (h : pvs_fuel g (fuel + 1) pl p node sd depth alpha beta stack = Except.ok r) :
    ∃ ex : Bool,
      ((depth = 0 ∨ frame_valid_moves g pl p node sd depth stack = []) ∧
        r.score = Score.fin (g.eval pl p (sd - depth)) ∧ r.position = p ∧
        r.trace = entry_trace pl p sd depth alpha beta (decide (sd - depth ≥ USE_STACK_DEPTH))
          (sd - depth - USE_STACK_DEPTH).toNat ex ++ [Event.evaluate pl p (sd - depth)]) ∨
      (depth ≠ 0 ∧ frame_valid_moves g pl p node sd depth stack ≠ [] ∧
        ∃ stack2 l, child_loop g
            (fun p n a b s => pvs_fuel g fuel (opponent_v pl) p n sd (depth - 1) a b s)
            beta true (frame_valid_moves g pl p node sd depth stack) p alpha stack2
            = Except.ok l ∧
          r.score = l.alpha ∧ r.position = l.position ∧
          r.trace = entry_trace pl p sd depth alpha beta (decide (sd - depth ≥ USE_STACK_DEPTH))
            (sd - depth - USE_STACK_DEPTH).toNat ex ++ l.trace ∧
          (¬ sd - depth ≥ USE_STACK_DEPTH → r.node.children = some l.children)) := by
  obtain ⟨stack1, hacq, hcase⟩ := pvs_fuel_ok_cases g fuel pl p node sd depth alpha beta stack r
    _ _ rfl rfl h
  have hst := acquire_slot_eq_after _ _ _ _ hacq
  have hfvm : frame_valid_moves g pl p node sd depth stack
      = (expand_frame g pl p (decide (sd - depth ≥ USE_STACK_DEPTH))
          (select_frame (decide (sd - depth ≥ USE_STACK_DEPTH))
            (sd - depth - USE_STACK_DEPTH).toNat stack1 node)).children.getD [] := by
    rw [hst]; rfl
  refine ⟨needs_expansion (decide (sd - depth ≥ USE_STACK_DEPTH))
    (select_frame (decide (sd - depth ≥ USE_STACK_DEPTH))
      (sd - depth - USE_STACK_DEPTH).toNat stack1 node), ?_⟩
  rcases hcase with ⟨hterm, hr⟩ | ⟨hterm, l, hl, hr⟩
  · left
    rw [← hfvm] at hterm
    subst hr
    refine ⟨?_, rfl, rfl, rfl⟩
    simp only [Bool.or_eq_true, decide_eq_true_eq, List.isEmpty_iff] at hterm
    exact hterm
  · right
    rw [← hfvm] at hterm hl
    subst hr
    simp only [Bool.or_eq_false_iff, decide_eq_false_iff_not] at hterm
    refine ⟨hterm.1, ?_, _, l, hl, rfl, rfl, rfl, ?_⟩
    · intro hnil
      rw [hnil] at hterm
      simp at hterm
    · intro hk
      simp only [store_node, decide_eq_false hk, Bool.false_eq_true, if_false,
        game_tree_node.children_set_eval, game_tree_node.children_set_children]

theorem entry_trace_no_evaluate {Pos Mv : Type} (pl : player) (p : Pos) (sd depth : Int)
    (alpha beta : Score) (b : Bool) (i : Nat) (ex : Bool) :
    (entry_trace pl p sd depth alpha beta b i ex : List (Event Pos Mv)).filter Event.is_evaluate
      = [] := by
  cases b <;> cases ex <;> rfl

/-- In the trace of a returning call no event happens at a ply below
`sd - depth`, every call of the static evaluator is given the ply at which it
happens, and the applied moves are all taken back. -/
theorem pvs_fuel_evaluations {Pos Mv : Type} (g : Game Pos Mv) :
    ∀ (fuel : Nat) (pl : player) (p : Pos) (node : game_tree_node Mv) (sd depth : Int)
      (alpha beta : Score) (stack : List (game_tree_node Mv)) (r : pvs_result Pos Mv),
      pvs_fuel g fuel pl p node sd depth alpha beta stack = Except.ok r →
      (∀ k, ply_after r.trace k = k) ∧
      ∀ x ∈ plies r.trace (sd - depth),
        sd - depth ≤ x.2 ∧ ∀ pl1 p1 q, x.1 = Event.evaluate pl1 p1 q → q = x.2 := by
  intro fuel
  induction fuel with
  | zero =>
    intro pl p node sd depth alpha beta stack r h
    simp [pvs_fuel] at h
  | succ fuel ih =>
    intro pl p node sd depth alpha beta stack r h
    obtain ⟨ex, hcase⟩ := pvs_fuel_frame_cases g fuel pl p node sd depth alpha beta stack r h
    have hentry : ∀ x ∈ (entry_trace pl p sd depth alpha beta
        (decide (sd - depth ≥ USE_STACK_DEPTH)) (sd - depth - USE_STACK_DEPTH).toNat ex :
          List (Event Pos Mv)).map (fun e => (e, sd - depth)),
        sd - depth ≤ x.2 ∧ ∀ pl1 p1 q, x.1 = Event.evaluate pl1 p1 q → q = x.2 := by
      intro x hx
      simp only [List.mem_map] at hx
      obtain ⟨e, he, rfl⟩ := hx
      refine ⟨le_refl _, ?_⟩
      intro pl1 p1 q heq
      exfalso
      have hno := @entry_trace_no_evaluate Pos Mv pl p sd depth alpha beta
        (decide (sd - depth ≥ USE_STACK_DEPTH)) (sd - depth - USE_STACK_DEPTH).toNat ex
      have : e ∈ (entry_trace pl p sd depth alpha beta
          (decide (sd - depth ≥ USE_STACK_DEPTH)) (sd - depth - USE_STACK_DEPTH).toNat ex :
            List (Event Pos Mv)).filter Event.is_evaluate :=
        List.mem_filter.mpr ⟨he, by simp only at heq; rw [heq]; rfl⟩
      rw [hno] at this
      simp at this
    rcases hcase with ⟨-, -, -, ht⟩ | ⟨-, -, stack2, l, hl, -, -, ht, -⟩
    · constructor
      · intro k
        rw [ht, ply_after_append, (plies_entry_trace _ _ _ _ _ _ _ _ _ _).1]
        rfl
      · intro x hx
        rw [ht, plies_append, (plies_entry_trace _ _ _ _ _ _ _ _ _ _).1,
          (plies_entry_trace _ _ _ _ _ _ _ _ _ _).2, List.mem_append] at hx
        rcases hx with hx | hx
        · exact hentry x hx
        · simp only [plies, List.mem_singleton] at hx
          subst hx
          refine ⟨le_refl _, ?_⟩
          intro pl1 p1 q heq
          cases heq
          rfl
    · have hrec : ∀ p1 n1 a b1 s r1,
          pvs_fuel g fuel (opponent_v pl) p1 n1 sd (depth - 1) a b1 s = Except.ok r1 →
          (∀ k, ply_after r1.trace k = k) ∧ ∀ x ∈ plies r1.trace (sd - depth + 1),
            sd - depth ≤ x.2 ∧ ∀ pl1 p1 q, x.1 = Event.evaluate pl1 p1 q → q = x.2 := by
        intro p1 n1 a b1 s r1 hr1
        obtain ⟨c1, c2⟩ := ih (opponent_v pl) p1 n1 sd (depth - 1) a b1 s r1 hr1
        refine ⟨c1, fun x hx => ?_⟩
        have hK : sd - depth + 1 = sd - (depth - 1) := by omega
        rw [hK] at hx
        obtain ⟨d1, d2⟩ := c2 x hx
        exact ⟨by omega, d2⟩
      have h1 := child_loop_plies g _
        (fun x => sd - depth ≤ x.2 ∧ ∀ pl1 p1 q, x.1 = Event.evaluate pl1 p1 q → q = x.2)
        (sd - depth) hrec
        (fun m => ⟨le_refl _, fun _ _ _ heq => by cases heq⟩)
        ⟨by show sd - depth ≤ sd - depth + 1; omega, fun _ _ _ heq => by cases heq⟩
        beta _ true p alpha _ l hl
      constructor
      · intro k
        rw [ht, ply_after_append, (plies_entry_trace _ _ _ _ _ _ _ _ _ _).1]
        have := child_loop_plies g _ (fun _ => True) k
          (fun p1 n1 a b1 s r1 hr1 =>
            ⟨(ih (opponent_v pl) p1 n1 sd (depth - 1) a b1 s r1 hr1).1, fun _ _ => trivial⟩)
          (fun _ => trivial) trivial beta _ true p alpha _ l hl
        exact this.1
      · intro x hx
        rw [ht, plies_append, (plies_entry_trace _ _ _ _ _ _ _ _ _ _).1,
          (plies_entry_trace _ _ _ _ _ _ _ _ _ _).2, List.mem_append] at hx
        rcases hx with hx | hx
        · exact hentry x hx
        · exact h1.2 x hx

/-- C23: in every call of `pvs` that returns, every call of the static
evaluator is given the ply at which it happens, which is
`startDepth - depth` plus the number of moves applied and not taken back
since the call began.  A frame with `depth == 0` or
without valid moves calls the evaluator exactly once, for its own side and
position at ply `startDepth - depth`, and returns that value; in a frame with
`depth != 0` and at least one child every call of the evaluator happens at a
deeper ply, inside the visit of a child, and none at the frame itself. -/
theorem static_evaluation_rule {Pos Mv : Type} (g : Game Pos Mv) (pl : player) (p : Pos)
    (node : game_tree_node Mv) (startDepth depth : Int) (alpha beta : Score)
    (stack : List (game_tree_node Mv)) (r : pvs_result Pos Mv)
    (h : pvs g pl p node startDepth depth alpha beta stack = Except.ok r) :
    (∀ x ∈ plies r.trace (startDepth - depth), ∀ pl1 p1 q,
      x.1 = Event.evaluate pl1 p1 q → q = x.2) ∧
    ((depth = 0 ∨ frame_valid_moves g pl p node startDepth depth stack = []) →
      r.trace.filter Event.is_evaluate = [Event.evaluate pl p (startDepth - depth)] ∧
      r.trace.getLast? = some (Event.evaluate pl p (startDepth - depth)) ∧
      r.score = Score.fin (g.eval pl p (startDepth - depth))) ∧
    ((depth ≠ 0 ∧ frame_valid_moves g pl p node startDepth depth stack ≠ []) →
      ∀ x ∈ plies r.trace (startDepth - depth), x.1.is_evaluate = true →
        startDepth - depth < x.2) := by
  have hpl := pvs_fuel_evaluations g _ pl p node startDepth depth alpha beta stack r h
  obtain ⟨ex, hcase⟩ := pvs_fuel_frame_cases g _ pl p node startDepth depth alpha beta stack r h
  refine ⟨?_, ?_, ?_⟩
  · intro x hx pl1 p1 q he
    exact (hpl.2 x hx).2 pl1 p1 q he
  · intro hterm
    rcases hcase with ⟨-, hs, -, ht⟩ | ⟨hd0, hne, -⟩
    · refine ⟨?_, ?_, hs⟩
      · rw [ht, List.filter_append, entry_trace_no_evaluate]
        rfl
      · rw [ht, List.getLast?_append]
        rfl
    · rcases hterm with h0 | h0
      · exact absurd h0 hd0
      · exact absurd h0 hne
  · intro hnt
    rcases hcase with ⟨hterm, -⟩ | ⟨hd0, -, stack2, l, hl, -, -, ht, -⟩
    · rcases hterm with h0 | h0
      · exact absurd h0 hnt.1
      · exact absurd h0 hnt.2
    · intro x hx hev
      rw [ht, plies_append, (plies_entry_trace _ _ _ _ _ _ _ _ _ _).1,
        (plies_entry_trace _ _ _ _ _ _ _ _ _ _).2, List.mem_append] at hx
      rcases hx with hx | hx
      · exfalso
        simp only [List.mem_map] at hx
        obtain ⟨e, he, rfl⟩ := hx
        have hno := @entry_trace_no_evaluate Pos Mv pl p startDepth depth alpha beta
          (decide (startDepth - depth ≥ USE_STACK_DEPTH))
          (startDepth - depth - USE_STACK_DEPTH).toNat ex
        have : e ∈ (entry_trace pl p startDepth depth alpha beta
            (decide (startDepth - depth ≥ USE_STACK_DEPTH))
            (startDepth - depth - USE_STACK_DEPTH).toNat ex :
              List (Event Pos Mv)).filter Event.is_evaluate :=
          List.mem_filter.mpr ⟨he, hev⟩
        rw [hno] at this
        simp at this
      · have hloop := child_loop_plies g _
          (fun x => x.1.is_evaluate = true → startDepth - depth < x.2) (startDepth - depth)
          (fun p1 n1 a b1 s r1 hr1 => by
            obtain ⟨c1, c2⟩ := pvs_fuel_evaluations g _ (opponent_v pl) p1 n1 startDepth
              (depth - 1) a b1 s r1 hr1
            refine ⟨c1, fun x hx _ => ?_⟩
            have hK : startDepth - depth + 1 = startDepth - (depth - 1) := by omega
            rw [hK] at hx
            have := (c2 x hx).1
            omega)
          (fun m hm => by cases hm) (fun hm => by cases hm)
          beta _ true p alpha _ l hl
        exact hloop.2 x hx hev

/-! ## C25: termination -/

theorem search_child_error {Pos Mv : Type}
    (search : Pos → game_tree_node Mv → Score → Score → List (game_tree_node Mv) →
      Except Failure (pvs_result Pos Mv))
    (first : Bool) (p : Pos) (child : game_tree_node Mv) (alpha beta : Score)
    (stack : List (game_tree_node Mv)) (e : Failure)
    (h : search_child search first p child alpha beta stack = Except.error e) :
    ∃ p1 n1 a1 b1 s1, search p1 n1 a1 b1 s1 = Except.error e := by
  unfold search_child at h
  split at h
  · split at h
    · rename_i e1 he1
      cases h
      exact ⟨_, _, _, _, _, he1⟩
    · cases h
  · split at h
    · rename_i e1 he1
      cases h
      exact ⟨_, _, _, _, _, he1⟩
    · dsimp only at h
      split at h
      · split at h
        · rename_i e2 he2
          cases h
          exact ⟨_, _, _, _, _, he2⟩
        · cases h
      · cases h

theorem child_loop_error {Pos Mv : Type} (g : Game Pos Mv)
    (search : Pos → game_tree_node Mv → Score → Score → List (game_tree_node Mv) →
      Except Failure (pvs_result Pos Mv))
    (beta : Score) :
    ∀ (cs : List (game_tree_node Mv)) (first : Bool) (p : Pos) (alpha : Score)
      (stack : List (game_tree_node Mv)) (e : Failure),
      child_loop g search beta first cs p alpha stack = Except.error e →
      e = Failure.empty_optional ∨ ∃ p1 n1 a1 b1 s1, search p1 n1 a1 b1 s1 = Except.error e := by
  intro cs
  induction cs with
  | nil =>
    intro first p alpha stack e h
    simp [child_loop] at h
  | cons c rest ih =>
    intro first p alpha stack e h
    simp only [child_loop] at h
    split at h
    · cases h
      exact Or.inl rfl
    · split at h
      · rename_i e1 he1
        cases h
        exact Or.inr (search_child_error search _ _ _ _ _ _ _ he1)
      · split at h
        · cases h
        · split at h
          · rename_i e1 he1
            cases h
            exact ih _ _ _ _ _ he1
          · cases h

theorem acquire_slot_error {Mv : Type} (stack : List (game_tree_node Mv)) (b : Bool)
    (index : Int) (e : Failure) (h : acquire_slot stack b index = Except.error e) :
    e = Failure.stack_node_stack_limit_exceeded ∧ b = true ∧
      index ≥ ((Nat.max STACK_NODE_STACK_CAPACITY stack.length : Nat) : Int) := by
  unfold acquire_slot at h
  split at h
  · rename_i h1
    split at h
    · rename_i h2
      cases h
      simp only [Bool.and_eq_true, decide_eq_true_eq] at h1
      exact ⟨rfl, h1.1, h2⟩
    · cases h
  · cases h

/-- Inversion of a failing call: the slot could not be acquired, or the
child loop of a frame with remaining depth other than 0 failed. -/
theorem pvs_fuel_error_cases {Pos Mv : Type} (g : Game Pos Mv) (fuel : Nat) (pl : player)
    (p : Pos) (node : game_tree_node Mv) (sd depth : Int) (alpha beta : Score)
    (stack : List (game_tree_node Mv)) (e : Failure)
    (h : pvs_fuel g (fuel + 1) pl p node sd depth alpha beta stack = Except.error e) :
    acquire_slot stack (decide (sd - depth ≥ USE_STACK_DEPTH)) (sd - depth - USE_STACK_DEPTH)
        = Except.error e ∨
    (depth ≠ 0 ∧ ∃ cs stack2, child_loop g
        (fun p n a b s => pvs_fuel g fuel (opponent_v pl) p n sd (depth - 1) a b s)
        beta true cs p alpha stack2 = Except.error e) := by
  rw [pvs_fuel] at h
  cases hacq : acquire_slot stack (decide (sd - depth ≥ USE_STACK_DEPTH))
      (sd - depth - USE_STACK_DEPTH) with
  | error e1 =>
    simp only [hacq] at h
    cases h
    exact Or.inl rfl
  | ok stack1 =>
    right
    simp only [hacq] at h
    split at h
    · cases h
    · rename_i hterm
      split at h
      · rename_i e1 he1
        cases h
        refine ⟨?_, _, _, he1⟩
        intro h0
        rw [h0] at hterm
        simp at hterm
      · cases h

/-- With more fuel than the remaining depth, the fuel does not run out and
the result does not depend on the fuel. -/
theorem pvs_fuel_enough {Pos Mv : Type} (g : Game Pos Mv) :
    ∀ (n fuel1 fuel2 : Nat) (pl : player) (p : Pos) (node : game_tree_node Mv) (sd depth : Int)
      (alpha beta : Score) (stack : List (game_tree_node Mv)),
      depth = n → n < fuel1 → n < fuel2 →
      pvs_fuel g fuel1 pl p node sd depth alpha beta stack
        = pvs_fuel g fuel2 pl p node sd depth alpha beta stack ∧
      pvs_fuel g fuel1 pl p node sd depth alpha beta stack
        ≠ Except.error Failure.out_of_fuel := by
  intro n
  induction n with
  | zero =>
    intro fuel1 fuel2 pl p node sd depth alpha beta stack hd h1 h2
    obtain ⟨f1, rfl⟩ : ∃ f, fuel1 = f + 1 := ⟨fuel1 - 1, by omega⟩
    obtain ⟨f2, rfl⟩ : ∃ f, fuel2 = f + 1 := ⟨fuel2 - 1, by omega⟩
    have hd0 : depth = 0 := by simpa using hd
    subst hd0
    constructor
    · rw [pvs_fuel, pvs_fuel]
      simp only [decide_True, Bool.true_or, if_true]
    · intro hc
      rcases pvs_fuel_error_cases g f1 pl p node sd 0 alpha beta stack _ hc with h0 | ⟨h0, -⟩
      · cases (acquire_slot_error _ _ _ _ h0).1
      · exact h0 rfl
  | succ n ih =>
    intro fuel1 fuel2 pl p node sd depth alpha beta stack hd h1 h2
    obtain ⟨f1, rfl⟩ : ∃ f, fuel1 = f + 1 := ⟨fuel1 - 1, by omega⟩
    obtain ⟨f2, rfl⟩ : ∃ f, fuel2 = f + 1 := ⟨fuel2 - 1, by omega⟩
    have hd1 : depth - 1 = (n : Int) := by rw [hd]; push_cast; omega
    have hfun : (fun p n a b s => pvs_fuel g f1 (opponent_v pl) p n sd (depth - 1) a b s)
        = (fun p n a b s => pvs_fuel g f2 (opponent_v pl) p n sd (depth - 1) a b s) := by
      funext p1 n1 a1 b1 s1
      exact (ih f1 f2 (opponent_v pl) p1 n1 sd (depth - 1) a1 b1 s1 hd1 (by omega) (by omega)).1
    constructor
    · rw [pvs_fuel, pvs_fuel, hfun]
    · intro hc
      rcases pvs_fuel_error_cases g f1 pl p node sd depth alpha beta stack _ hc with
        h0 | ⟨-, cs, stack2, he⟩
      · cases (acquire_slot_error _ _ _ _ h0).1
      · rcases child_loop_error g _ beta _ _ _ _ _ _ he with h0 | ⟨p1, n1, a1, b1, s1, h0⟩
        · cases h0
        · exact (ih f1 f1 (opponent_v pl) p1 n1 sd (depth - 1) a1 b1 s1 hd1 (by omega)
            (by omega)).2 h0

/-- C25: for every remaining depth that is not negative `pvs` terminates: the
recursion needs no more nested calls than `depth + 1`, so the fuel of the
embedding never runs out and any fuel above `depth` gives the same result.
In a returning call every entry of `pvs` carries the same `startDepth` and a
remaining depth from `0` to `depth` that is one less for each move applied
and not yet taken back, so that `startDepth - depth` of the entry is the ply
at which it happens; all applied moves are taken back. -/
theorem pvs_terminates {Pos Mv : Type} (g : Game Pos Mv) (pl : player) (p : Pos)
    (node : game_tree_node Mv) (startDepth depth : Int) (alpha beta : Score)
    (stack : List (game_tree_node Mv))
    (hd : 0 ≤ depth) :
    pvs g pl p node startDepth depth alpha beta stack ≠ Except.error Failure.out_of_fuel ∧
    (∀ fuel, depth.toNat < fuel →
      pvs_fuel g fuel pl p node startDepth depth alpha beta stack
        = pvs g pl p node startDepth depth alpha beta stack) ∧
    (∀ r, pvs g pl p node startDepth depth alpha beta stack = Except.ok r →
      (∀ x ∈ plies r.trace (startDepth - depth), ∀ pl1 sd1 d1 a b,
        x.1 = Event.enter pl1 sd1 d1 a b →
          sd1 = startDepth ∧ sd1 - d1 = x.2 ∧ 0 ≤ d1 ∧ d1 ≤ depth ∧
          d1 = depth - (x.2 - (startDepth - depth))) ∧
      ∀ k, ply_after r.trace k = k) := by
  have hn : depth = (depth.toNat : Int) := (Int.toNat_of_nonneg hd).symm
  have hb : depth.toNat < pvs_fuel_bound startDepth depth := by
    unfold pvs_fuel_bound
    omega
  refine ⟨?_, ?_, ?_⟩
  · exact (pvs_fuel_enough g depth.toNat _ _ pl p node startDepth depth alpha beta stack hn hb
      hb).2
  · intro fuel hf
    exact (pvs_fuel_enough g depth.toNat _ _ pl p node startDepth depth alpha beta stack hn hf
      hb).1
  · intro r hr
    obtain ⟨h1, h2⟩ := pvs_fuel_plies g _ pl p node startDepth depth alpha beta stack r hd hr
    refine ⟨?_, h1⟩
    intro x hx pl1 sd1 d1 a b he
    obtain ⟨k1, k2, k3⟩ := h2 x hx
    unfold event_in_place at k3
    rw [he] at k3
    obtain ⟨e1, e2, e3⟩ := k3
    subst e1
    refine ⟨rfl, e2, e3, by omega, by omega⟩

/-! ## C24: bound soundness of a returning call -/

/-- An instance of C23: the search of the two-move scenario, a frame with
remaining depth 1 and two children. -/
theorem static_evaluation_rule_witness :
    (∀ x ∈ plies two_move_result.trace ((1 : Int) - 1), ∀ pl1 p1 q,
      x.1 = Event.evaluate pl1 p1 q → q = x.2) ∧
    (((1 : Int) = 0 ∨ frame_valid_moves two_move_game player.Black [0]
        (game_tree_node.stub 0) 1 1 [] = []) →
      two_move_result.trace.filter Event.is_evaluate
        = [Event.evaluate player.Black [0] ((1 : Int) - 1)] ∧
      two_move_result.trace.getLast? = some (Event.evaluate player.Black [0] ((1 : Int) - 1)) ∧
      two_move_result.score
        = Score.fin (two_move_game.eval player.Black [0] ((1 : Int) - 1))) ∧
    (((1 : Int) ≠ 0 ∧ frame_valid_moves two_move_game player.Black [0]
        (game_tree_node.stub 0) 1 1 [] ≠ []) →
      ∀ x ∈ plies two_move_result.trace ((1 : Int) - 1), x.1.is_evaluate = true →
        (1 : Int) - 1 < x.2) :=
  static_evaluation_rule two_move_game player.Black [0] (game_tree_node.stub 0) 1 1
    Score.ninf Score.pinf [] two_move_result rfl

/-- An instance of C25: the search of the two-move scenario. -/
theorem pvs_terminates_witness :
    pvs two_move_game player.Black [0] (game_tree_node.stub 0) 1 1 Score.ninf Score.pinf []
      ≠ Except.error Failure.out_of_fuel ∧
    (∀ fuel, (1 : Int).toNat < fuel →
      pvs_fuel two_move_game fuel player.Black [0] (game_tree_node.stub 0) 1 1
          Score.ninf Score.pinf []
        = pvs two_move_game player.Black [0] (game_tree_node.stub 0) 1 1
            Score.ninf Score.pinf []) ∧
    (∀ r, pvs two_move_game player.Black [0] (game_tree_node.stub 0) 1 1
        Score.ninf Score.pinf [] = Except.ok r →
      (∀ x ∈ plies r.trace ((1 : Int) - 1), ∀ pl1 sd1 d1 a b,
        x.1 = Event.enter pl1 sd1 d1 a b →
          sd1 = 1 ∧ sd1 - d1 = x.2 ∧ 0 ≤ d1 ∧ d1 ≤ 1 ∧
          d1 = 1 - (x.2 - ((1 : Int) - 1))) ∧
      ∀ k, ply_after r.trace k = k) :=
  pvs_terminates two_move_game player.Black [0] (game_tree_node.stub 0) 1 1
    Score.ninf Score.pinf [] (by decide)

/-! ## C21: the calls made for a child -/

theorem search_child_filter_nil {Pos Mv : Type}
    (search : Pos → game_tree_node Mv → Score → Score → List (game_tree_node Mv) →
      Except Failure (pvs_result Pos Mv))
    (f : Event Pos Mv → Bool)
    (hs : ∀ p node a b stack r, search p node a b stack = Except.ok r → r.trace.filter f = [])
    (first : Bool) (p : Pos) (child : game_tree_node Mv) (alpha beta : Score)
    (stack : List (game_tree_node Mv)) (r : pvs_result Pos Mv)
    (h : search_child search first p child alpha beta stack = Except.ok r) :
    r.trace.filter f = [] := by
  rcases search_child_ok_cases search first p child alpha beta stack r h with
    ⟨-, r1, h1, rfl⟩ | ⟨-, r1, h1, ⟨-, r2, h2, rfl⟩ | ⟨-, rfl⟩⟩
  · exact hs _ _ _ _ _ r1 h1
  · show (r1.trace ++ r2.trace).filter f = []
    rw [List.filter_append, hs _ _ _ _ _ r1 h1, hs _ _ _ _ _ r2 h2]
    rfl
  · exact hs _ _ _ _ _ r1 h1

theorem child_loop_filter_nil {Pos Mv : Type} (g : Game Pos Mv)
    (search : Pos → game_tree_node Mv → Score → Score → List (game_tree_node Mv) →
      Except Failure (pvs_result Pos Mv))
    (f : Event Pos Mv → Bool)
    (hs : ∀ p node a b stack r, search p node a b stack = Except.ok r → r.trace.filter f = [])
    (hfa : ∀ m, f (Event.apply m) = false) (hfu : f Event.undo = false)
    (beta : Score) :
    ∀ (cs : List (game_tree_node Mv)) (first : Bool) (p : Pos) (alpha : Score)
      (stack : List (game_tree_node Mv)) (l : loop_result Pos Mv),
      child_loop g search beta first cs p alpha stack = Except.ok l →
      l.trace.filter f = [] := by
  intro cs
  induction cs with
  | nil =>
    intro first p alpha stack l h
    simp only [child_loop] at h
    cases h
    rfl
  | cons c rest ih =>
    intro first p alpha stack l h
    obtain ⟨m, r, -, hr, hcase⟩ := child_loop_ok_cases g search beta first c rest p alpha stack l h
    have hr0 := search_child_filter_nil search f hs _ _ _ _ _ _ _ hr
    rcases hcase with ⟨-, rfl⟩ | ⟨-, l1, hl1, rfl⟩
    · show (Event.apply m :: r.trace ++ [Event.undo]).filter f = []
      rw [List.cons_append, List.filter_cons, hfa, List.filter_append, hr0]
      simp [hfu]
    · show (Event.apply m :: r.trace ++ Event.undo :: l1.trace).filter f = []
      rw [List.cons_append, List.filter_cons, hfa, List.filter_append, hr0, List.filter_cons, hfu,
        ih _ _ _ _ _ hl1]
      rfl

theorem calls_at_entry_trace {Pos Mv : Type} (pl : player) (p : Pos) (sd depth : Int)
    (alpha beta : Score) (b : Bool) (i : Nat) (ex : Bool) (d : Int) :
    calls_at d (entry_trace pl p sd depth alpha beta b i ex : List (Event Pos Mv))
      = if depth = d then [Event.enter pl sd depth alpha beta] else [] := by
  by_cases hd : depth = d
  · rw [if_pos hd]
    cases b <;> cases ex <;> simp [calls_at, entry_trace, Event.is_enter_at, hd]
  · rw [if_neg hd]
    cases b <;> cases ex <;> simp [calls_at, entry_trace, Event.is_enter_at, hd]

/-- The trace of a returning call holds one entry of `pvs` with the remaining
depth of the call, its own, and none with a larger one. -/
theorem pvs_fuel_calls {Pos Mv : Type} (g : Game Pos Mv) :
    ∀ (fuel : Nat) (pl : player) (p : Pos) (node : game_tree_node Mv) (sd depth : Int)
      (alpha beta : Score) (stack : List (game_tree_node Mv)) (r : pvs_result Pos Mv),
      pvs_fuel g fuel pl p node sd depth alpha beta stack = Except.ok r →
      ∀ d, depth ≤ d →
        calls_at d r.trace = if depth = d then [Event.enter pl sd depth alpha beta] else [] := by
  intro fuel
  induction fuel with
  | zero =>
    intro pl p node sd depth alpha beta stack r h
    simp [pvs_fuel] at h
  | succ fuel ih =>
    intro pl p node sd depth alpha beta stack r h d hd
    obtain ⟨ex, hcase⟩ := pvs_fuel_frame_cases g fuel pl p node sd depth alpha beta stack r h
    rcases hcase with ⟨-, -, -, ht⟩ | ⟨-, -, stack2, l, hl, -, -, ht, -⟩
    · rw [ht]
      unfold calls_at
      rw [List.filter_append]
      have := @calls_at_entry_trace Pos Mv pl p sd depth alpha beta
        (decide (sd - depth ≥ USE_STACK_DEPTH)) (sd - depth - USE_STACK_DEPTH).toNat ex d
      unfold calls_at at this
      rw [this]
      simp [Event.is_enter_at]
    · rw [ht]
      unfold calls_at
      rw [List.filter_append]
      have := @calls_at_entry_trace Pos Mv pl p sd depth alpha beta
        (decide (sd - depth ≥ USE_STACK_DEPTH)) (sd - depth - USE_STACK_DEPTH).toNat ex d
      unfold calls_at at this
      rw [this]
      have hnil := child_loop_filter_nil g _ (Event.is_enter_at d)
        (fun p1 n1 a b1 s r1 hr1 => by
          have := ih (opponent_v pl) p1 n1 sd (depth - 1) a b1 s r1 hr1 d (by omega)
          rw [if_neg (by omega)] at this
          exact this)
        (fun _ => rfl) rfl beta _ _ _ _ _ _ hl
      rw [hnil, List.append_nil]

/-- C21: in a frame that is not terminal the child loop starts with the first
child (`first = true`) and goes on with `first = false`.  For the child at the
head of the loop, with the current bounds `(alpha, beta)`: the first child is
searched once, with the window `(-beta, -alpha)` and remaining depth
`depth - 1`; a later child is searched with the null window
`(-alpha - 1, -alpha)` and, exactly when the negated result `score` of that
probe satisfies `alpha < score < beta`, a second time with the window
`(-beta, -score)`; no child is searched more than twice, and the value used
for the child is the negation of the score of its last search. -/
theorem pvs_search_rule {Pos Mv : Type} (g : Game Pos Mv) (fuel : Nat) (pl : player)
    (startDepth depth : Int) (beta : Score) (first : Bool) (c : game_tree_node Mv)
    (rest : List (game_tree_node Mv)) (p : Pos) (alpha : Score)
    (stack : List (game_tree_node Mv)) (l : loop_result Pos Mv)
    (h : child_loop g
        (fun p n a b s => pvs_fuel g fuel (opponent_v pl) p n startDepth (depth - 1) a b s)
        beta first (c :: rest) p alpha stack = Except.ok l) :
    (∀ node stack0 r0,
      pvs_fuel g (fuel + 1) pl p node startDepth depth alpha beta stack0 = Except.ok r0 →
      depth ≠ 0 → frame_valid_moves g pl p node startDepth depth stack0 ≠ [] →
      ∃ stack2 l0, child_loop g
          (fun p n a b s => pvs_fuel g fuel (opponent_v pl) p n startDepth (depth - 1) a b s)
          beta true (frame_valid_moves g pl p node startDepth depth stack0) p alpha stack2
          = Except.ok l0 ∧ r0.score = l0.alpha) ∧
    ∃ m r, c.move = some m ∧
      search_child
        (fun p n a b s => pvs_fuel g fuel (opponent_v pl) p n startDepth (depth - 1) a b s)
        first (g.move_piece p m) c alpha beta stack = Except.ok r ∧
      (first = true →
        ∃ r1, pvs_fuel g fuel (opponent_v pl) (g.move_piece p m) c startDepth (depth - 1)
            beta.neg alpha.neg stack = Except.ok r1 ∧
          calls_at (depth - 1) r.trace
            = [Event.enter (opponent_v pl) startDepth (depth - 1) beta.neg alpha.neg] ∧
          r.score = r1.score.neg ∧ r.node = r1.node) ∧
      (first = false →
        ∃ r1, pvs_fuel g fuel (opponent_v pl) (g.move_piece p m) c startDepth (depth - 1)
            alpha.neg.sub_one alpha.neg stack = Except.ok r1 ∧
          ((alpha.lt r1.score.neg = true ∧ r1.score.neg.lt beta = true) →
            ∃ r2, pvs_fuel g fuel (opponent_v pl) r1.position r1.node startDepth (depth - 1)
                beta.neg r1.score.neg.neg r1.stackNodeStack = Except.ok r2 ∧
              calls_at (depth - 1) r.trace
                = [Event.enter (opponent_v pl) startDepth (depth - 1) alpha.neg.sub_one alpha.neg,
                   Event.enter (opponent_v pl) startDepth (depth - 1) beta.neg
                     r1.score.neg.neg] ∧
              r.score = r2.score.neg ∧ r.node = r2.node) ∧
          (¬ (alpha.lt r1.score.neg = true ∧ r1.score.neg.lt beta = true) →
            calls_at (depth - 1) r.trace
              = [Event.enter (opponent_v pl) startDepth (depth - 1) alpha.neg.sub_one
                  alpha.neg] ∧
            r.score = r1.score.neg ∧ r.node = r1.node)) ∧
      (calls_at (depth - 1) r.trace).length ≤ 2 ∧
      ((Score.max alpha r.score).ge beta = true →
        l.alpha = Score.max alpha r.score ∧ l.children = r.node :: rest) ∧
      ((Score.max alpha r.score).ge beta = false →
        ∃ l1, child_loop g
            (fun p n a b s => pvs_fuel g fuel (opponent_v pl) p n startDepth (depth - 1) a b s)
            beta false rest (g.undo r.position) (Score.max alpha r.score) r.stackNodeStack
            = Except.ok l1 ∧
          l.alpha = l1.alpha ∧ l.children = r.node :: l1.children) := by
  constructor
  · intro node stack0 r0 h0 hd hne
    obtain ⟨ex, hcase⟩ := pvs_fuel_frame_cases g fuel pl p node startDepth depth alpha beta
      stack0 r0 h0
    rcases hcase with ⟨hterm, -⟩ | ⟨-, -, stack2, l0, hl0, hs0, -⟩
    · rcases hterm with h1 | h1
      · exact absurd h1 hd
      · exact absurd h1 hne
    · exact ⟨stack2, l0, hl0, hs0⟩
  · obtain ⟨m, r, hm, hr, hcase⟩ := child_loop_ok_cases g _ beta first c rest p alpha stack l h
    have hcall : ∀ p1 n1 a b s r1,
        pvs_fuel g fuel (opponent_v pl) p1 n1 startDepth (depth - 1) a b s = Except.ok r1 →
        calls_at (depth - 1) r1.trace
          = [Event.enter (opponent_v pl) startDepth (depth - 1) a b] := by
      intro p1 n1 a b s r1 hr1
      have := pvs_fuel_calls g fuel (opponent_v pl) p1 n1 startDepth (depth - 1) a b s r1 hr1
        (depth - 1) (le_refl _)
      rw [if_pos rfl] at this
      exact this
    refine ⟨m, r, hm, hr, ?_, ?_, ?_, ?_, ?_⟩
    · intro hf
      rcases search_child_ok_cases _ first _ c alpha beta stack r hr with
        ⟨-, r1, h1, rfl⟩ | ⟨hf2, -⟩
      · exact ⟨r1, h1, hcall _ _ _ _ _ r1 h1, rfl, rfl⟩
      · rw [hf] at hf2
        cases hf2
    · intro hf
      rcases search_child_ok_cases _ first _ c alpha beta stack r hr with
        ⟨hf2, -⟩ | ⟨-, r1, h1, ⟨hc, r2, h2, rfl⟩ | ⟨hc, rfl⟩⟩
      · rw [hf] at hf2
        cases hf2
      · refine ⟨r1, h1, ?_, ?_⟩
        · intro _
          refine ⟨r2, h2, ?_, rfl, rfl⟩
          show calls_at (depth - 1) (r1.trace ++ r2.trace) = _
          unfold calls_at
          rw [List.filter_append]
          have e1 := hcall _ _ _ _ _ r1 h1
          have e2 := hcall _ _ _ _ _ r2 h2
          unfold calls_at at e1 e2
          rw [e1, e2]
          rfl
        · intro hn
          simp only [Bool.and_eq_true] at hc
          exact absurd hc hn
      · refine ⟨r1, h1, ?_, ?_⟩
        · intro hy
          simp only [Bool.and_eq_false_iff] at hc
          rcases hc with hc | hc
          · rw [hy.1] at hc
            cases hc
          · rw [hy.2] at hc
            cases hc
        · intro _
          exact ⟨hcall _ _ _ _ _ r1 h1, rfl, rfl⟩
    · rcases search_child_ok_cases _ first _ c alpha beta stack r hr with
        ⟨-, r1, h1, rfl⟩ | ⟨-, r1, h1, ⟨-, r2, h2, rfl⟩ | ⟨-, rfl⟩⟩
      · show (calls_at (depth - 1) r1.trace).length ≤ 2
        rw [hcall _ _ _ _ _ r1 h1]
        simp
      · show (calls_at (depth - 1) (r1.trace ++ r2.trace)).length ≤ 2
        unfold calls_at
        rw [List.filter_append]
        have e1 := hcall _ _ _ _ _ r1 h1
        have e2 := hcall _ _ _ _ _ r2 h2
        unfold calls_at at e1 e2
        rw [e1, e2]
        simp
      · show (calls_at (depth - 1) r1.trace).length ≤ 2
        rw [hcall _ _ _ _ _ r1 h1]
        simp
    · intro hcut
      rcases hcase with ⟨-, rfl⟩ | ⟨hcut2, -⟩
      · exact ⟨rfl, rfl⟩
      · rw [hcut] at hcut2
        cases hcut2
    · intro hcut
      rcases hcase with ⟨hcut2, -⟩ | ⟨-, l1, hl1, rfl⟩
      · rw [hcut] at hcut2
        cases hcut2
      · exact ⟨l1, hl1, rfl, rfl⟩

/-! ## C22: the beta cutoff -/

theorem kept_from_refl {Mv : Type} (k : Int) (n : game_tree_node Mv) : kept_from k n n :=
  fun _ _ _ => ⟨fun h => h, fun h => Or.inl h⟩

theorem kept_from_trans {Mv : Type} (k : Int) (a b c : game_tree_node Mv)
    (h1 : kept_from k a b) (h2 : kept_from k b c) : kept_from k a c := by
  intro path n hk
  constructor
  · intro h
    exact (h2 path n hk).1 ((h1 path n hk).1 h)
  · intro h
    rcases (h2 path n hk).2 h with h3 | h3
    · exact (h1 path n hk).2 h3
    · exact Or.inr h3

theorem forall2_getElem_left {α : Type} (R : α → α → Prop) :
    ∀ (l1 l2 : List α), List.Forall₂ R l1 l2 → ∀ (i : Nat) (a : α), l1[i]? = some a →
      ∃ b, l2[i]? = some b ∧ R a b := by
  intro l1 l2 h
  induction h with
  | nil => intro i a ha; simp at ha
  | cons hab _ ih =>
    intro i a ha
    cases i with
    | zero =>
      simp only [List.getElem?_cons_zero, Option.some.injEq] at ha
      subst ha
      exact ⟨_, by simp, hab⟩
    | succ i =>
      simp only [List.getElem?_cons_succ] at ha ⊢
      exact ih i a ha

theorem forall2_getElem_right {α : Type} (R : α → α → Prop) :
    ∀ (l1 l2 : List α), List.Forall₂ R l1 l2 → ∀ (i : Nat) (b : α), l2[i]? = some b →
      ∃ a, l1[i]? = some a ∧ R a b := by
  intro l1 l2 h
  induction h with
  | nil => intro i b hb; simp at hb
  | cons hab _ ih =>
    intro i b hb
    cases i with
    | zero =>
      simp only [List.getElem?_cons_zero, Option.some.injEq] at hb
      subst hb
      exact ⟨_, by simp, hab⟩
    | succ i =>
      simp only [List.getElem?_cons_succ] at hb ⊢
      exact ih i b hb

theorem forall2_refl {α : Type} (R : α → α → Prop) (hR : ∀ a, R a a) :
    ∀ l : List α, List.Forall₂ R l l := by
  intro l
  induction l with
  | nil => exact List.Forall₂.nil
  | cons a l ih => exact List.Forall₂.cons (hR a) ih

theorem search_child_rel {Pos Mv : Type}
    (search : Pos → game_tree_node Mv → Score → Score → List (game_tree_node Mv) →
      Except Failure (pvs_result Pos Mv))
    (R : game_tree_node Mv → game_tree_node Mv → Prop)
    (htrans : ∀ a b c, R a b → R b c → R a c)
    (hs : ∀ p node a b stack r, search p node a b stack = Except.ok r → R node r.node)
    (first : Bool) (p : Pos) (child : game_tree_node Mv) (alpha beta : Score)
    (stack : List (game_tree_node Mv)) (r : pvs_result Pos Mv)
    (h : search_child search first p child alpha beta stack = Except.ok r) :
    R child r.node := by
  rcases search_child_ok_cases search first p child alpha beta stack r h with
    ⟨-, r1, h1, rfl⟩ | ⟨-, r1, h1, ⟨-, r2, h2, rfl⟩ | ⟨-, rfl⟩⟩
  · exact hs _ _ _ _ _ r1 h1
  · exact htrans _ _ _ (hs _ _ _ _ _ r1 h1) (hs _ _ _ _ _ r2 h2)
  · exact hs _ _ _ _ _ r1 h1

theorem child_loop_rel {Pos Mv : Type} (g : Game Pos Mv)
    (search : Pos → game_tree_node Mv → Score → Score → List (game_tree_node Mv) →
      Except Failure (pvs_result Pos Mv))
    (R : game_tree_node Mv → game_tree_node Mv → Prop)
    (hrefl : ∀ a, R a a) (htrans : ∀ a b c, R a b → R b c → R a c)
    (hs : ∀ p node a b stack r, search p node a b stack = Except.ok r → R node r.node)
    (beta : Score) :
    ∀ (cs : List (game_tree_node Mv)) (first : Bool) (p : Pos) (alpha : Score)
      (stack : List (game_tree_node Mv)) (l : loop_result Pos Mv),
      child_loop g search beta first cs p alpha stack = Except.ok l →
      List.Forall₂ R cs l.children := by
  intro cs
  induction cs with
  | nil =>
    intro first p alpha stack l h
    simp only [child_loop] at h
    cases h
    exact List.Forall₂.nil
  | cons c rest ih =>
    intro first p alpha stack l h
    obtain ⟨m, r, -, hr, hcase⟩ := child_loop_ok_cases g search beta first c rest p alpha stack l h
    have hc := search_child_rel search R htrans hs _ _ _ _ _ _ _ hr
    rcases hcase with ⟨-, rfl⟩ | ⟨-, l1, hl1, rfl⟩
    · exact List.Forall₂.cons hc (forall2_refl R hrefl rest)
    · exact List.Forall₂.cons hc (ih _ _ _ _ _ hl1)

theorem descend_stub {Mv : Type} (m : Mv) (path : List Nat) (n : game_tree_node Mv)
    (h : game_tree_node.descend path (game_tree_node.stub m) = some n) :
    path = [] ∧ n = game_tree_node.stub m := by
  cases path with
  | nil =>
    simp only [game_tree_node.descend, Option.some.injEq] at h
    exact ⟨rfl, h.symm⟩
  | cons i path =>
    simp [game_tree_node.descend, game_tree_node.stub, game_tree_node.children] at h

theorem descend_cons {Mv : Type} (node : game_tree_node Mv) (cs : List (game_tree_node Mv))
    (i : Nat) (path : List Nat) (h : node.children = some cs) :
    game_tree_node.descend (i :: path) node
      = (cs[i]?).bind (game_tree_node.descend path) := by
  simp only [game_tree_node.descend, h]
  cases cs[i]? <;> rfl

/-- A frame of the caller at ply offset `k < 4` whose children are related
one by one at ply offset `k + 1`. -/
theorem kept_from_children {Mv : Type} (k : Int) (node node1 : game_tree_node Mv)
    (cs0 cs1 : List (game_tree_node Mv)) (hk : k < 4)
    (hcs1 : node1.children = some cs1)
    (hrel : List.Forall₂ (kept_from (k + 1)) cs0 cs1)
    (hcase : node.children = some cs0 ∨
      (node.children = none ∧ ∀ c ∈ cs0, ∃ m, c = game_tree_node.stub m)) :
    kept_from k node node1 := by
  intro path n hlen
  cases path with
  | nil =>
    simp only [List.length_nil, Int.ofNat_zero] at hlen
    omega
  | cons i path =>
    have hlen1 : k + 1 + (path.length : Int) ≥ 4 := by
      simp only [List.length_cons] at hlen
      push_cast at hlen
      omega
    rw [descend_cons node1 cs1 i path hcs1]
    constructor
    · intro h
      rcases hcase with hc | ⟨hc, -⟩
      · rw [descend_cons node cs0 i path hc] at h
        cases hi : cs0[i]? with
        | none => rw [hi] at h; cases h
        | some c =>
          rw [hi] at h
          obtain ⟨c1, hc1, hr⟩ := forall2_getElem_left _ _ _ hrel i c hi
          rw [hc1]
          exact (hr path n hlen1).1 h
      · simp only [game_tree_node.descend, hc] at h
        cases h
    · intro h
      cases hi : cs1[i]? with
      | none => rw [hi] at h; cases h
      | some c1 =>
        rw [hi] at h
        obtain ⟨c, hc, hr⟩ := forall2_getElem_right _ _ _ hrel i c1 hi
        rcases (hr path n hlen1).2 h with h3 | ⟨h3, m, hm⟩
        · rcases hcase with hc0 | ⟨-, hst⟩
          · left
            rw [descend_cons node cs0 i path hc0, hc]
            exact h3
          · right
            obtain ⟨m, hm⟩ := hst c (List.getElem?_mem hc)
            rw [hm] at h3
            obtain ⟨hp, hn⟩ := descend_stub m path n h3
            subst hp
            refine ⟨?_, m, hn⟩
            simp only [List.length_cons, List.length_nil] at hlen ⊢
            push_cast at hlen ⊢
            omega
        · right
          refine ⟨?_, m, hm⟩
          simp only [List.length_cons]
          push_cast
          omega

/-- The node returned by a call at ply offset `sd - depth` keeps the nodes of
the node passed in that lie at ply offset 4 or more. -/
theorem pvs_fuel_kept {Pos Mv : Type} (g : Game Pos Mv) :
    ∀ (fuel : Nat) (pl : player) (p : Pos) (node : game_tree_node Mv) (sd depth : Int)
      (alpha beta : Score) (stack : List (game_tree_node Mv)) (r : pvs_result Pos Mv),
      pvs_fuel g fuel pl p node sd depth alpha beta stack = Except.ok r →
      kept_from (sd - depth) node r.node := by
  intro fuel
  induction fuel with
  | zero =>
    intro pl p node sd depth alpha beta stack r h
    simp [pvs_fuel] at h
  | succ fuel ih =>
    intro pl p node sd depth alpha beta stack r h
    by_cases hk : sd - depth ≥ USE_STACK_DEPTH
    · rw [(pvs_fuel_arena_frame g _ pl p node node sd depth alpha beta stack r hk h).1]
      exact kept_from_refl _ _
    · have hk4 : sd - depth < 4 := by
        simp only [USE_STACK_DEPTH] at hk; omega
      obtain ⟨stack1, -, hcase⟩ := pvs_fuel_ok_cases g fuel pl p node sd depth alpha beta stack r
        false _ (decide_eq_false hk) rfl h
      have hsel : select_frame false (sd - depth - USE_STACK_DEPTH).toNat stack1 node = node :=
        rfl
      rw [hsel] at hcase
      have hsome := expand_frame_children_some g pl p false node
      obtain ⟨cs0, hcs0⟩ : ∃ cs0, (expand_frame g pl p false node).children = some cs0 := by
        cases hc : (expand_frame g pl p false node).children with
        | none => rw [hc] at hsome; cases hsome
        | some cs0 => exact ⟨cs0, rfl⟩
      have hcase0 : node.children = some cs0 ∨
          (node.children = none ∧ ∀ c ∈ cs0, ∃ m, c = game_tree_node.stub m) := by
        cases hn : node.children with
        | some cs =>
          left
          rw [expand_frame_kept g pl p node cs hn] at hcs0
          exact hcs0
        | none =>
          right
          refine ⟨rfl, ?_⟩
          rw [expand_frame_fresh g pl p false node (by simp [needs_expansion, hn])] at hcs0
          cases hcs0
          intro c hc
          simp only [List.mem_map] at hc
          obtain ⟨m, -, rfl⟩ := hc
          exact ⟨m, rfl⟩
      rw [hcs0, Option.getD_some] at hcase
      rcases hcase with ⟨-, hr⟩ | ⟨-, l, hl, hr⟩
      · subst hr
        refine kept_from_children _ node _ cs0 cs0 hk4 ?_
          (forall2_refl _ (kept_from_refl _) cs0) hcase0
        simp only [store_node, Bool.false_eq_true, if_false, game_tree_node.children_set_eval]
        exact hcs0
      · subst hr
        have hrel := child_loop_rel g _ (kept_from (sd - depth + 1)) (kept_from_refl _)
          (kept_from_trans _)
          (fun p1 n1 a b s r1 hr1 => by
            have := ih (opponent_v pl) p1 n1 sd (depth - 1) a b s r1 hr1
            have hK : sd - (depth - 1) = sd - depth + 1 := by omega
            rw [hK] at this
            exact this)
          beta _ _ _ _ _ _ hl
        refine kept_from_children _ node _ cs0 l.children hk4 ?_ hrel hcase0
        simp only [store_node, Bool.false_eq_true, if_false, game_tree_node.children_set_eval,
          game_tree_node.children_set_children]

/-- C27: a returning call of `pvs` at ply offset `startDepth - depth` leaves
every node of the caller's tree at ply offset 4 or more as it was, with its
children and its evaluation, and adds no node there except child stubs at
ply offset 4, which the expansion of a node at ply offset 3 creates.  For a
search started at ply offset 0 on a node that was not expanded before, the
tree handed back therefore has no node below ply offset 4 and every node at
ply offset 4 is a stub: a move, no children and no evaluation, whatever the
depth. -/
theorem deep_nodes_untouched {Pos Mv : Type} (g : Game Pos Mv) (pl : player) (p : Pos)
    (node : game_tree_node Mv) (startDepth depth : Int) (alpha beta : Score)
    (stack : List (game_tree_node Mv)) (r : pvs_result Pos Mv)
    (h : pvs g pl p node startDepth depth alpha beta stack = Except.ok r) :
    (∀ (path : List Nat) (n : game_tree_node Mv),
      startDepth - depth + (path.length : Int) ≥ 4 →
      game_tree_node.descend path node = some n →
      game_tree_node.descend path r.node = some n) ∧
    (∀ (path : List Nat) (n : game_tree_node Mv),
      startDepth - depth + (path.length : Int) ≥ 4 →
      game_tree_node.descend path r.node = some n →
      game_tree_node.descend path node = some n ∨
        (startDepth - depth + (path.length : Int) = 4 ∧ ∃ m, n = game_tree_node.stub m)) ∧
    (startDepth = depth → node.children = none →
      ∀ (path : List Nat) (n : game_tree_node Mv),
        game_tree_node.descend path r.node = some n →
        path.length ≤ 4 ∧
        (path.length = 4 → n.move.isSome = true ∧ n.children = none ∧ n.eval = none)) := by
  have hkept := pvs_fuel_kept g _ pl p node startDepth depth alpha beta stack r h
  refine ⟨fun path n hk => (hkept path n hk).1, fun path n hk => (hkept path n hk).2, ?_⟩
  intro hsd hnone path n hn
  by_cases hlen : path.length < 4
  · exact ⟨by omega, fun h4 => by omega⟩
  · have hk : startDepth - depth + (path.length : Int) ≥ 4 := by
      rw [hsd]
      omega
    rcases (hkept path n hk).2 hn with h1 | ⟨h1, m, hm⟩
    · exfalso
      cases path with
      | nil => simp at hlen
      | cons i path =>
        simp only [game_tree_node.descend, hnone] at h1
        cases h1
    · refine ⟨by rw [hsd] at h1; omega, fun _ => ?_⟩
      rw [hm]
      exact ⟨rfl, rfl, rfl⟩

/-- An instance of C27: the endless game searched to depth 6 on a root that
was not expanded before. -/
theorem deep_nodes_untouched_witness :
    ∃ r, pvs endless_game player.White 0 (game_tree_node.stub ()) 6 6 Score.ninf Score.pinf []
        = Except.ok r ∧
      (game_tree_node.descend [0, 0, 0, 0] r.node).map game_tree_node.move = some (some ()) ∧
      ∀ (path : List Nat) (n : game_tree_node Unit),
        game_tree_node.descend path r.node = some n →
        path.length ≤ 4 ∧
        (path.length = 4 → n.move.isSome = true ∧ n.children = none ∧ n.eval = none) :=
  ⟨_, rfl, rfl, (deep_nodes_untouched endless_game player.White 0 (game_tree_node.stub ()) 6 6
    Score.ninf Score.pinf [] _ rfl).2.2 rfl rfl⟩

/-! ## C28: the ply depths the arena can serve -/

theorem plies_mem {Pos Mv : Type} :
    ∀ (t : List (Event Pos Mv)) (k0 : Int) (e : Event Pos Mv), e ∈ t →
      ∃ k, (e, k) ∈ plies t k0 := by
  intro t
  induction t with
  | nil => intro k0 e he; simp at he
  | cons x t ih =>
    intro k0 e he
    simp only [List.mem_cons] at he
    rcases he with rfl | he
    · exact ⟨k0, by cases e <;> simp [plies]⟩
    · cases x with
      | apply m =>
        obtain ⟨k, hk⟩ := ih (k0 + 1) e he
        exact ⟨k, by simp only [plies, List.mem_cons]; exact Or.inr hk⟩
      | undo =>
        obtain ⟨k, hk⟩ := ih (k0 - 1) e he
        exact ⟨k, by simp only [plies, List.mem_cons]; exact Or.inr hk⟩
      | enter pl sd d a b =>
        obtain ⟨k, hk⟩ := ih k0 e he
        exact ⟨k, by simp only [plies, List.mem_cons]; exact Or.inr hk⟩
      | slot i =>
        obtain ⟨k, hk⟩ := ih k0 e he
        exact ⟨k, by simp only [plies, List.mem_cons]; exact Or.inr hk⟩
      | enumerate pl q =>
        obtain ⟨k, hk⟩ := ih k0 e he
        exact ⟨k, by simp only [plies, List.mem_cons]; exact Or.inr hk⟩
      | evaluate pl q j =>
        obtain ⟨k, hk⟩ := ih k0 e he
        exact ⟨k, by simp only [plies, List.mem_cons]; exact Or.inr hk⟩

/-- A search whose starting depth is at most 35 and whose remaining depth is
not negative does not raise the capacity error. -/
theorem pvs_fuel_no_overflow {Pos Mv : Type} (g : Game Pos Mv) :
    ∀ (fuel : Nat) (pl : player) (p : Pos) (node : game_tree_node Mv) (sd depth : Int)
      (alpha beta : Score) (stack : List (game_tree_node Mv)),
      0 ≤ depth → sd ≤ 35 →
      pvs_fuel g fuel pl p node sd depth alpha beta stack
        ≠ Except.error Failure.stack_node_stack_limit_exceeded := by
  intro fuel
  induction fuel with
  | zero =>
    intro pl p node sd depth alpha beta stack _ _ h
    simp [pvs_fuel] at h
  | succ fuel ih =>
    intro pl p node sd depth alpha beta stack hd hsd h
    rcases pvs_fuel_error_cases g fuel pl p node sd depth alpha beta stack _ h with
      h0 | ⟨hd0, cs, stack2, he⟩
    · obtain ⟨-, -, h3⟩ := acquire_slot_error _ _ _ _ h0
      have : (32 : Int) ≤ ((Nat.max STACK_NODE_STACK_CAPACITY stack.length : Nat) : Int) := by
        have : 32 ≤ Nat.max STACK_NODE_STACK_CAPACITY stack.length := Nat.le_max_left _ _
        exact_mod_cast this
      simp only [USE_STACK_DEPTH] at h3
      omega
    · rcases child_loop_error g _ beta _ _ _ _ _ _ he with h0 | ⟨p1, n1, a1, b1, s1, h0⟩
      · cases h0
      · exact ih (opponent_v pl) p1 n1 sd (depth - 1) a1 b1 s1 (by omega) hsd h0

/-- A call at ply offset 36 or more raises the capacity error at once, on an
arena of at most 32 slots. -/
theorem pvs_fuel_overflow {Pos Mv : Type} (g : Game Pos Mv) (fuel : Nat) (pl : player)
    (p : Pos) (node : game_tree_node Mv) (sd depth : Int) (alpha beta : Score)
    (stack : List (game_tree_node Mv))
    (hlen : stack.length ≤ STACK_NODE_STACK_CAPACITY) (hk : sd - depth ≥ 36) :
    pvs_fuel g (fuel + 1) pl p node sd depth alpha beta stack
      = Except.error Failure.stack_node_stack_limit_exceeded := by
  have hmax : ((Nat.max STACK_NODE_STACK_CAPACITY stack.length : Nat) : Int) = 32 := by
    have : Nat.max STACK_NODE_STACK_CAPACITY stack.length = 32 := Nat.max_eq_left hlen
    rw [this]; rfl
  have hlen' : (stack.length : Int) ≤ 32 := by
    have : stack.length ≤ 32 := hlen
    exact_mod_cast this
  have hacq : acquire_slot stack (decide (sd - depth ≥ USE_STACK_DEPTH))
      (sd - depth - USE_STACK_DEPTH) = Except.error Failure.stack_node_stack_limit_exceeded := by
    unfold acquire_slot
    rw [if_pos, if_pos]
    · rw [hmax]
      simp only [USE_STACK_DEPTH]
      omega
    · simp only [USE_STACK_DEPTH, Bool.and_eq_true, decide_eq_true_eq]
      omega
  rw [pvs_fuel]
  simp only [hacq]

theorem search_child_capacity {Pos Mv : Type}
    (search : Pos → game_tree_node Mv → Score → Score → List (game_tree_node Mv) →
      Except Failure (pvs_result Pos Mv))
    (hs : ∀ p node a b stack r, stack.length ≤ STACK_NODE_STACK_CAPACITY →
      search p node a b stack = Except.ok r →
      r.stackNodeStack.length ≤ STACK_NODE_STACK_CAPACITY ∧
        r.trace.all Event.within_capacity = true)
    (first : Bool) (p : Pos) (child : game_tree_node Mv) (alpha beta : Score)
    (stack : List (game_tree_node Mv)) (r : pvs_result Pos Mv)
    (hlen : stack.length ≤ STACK_NODE_STACK_CAPACITY)
    (h : search_child search first p child alpha beta stack = Except.ok r) :
    r.stackNodeStack.length ≤ STACK_NODE_STACK_CAPACITY ∧
      r.trace.all Event.within_capacity = true := by
  rcases search_child_ok_cases search first p child alpha beta stack r h with
    ⟨-, r1, h1, rfl⟩ | ⟨-, r1, h1, ⟨-, r2, h2, rfl⟩ | ⟨-, rfl⟩⟩
  · exact hs _ _ _ _ _ r1 hlen h1
  · obtain ⟨a1, a2⟩ := hs _ _ _ _ _ r1 hlen h1
    obtain ⟨b1, b2⟩ := hs _ _ _ _ _ r2 a1 h2
    refine ⟨b1, ?_⟩
    show (r1.trace ++ r2.trace).all Event.within_capacity = true
    rw [List.all_append, a2, b2]
    rfl
  · exact hs _ _ _ _ _ r1 hlen h1

theorem child_loop_capacity {Pos Mv : Type} (g : Game Pos Mv)
    (search : Pos → game_tree_node Mv → Score → Score → List (game_tree_node Mv) →
      Except Failure (pvs_result Pos Mv))
    (hs : ∀ p node a b stack r, stack.length ≤ STACK_NODE_STACK_CAPACITY →
      search p node a b stack = Except.ok r →
      r.stackNodeStack.length ≤ STACK_NODE_STACK_CAPACITY ∧
        r.trace.all Event.within_capacity = true)
    (beta : Score) :
    ∀ (cs : List (game_tree_node Mv)) (first : Bool) (p : Pos) (alpha : Score)
      (stack : List (game_tree_node Mv)) (l : loop_result Pos Mv),
      stack.length ≤ STACK_NODE_STACK_CAPACITY →
      child_loop g search beta first cs p alpha stack = Except.ok l →
      l.trace.all Event.within_capacity = true := by
  intro cs
  induction cs with
  | nil =>
    intro first p alpha stack l _ h
    simp only [child_loop] at h
    cases h
    rfl
  | cons c rest ih =>
    intro first p alpha stack l hlen h
    obtain ⟨m, r, -, hr, hcase⟩ := child_loop_ok_cases g search beta first c rest p alpha stack l h
    obtain ⟨k1, k2⟩ := search_child_capacity search hs _ _ _ _ _ _ _ hlen hr
    rcases hcase with ⟨-, rfl⟩ | ⟨-, l1, hl1, rfl⟩
    · show (Event.apply m :: r.trace ++ [Event.undo]).all Event.within_capacity = true
      rw [List.cons_append, List.all_cons, List.all_append, k2]
      rfl
    · have k3 := ih _ _ _ _ _ k1 hl1
      show (Event.apply m :: r.trace ++ Event.undo :: l1.trace).all Event.within_capacity = true
      rw [List.cons_append, List.all_cons, List.all_append, List.all_cons, k2, k3]
      rfl

/-- Every frame of a returning search on an arena of at most 32 slots lies at
a ply offset of at most 35 and every slot it selects has an index of at most
31. -/
theorem pvs_fuel_capacity {Pos Mv : Type} (g : Game Pos Mv) :
    ∀ (fuel : Nat) (pl : player) (p : Pos) (node : game_tree_node Mv) (sd depth : Int)
      (alpha beta : Score) (stack : List (game_tree_node Mv)) (r : pvs_result Pos Mv),
      stack.length ≤ STACK_NODE_STACK_CAPACITY →
      pvs_fuel g fuel pl p node sd depth alpha beta stack = Except.ok r →
      r.trace.all Event.within_capacity = true := by
  intro fuel
  induction fuel with
  | zero =>
    intro pl p node sd depth alpha beta stack r _ h
    simp [pvs_fuel] at h
  | succ fuel ih =>
    intro pl p node sd depth alpha beta stack r hlen h
    have hk : sd - depth - USE_STACK_DEPTH < 32 := by
      by_contra hc
      have := pvs_fuel_overflow g fuel pl p node sd depth alpha beta stack hlen
        (by simp only [USE_STACK_DEPTH] at hc; omega)
      rw [this] at h
      cases h
    have hentry : ∀ ex : Bool,
        (entry_trace pl p sd depth alpha beta (decide (sd - depth ≥ USE_STACK_DEPTH))
          (sd - depth - USE_STACK_DEPTH).toNat ex : List (Event Pos Mv)).all
            Event.within_capacity = true := by
      intro ex
      have h1 : decide (sd - depth - USE_STACK_DEPTH < (STACK_NODE_STACK_CAPACITY : Int))
          = true := decide_eq_true hk
      have h2 : decide ((sd - depth - USE_STACK_DEPTH).toNat < STACK_NODE_STACK_CAPACITY)
          = true := by
        apply decide_eq_true
        show (sd - depth - USE_STACK_DEPTH).toNat < 32
        omega
      cases (decide (sd - depth ≥ USE_STACK_DEPTH)) <;> cases ex <;>
        simp [entry_trace, Event.within_capacity, h1, h2]
    obtain ⟨stack1, hacq, hcase⟩ := pvs_fuel_ok_cases g fuel pl p node sd depth alpha beta
      stack r _ _ rfl rfl h
    have hs1 := (acquire_slot_size stack stack1 _ _ hlen hacq).2
    rcases hcase with ⟨-, hr⟩ | ⟨-, l, hl, hr⟩
    · subst hr
      show (entry_trace pl p sd depth alpha beta _ _ _ ++ [Event.evaluate pl p (sd - depth)]).all
        Event.within_capacity = true
      rw [List.all_append, hentry]
      rfl
    · have hloop := child_loop_capacity g _
        (fun p1 n1 a b s r1 hs hr1 =>
          ⟨(pvs_fuel_size g fuel (opponent_v pl) p1 n1 sd (depth - 1) a b s r1 hs hr1).2,
            ih (opponent_v pl) p1 n1 sd (depth - 1) a b s r1 hs hr1⟩)
        beta _ true p alpha _ l (by rw [length_store_stack]; exact hs1) hl
      subst hr
      show (entry_trace pl p sd depth alpha beta _ _ _ ++ l.trace).all
        Event.within_capacity = true
      rw [List.all_append, hloop, hentry]
      rfl

/-- C28: for every ply depth `d` with `0 <= d <= 35` a search started with
`startDepth = depth = d` never raises the capacity error, whatever the node,
the window and the arena, and every arena index it uses is at most
`d - 4 <= 31`.  On an arena of at most 32 slots, a call at ply offset 36 or
more raises the capacity error at once, before anything else is done, so a
search that returns has not reached ply offset 36: every call in it lies at
a ply offset of at most 35. -/
theorem capacity_by_ply_depth {Pos Mv : Type} (g : Game Pos Mv) (pl : player) (p : Pos)
    (node : game_tree_node Mv) (d : Int) (alpha beta : Score)
    (stack : List (game_tree_node Mv)) :
    (0 ≤ d → d ≤ 35 →
      pvs g pl p node d d alpha beta stack
        ≠ Except.error Failure.stack_node_stack_limit_exceeded ∧
      ∀ r, pvs g pl p node d d alpha beta stack = Except.ok r →
        ∀ e ∈ r.trace, ∀ i, e = Event.slot i → (i : Int) ≤ d - 4 ∧ i ≤ 31) ∧
    (stack.length ≤ STACK_NODE_STACK_CAPACITY →
      (∀ fuel pl1 p1 node1 depth a b, d - depth ≥ 36 →
        pvs_fuel g (fuel + 1) pl1 p1 node1 d depth a b stack
          = Except.error Failure.stack_node_stack_limit_exceeded) ∧
      ∀ r, pvs g pl p node d d alpha beta stack = Except.ok r →
        r.trace.all Event.within_capacity = true ∧
        ∀ e ∈ r.trace, ∀ pl1 sd1 d1 a b, e = Event.enter pl1 sd1 d1 a b → sd1 - d1 ≤ 35) := by
  constructor
  · intro h0 h35
    refine ⟨pvs_fuel_no_overflow g _ pl p node d d alpha beta stack h0 h35, ?_⟩
    intro r hr e he i hi
    obtain ⟨k, hk⟩ := plies_mem r.trace (d - d) e he
    obtain ⟨-, h2, h3⟩ := (pvs_fuel_plies g _ pl p node d d alpha beta stack r h0 hr).2 _ hk
    unfold event_in_place at h3
    rw [hi] at h3
    simp only at h2 h3
    omega
  · intro hlen
    refine ⟨fun fuel pl1 p1 node1 depth a b hk =>
      pvs_fuel_overflow g fuel pl1 p1 node1 d depth a b stack hlen hk, ?_⟩
    intro r hr
    have hall := pvs_fuel_capacity g _ pl p node d d alpha beta stack r hlen hr
    refine ⟨hall, ?_⟩
    intro e he pl1 sd1 d1 a b heq
    have := List.all_eq_true.mp hall e he
    rw [heq] at this
    simp only [Event.within_capacity, USE_STACK_DEPTH, STACK_NODE_STACK_CAPACITY,
      decide_eq_true_eq] at this
    omega

set_option maxRecDepth 100000 in
/-- An instance of C28: the endless game at ply depth 35, where the search
returns, and at ply depth 36, where the line of play reaches ply offset 36
and the capacity error leaves the search. -/
theorem capacity_by_ply_depth_witness :
    (pvs endless_game player.White 0 (game_tree_node.stub ()) 36 36 Score.ninf Score.pinf []
      = Except.error Failure.stack_node_stack_limit_exceeded) ∧
    ((0 : Int) ≤ 35 → (35 : Int) ≤ 35 →
      pvs endless_game player.White 0 (game_tree_node.stub ()) 35 35 Score.ninf Score.pinf []
        ≠ Except.error Failure.stack_node_stack_limit_exceeded ∧
      ∀ r, pvs endless_game player.White 0 (game_tree_node.stub ()) 35 35
          Score.ninf Score.pinf [] = Except.ok r →
        ∀ e ∈ r.trace, ∀ i, e = Event.slot i → (i : Int) ≤ 35 - 4 ∧ i ≤ 31) :=
  ⟨rfl, (capacity_by_ply_depth endless_game player.White 0 (game_tree_node.stub ()) 35
    Score.ninf Score.pinf []).1⟩

/-! ## C15: the sizes of the two vectors of the arena -/

theorem vector_size_mono {Pos Mv : Type} (pl : player) :
    ∀ (t : List (Event Pos Mv)) (size : Nat), size ≤ vector_size pl t size := by
  intro t
  induction t with
  | nil => intro size; exact le_refl _
  | cons e t ih =>
    intro size
    cases e with
    | enter pl1 sd d a b =>
      simp only [vector_size]
      refine le_trans ?_ (ih _)
      split
      · exact le_max_left _ _
      · exact le_refl _
    | slot i => exact ih size
    | enumerate pl1 p1 => exact ih size
    | evaluate pl1 p1 q => exact ih size
    | apply m => exact ih size
    | undo => exact ih size

theorem vector_size_append {Pos Mv : Type} (pl : player) :
    ∀ (t1 t2 : List (Event Pos Mv)) (size : Nat),
      vector_size pl (t1 ++ t2) size = vector_size pl t2 (vector_size pl t1 size) := by
  intro t1
  induction t1 with
  | nil => intro t2 size; rfl
  | cons e t ih =>
    intro t2 size
    cases e with
    | enter pl1 sd d a b => exact ih t2 _
    | slot i => exact ih t2 size
    | enumerate pl1 p1 => exact ih t2 size
    | evaluate pl1 p1 q => exact ih t2 size
    | apply m => exact ih t2 size
    | undo => exact ih t2 size

theorem vector_size_le {Pos Mv : Type} (pl : player) :
    ∀ (t : List (Event Pos Mv)) (size : Nat), t.all Event.within_capacity = true →
      size ≤ STACK_NODE_STACK_CAPACITY → vector_size pl t size ≤ STACK_NODE_STACK_CAPACITY := by
  intro t
  induction t with
  | nil => intro size _ h; exact h
  | cons e t ih =>
    intro size hall hsize
    rw [List.all_cons, Bool.and_eq_true] at hall
    cases e with
    | enter pl1 sd d a b =>
      simp only [vector_size]
      apply ih _ hall.2
      split
      · have h1 := hall.1
        simp only [Event.within_capacity, USE_STACK_DEPTH, STACK_NODE_STACK_CAPACITY,
          decide_eq_true_eq] at h1
        simp only [STACK_NODE_STACK_CAPACITY, USE_STACK_DEPTH] at hsize ⊢
        apply max_le
        · exact hsize
        · omega
      · exact hsize
    | slot i => exact ih size hall.2 hsize
    | enumerate pl1 p1 => exact ih size hall.2 hsize
    | evaluate pl1 p1 q => exact ih size hall.2 hsize
    | apply m => exact ih size hall.2 hsize
    | undo => exact ih size hall.2 hsize

theorem vector_size_entry {Pos Mv : Type} (who pl : player) (p : Pos) (sd depth : Int)
    (alpha beta : Score) (b ex : Bool) (i : Nat) (t : List (Event Pos Mv)) (n : Nat) :
    vector_size who (entry_trace pl p sd depth alpha beta b i ex ++ t) n
      = vector_size who t
          (if pl = who ∧ sd - depth ≥ USE_STACK_DEPTH then
            Max.max n ((sd - depth - USE_STACK_DEPTH).toNat + 1)
          else n) := by
  cases b <;> cases ex <;> rfl

theorem search_child_extent {Pos Mv : Type}
    (search : Pos → game_tree_node Mv → Score → Score → List (game_tree_node Mv) →
      Except Failure (pvs_result Pos Mv))
    (hs : ∀ p node a b stack r (nW nB : Nat), stack.length = Max.max nW nB →
      search p node a b stack = Except.ok r →
      r.stackNodeStack.length
        = Max.max (vector_size player.White r.trace nW) (vector_size player.Black r.trace nB))
    (first : Bool) (p : Pos) (child : game_tree_node Mv) (alpha beta : Score)
    (stack : List (game_tree_node Mv)) (r : pvs_result Pos Mv) (nW nB : Nat)
    (h0 : stack.length = Max.max nW nB)
    (h : search_child search first p child alpha beta stack = Except.ok r) :
    r.stackNodeStack.length
      = Max.max (vector_size player.White r.trace nW) (vector_size player.Black r.trace nB) := by
  rcases search_child_ok_cases search first p child alpha beta stack r h with
    ⟨-, r1, h1, rfl⟩ | ⟨-, r1, h1, hcase⟩
  · exact hs _ _ _ _ _ r1 nW nB h0 h1
  · have k1 := hs _ _ _ _ _ r1 nW nB h0 h1
    rcases hcase with ⟨-, r2, h2, rfl⟩ | ⟨-, rfl⟩
    · have k2 := hs _ _ _ _ _ r2 _ _ k1 h2
      show r2.stackNodeStack.length
        = Max.max (vector_size player.White (r1.trace ++ r2.trace) nW)
            (vector_size player.Black (r1.trace ++ r2.trace) nB)
      rw [vector_size_append, vector_size_append]
      exact k2
    · exact k1

theorem child_loop_extent {Pos Mv : Type} (g : Game Pos Mv)
    (search : Pos → game_tree_node Mv → Score → Score → List (game_tree_node Mv) →
      Except Failure (pvs_result Pos Mv))
    (hs : ∀ p node a b stack r (nW nB : Nat), stack.length = Max.max nW nB →
      search p node a b stack = Except.ok r →
      r.stackNodeStack.length
        = Max.max (vector_size player.White r.trace nW) (vector_size player.Black r.trace nB))
    (beta : Score) :
    ∀ (cs : List (game_tree_node Mv)) (first : Bool) (p : Pos) (alpha : Score)
      (stack : List (game_tree_node Mv)) (l : loop_result Pos Mv) (nW nB : Nat),
      stack.length = Max.max nW nB →
      child_loop g search beta first cs p alpha stack = Except.ok l →
      l.stackNodeStack.length
        = Max.max (vector_size player.White l.trace nW) (vector_size player.Black l.trace nB) := by
  intro cs
  induction cs with
  | nil =>
    intro first p alpha stack l nW nB h0 h
    simp only [child_loop] at h
    cases h
    exact h0
  | cons c rest ih =>
    intro first p alpha stack l nW nB h0 h
    obtain ⟨m, r, -, hr, hcase⟩ := child_loop_ok_cases g search beta first c rest p alpha stack l h
    have k1 := search_child_extent search hs _ _ _ _ _ _ r nW nB h0 hr
    rcases hcase with ⟨-, rfl⟩ | ⟨-, l1, hl1, rfl⟩
    · show r.stackNodeStack.length
        = Max.max (vector_size player.White (Event.apply m :: r.trace ++ [Event.undo]) nW)
            (vector_size player.Black (Event.apply m :: r.trace ++ [Event.undo]) nB)
      rw [List.cons_append]
      simp only [vector_size, vector_size_append]
      exact k1
    · have k2 := ih _ _ _ _ l1 _ _ k1 hl1
      show l1.stackNodeStack.length
        = Max.max
            (vector_size player.White (Event.apply m :: r.trace ++ Event.undo :: l1.trace) nW)
            (vector_size player.Black (Event.apply m :: r.trace ++ Event.undo :: l1.trace) nB)
      rw [List.cons_append]
      simp only [vector_size, vector_size_append]
      exact k2

/-- The list that stands for the arena has as many slots as the larger of the
two vectors. -/
theorem pvs_fuel_extent {Pos Mv : Type} (g : Game Pos Mv) :
    ∀ (fuel : Nat) (pl : player) (p : Pos) (node : game_tree_node Mv) (sd depth : Int)
      (alpha beta : Score) (stack : List (game_tree_node Mv)) (r : pvs_result Pos Mv)
      (nW nB : Nat),
      stack.length = Max.max nW nB →
      pvs_fuel g fuel pl p node sd depth alpha beta stack = Except.ok r →
      r.stackNodeStack.length
        = Max.max (vector_size player.White r.trace nW) (vector_size player.Black r.trace nB) := by
  intro fuel
  induction fuel with
  | zero =>
    intro pl p node sd depth alpha beta stack r nW nB _ h
    simp [pvs_fuel] at h
  | succ fuel ih =>
    intro pl p node sd depth alpha beta stack r nW nB h0 h
    obtain ⟨stack1, hacq, hcase⟩ := pvs_fuel_ok_cases g fuel pl p node sd depth alpha beta stack r
      _ _ rfl rfl h
    have hlen1 : stack1.length
        = Max.max
            (if pl = player.White ∧ sd - depth ≥ USE_STACK_DEPTH then
              Max.max nW ((sd - depth - USE_STACK_DEPTH).toNat + 1) else nW)
            (if pl = player.Black ∧ sd - depth ≥ USE_STACK_DEPTH then
              Max.max nB ((sd - depth - USE_STACK_DEPTH).toNat + 1) else nB) := by
      by_cases hk : sd - depth ≥ USE_STACK_DEPTH
      · rw [decide_eq_true hk] at hacq
        have := (acquire_slot_length stack stack1 _ (by omega) hacq).2
        rw [this, h0]
        cases pl <;> simp [hk] <;> omega
      · rw [decide_eq_false hk, acquire_slot_caller] at hacq
        cases hacq
        rw [h0]
        simp [hk]
    rcases hcase with ⟨-, rfl⟩ | ⟨-, l, hl, rfl⟩
    · show (store_stack _ _ (store_stack _ _ stack1 _) _).length
        = Max.max (vector_size player.White (entry_trace pl p sd depth alpha beta _ _ _ ++ _) nW)
            (vector_size player.Black (entry_trace pl p sd depth alpha beta _ _ _ ++ _) nB)
      rw [length_store_stack, length_store_stack, vector_size_entry, vector_size_entry]
      exact hlen1
    · have hloop := child_loop_extent g _
        (fun p1 n1 a b s r1 mW mB hm hr1 =>
          ih (opponent_v pl) p1 n1 sd (depth - 1) a b s r1 mW mB hm hr1)
        beta _ true p alpha _ l _ _ (by rw [length_store_stack]; exact hlen1) hl
      show (store_stack _ _ l.stackNodeStack _).length
        = Max.max (vector_size player.White (entry_trace pl p sd depth alpha beta _ _ _ ++ _) nW)
            (vector_size player.Black (entry_trace pl p sd depth alpha beta _ _ _ ++ _) nB)
      rw [length_store_stack, vector_size_entry, vector_size_entry]
      exact hloop

set_option maxRecDepth 100000 in
/-- C15 (counterexample): the search of the endless game at ply depth 35 from
empty vectors returns and leaves 31 slots in the vector of `pvs<White>`, which
has served the even ply offsets up to 34, and 32 slots in the vector of
`pvs<Black>`, which has served the odd ply offsets up to 35: the worker holds
63 arena slots, more than 32. -/
theorem arena_slots_counterexample :
    ∃ r, pvs endless_game player.White 0 (game_tree_node.stub ()) 35 35 Score.ninf Score.pinf []
        = Except.ok r ∧
      vector_size player.White r.trace 0 = 31 ∧
      vector_size player.Black r.trace 0 = 32 ∧
      STACK_NODE_STACK_CAPACITY
        < vector_size player.White r.trace 0 + vector_size player.Black r.trace 0 :=
  ⟨_, rfl, rfl, rfl, by decide⟩

/-- C15 (amended): the arena of a worker is two vectors, one for each
instantiation of `pvs`.  For every call of `pvs` that returns, started with
vectors of at most 32 slots, and for the vector of either instantiation: from
any point of the call to any later point the number of slots of the vector
does not decrease, it is never below the number before the call and never
above 32; an entry of that instantiation at a ply offset of 4 or more leaves
the size equal to `max(previous size, i + 1)` for the index `i` it accesses,
and any other entry leaves the size as it was.  The list that stands for the
arena in the embedding has as many slots as the larger of the two vectors,
after the call as before it.  On a vector, a successful access at index `i`
leaves the size equal to `max(previous size, i + 1)`, at most 32, and a failed
access leaves the elements of the vector as they were. -/
theorem arena_size_invariant {Pos Mv : Type} (g : Game Pos Mv)
    (pl : player) (p : Pos) (node : game_tree_node Mv) (startDepth depth : Int)
    (alpha beta : Score) (stack : List (game_tree_node Mv)) (r : pvs_result Pos Mv)
    (sizeWhite sizeBlack : Nat) (vector : List (game_tree_node Mv)) (index : Int)
    (hstack : stack.length = Max.max sizeWhite sizeBlack)
    (hwhite : sizeWhite ≤ STACK_NODE_STACK_CAPACITY)
    (hblack : sizeBlack ≤ STACK_NODE_STACK_CAPACITY)
    (hvector : vector.length ≤ STACK_NODE_STACK_CAPACITY)
    (hindex : 0 ≤ index)
    (h : pvs g pl p node startDepth depth alpha beta stack = Except.ok r) :
    (∀ (who : player) (size : Nat), size ≤ STACK_NODE_STACK_CAPACITY →
      ∀ t1 t2 t3, r.trace = t1 ++ t2 ++ t3 →
        size ≤ vector_size who t1 size ∧
        vector_size who t1 size ≤ vector_size who (t1 ++ t2) size ∧
        vector_size who (t1 ++ t2) size ≤ STACK_NODE_STACK_CAPACITY) ∧
    r.stackNodeStack.length
      = Max.max (vector_size player.White r.trace sizeWhite)
          (vector_size player.Black r.trace sizeBlack) ∧
    (∀ (who pl1 : player) (sd d : Int) (a b : Score) (n : Nat),
      vector_size who ([Event.enter pl1 sd d a b] : List (Event Pos Mv)) n
        = if pl1 = who ∧ sd - d ≥ USE_STACK_DEPTH then
            Max.max n ((sd - d - USE_STACK_DEPTH).toNat + 1)
          else n) ∧
    (∀ vector1, acquire_slot vector true index = Except.ok vector1 →
      vector1 = stack_after_acquire vector true index ∧
      vector1.length = Max.max vector.length (index.toNat + 1) ∧
      vector1.length ≤ STACK_NODE_STACK_CAPACITY) ∧
    (∀ e, acquire_slot vector true index = Except.error e →
      stack_after_acquire vector true index = vector) := by
  have hlen : stack.length ≤ STACK_NODE_STACK_CAPACITY := by
    rw [hstack]
    exact max_le hwhite hblack
  have hall := pvs_fuel_capacity g _ pl p node startDepth depth alpha beta stack r hlen h
  refine ⟨?_, pvs_fuel_extent g _ pl p node startDepth depth alpha beta stack r _ _ hstack h,
    ?_, ?_, ?_⟩
  · intro who size hsize t1 t2 t3 ht
    refine ⟨vector_size_mono who t1 size, ?_, ?_⟩
    · rw [vector_size_append]
      exact vector_size_mono who t2 _
    · refine le_trans ?_ (vector_size_le who r.trace size hall hsize)
      rw [ht, vector_size_append who (t1 ++ t2) t3]
      exact vector_size_mono who t3 _
  · intro who pl1 sd d a b n
    rfl
  · intro vector1 h1
    exact ⟨acquire_slot_eq_after _ _ _ _ h1,
      (acquire_slot_length vector vector1 index hindex h1).2,
      (acquire_slot_size vector vector1 true index hvector h1).2⟩
  · intro e h1
    unfold acquire_slot at h1
    unfold stack_after_acquire
    split at h1
    · rename_i h2
      split at h1
      · rename_i h3
        rw [if_pos h2, if_pos h3]
      · cases h1
    · cases h1

/-- An instance of C15 (amended): a call of `pvs<Black>` at ply offset 5 in
the game without legal moves, from empty vectors, and an access at index 1 of
an empty vector. -/
theorem arena_size_invariant_witness :
    (∀ (who : player) (size : Nat), size ≤ STACK_NODE_STACK_CAPACITY →
      ∀ t1 t2 t3, fifth_ply_result.trace = t1 ++ t2 ++ t3 →
        size ≤ vector_size who t1 size ∧
        vector_size who t1 size ≤ vector_size who (t1 ++ t2) size ∧
        vector_size who (t1 ++ t2) size ≤ STACK_NODE_STACK_CAPACITY) ∧
    fifth_ply_result.stackNodeStack.length
      = Max.max (vector_size player.White fifth_ply_result.trace 0)
          (vector_size player.Black fifth_ply_result.trace 0) ∧
    (∀ (who pl1 : player) (sd d : Int) (a b : Score) (n : Nat),
      vector_size who ([Event.enter pl1 sd d a b] : List (Event Nat Unit)) n
        = if pl1 = who ∧ sd - d ≥ USE_STACK_DEPTH then
            Max.max n ((sd - d - USE_STACK_DEPTH).toNat + 1)
          else n) ∧
    (∀ vector1, acquire_slot ([] : List (game_tree_node Unit)) true 1 = Except.ok vector1 →
      vector1 = stack_after_acquire [] true 1 ∧
      vector1.length = Max.max ([] : List (game_tree_node Unit)).length ((1 : Int).toNat + 1) ∧
      vector1.length ≤ STACK_NODE_STACK_CAPACITY) ∧
    (∀ e, acquire_slot ([] : List (game_tree_node Unit)) true 1 = Except.error e →
      stack_after_acquire ([] : List (game_tree_node Unit)) true 1 = []) :=
  arena_size_invariant stalemate_game player.Black 0 (game_tree_node.stub ()) 5 0
    Score.ninf Score.pinf [] fifth_ply_result 0 0 [] 1 rfl (by decide) (by decide)
    (by decide) (by decide) rfl

/-! ## C29: the evaluation of the root -/

/-- C29: a search started by the worker has `startDepth - depth = 0 < 4`, so
its root frame is the node of the work item: whenever `pvs` returns, for
every ply depth, every node and every arena, the evaluation of the node is
present and is the returned score.  The negation `node.eval = -*node.eval`
of the worker therefore finds an evaluation: the body of the batch loop does
not fail on it, and with a fresh promise it publishes the node with the
negated score. -/
theorem root_evaluation_present {Pos Mv : Type} (g : Game Pos Mv) (Player : player) (d : Int)
    (workItem : work_item Pos Mv) (m : Mv) (stack : List (game_tree_node Mv))
    (r : pvs_result Pos Mv)
    (hm : workItem.node.move = some m)
    (h : pvs g (opponent_v Player) (g.move_piece workItem.position m) workItem.node d d
      Score.ninf Score.pinf stack = Except.ok r) :
    d - d < USE_STACK_DEPTH ∧
    frame_after d d r = r.node ∧
    r.node.eval = some r.score ∧
    process_item g Player d workItem stack ≠ Except.error Failure.empty_optional ∧
    (workItem.result = none →
      ∃ it, process_item g Player d workItem stack = Except.ok it ∧
        it.item.node = r.node.set_eval (some r.score.neg) ∧
        it.item.node.eval = some r.score.neg ∧
        it.item.result = some it.item.node) := by
  have hk : ¬ d - d ≥ USE_STACK_DEPTH := by
    simp only [USE_STACK_DEPTH]; omega
  have heval := pvs_fuel_caller_eval g _ (opponent_v Player) (g.move_piece workItem.position m)
    workItem.node d d Score.ninf Score.pinf stack r hk h
  refine ⟨by simp only [USE_STACK_DEPTH]; omega, ?_, heval, ?_, ?_⟩
  · simp only [frame_after, select_frame]
    rw [if_neg (by rw [decide_eq_false hk]; simp)]
  · intro hc
    simp only [process_item, hm, h, heval] at hc
    split at hc <;> cases hc
  · intro hres
    refine ⟨{ item := { workItem with node := r.node.set_eval (some r.score.neg),
                                      result := some (r.node.set_eval (some r.score.neg)) },
              sEvalBoard := r.position, stackNodeStack := r.stackNodeStack }, ?_, rfl, rfl, rfl⟩
    simp only [process_item, hm, h, heval, hres]

/-- An instance of C29: the work item of the two-move scenario. -/
theorem root_evaluation_present_witness :
    (1 : Int) - 1 < USE_STACK_DEPTH ∧
    frame_after 1 1 two_move_result = two_move_result.node ∧
    two_move_result.node.eval = some two_move_result.score ∧
    process_item two_move_game player.White 1
        { position := [], node := game_tree_node.stub 0, result := none } []
      ≠ Except.error Failure.empty_optional ∧
    ((none : Option (game_tree_node Nat)) = none →
      ∃ it, process_item two_move_game player.White 1
          { position := [], node := game_tree_node.stub 0, result := none } []
          = Except.ok it ∧
        it.item.node = two_move_result.node.set_eval (some two_move_result.score.neg) ∧
        it.item.node.eval = some two_move_result.score.neg ∧
        it.item.result = some it.item.node) :=
  root_evaluation_present two_move_game player.White 1
    { position := [], node := game_tree_node.stub 0, result := none } 0 [] two_move_result
    rfl rfl

/-! ## C30: independence from the arena and the scratch position -/

theorem same_outcome_ok_left {α : Type} (R : α → α → Prop) (x y : Except Failure α) (r1 : α)
    (h : same_outcome R x y) (hx : x = Except.ok r1) : ∃ r2, y = Except.ok r2 ∧ R r1 r2 := by
  subst hx
  cases y with
  | error e => exact absurd h (by simp [same_outcome])
  | ok r2 => exact ⟨r2, rfl, h⟩

theorem same_outcome_error_left {α : Type} (R : α → α → Prop) (x y : Except Failure α)
    (e : Failure) (h : same_outcome R x y) (hx : x = Except.error e) : y = Except.error e := by
  subst hx
  cases y with
  | error e2 =>
    have : e = e2 := h
    rw [this]
  | ok r2 => exact absurd h (by simp [same_outcome])

theorem search_child_independent {Pos Mv : Type}
    (search : Pos → game_tree_node Mv → Score → Score → List (game_tree_node Mv) →
      Except Failure (pvs_result Pos Mv))
    (hs : ∀ p node a b s1 s2, s1.length ≤ STACK_NODE_STACK_CAPACITY →
      s2.length ≤ STACK_NODE_STACK_CAPACITY →
      same_outcome pvs_result.same (search p node a b s1) (search p node a b s2))
    (hsize : ∀ p node a b stack r, stack.length ≤ STACK_NODE_STACK_CAPACITY →
      search p node a b stack = Except.ok r →
      stack.length ≤ r.stackNodeStack.length ∧
        r.stackNodeStack.length ≤ STACK_NODE_STACK_CAPACITY)
    (first : Bool) (p : Pos) (child : game_tree_node Mv) (alpha beta : Score)
    (s1 s2 : List (game_tree_node Mv))
    (h1 : s1.length ≤ STACK_NODE_STACK_CAPACITY) (h2 : s2.length ≤ STACK_NODE_STACK_CAPACITY) :
    same_outcome pvs_result.same (search_child search first p child alpha beta s1)
      (search_child search first p child alpha beta s2) := by
  cases first with
  | true =>
    have hrel := hs p child beta.neg alpha.neg s1 s2 h1 h2
    simp only [search_child, if_true]
    cases hx : search p child beta.neg alpha.neg s1 with
    | error e =>
      rw [same_outcome_error_left _ _ _ e hrel hx]
      rfl
    | ok r1 =>
      obtain ⟨r2, hy, k1, k2, k3, k4⟩ := same_outcome_ok_left _ _ _ r1 hrel hx
      rw [hy]
      exact ⟨by show r1.score.neg = r2.score.neg; rw [k1], k2, k3, k4⟩
  | false =>
    have hrel := hs p child alpha.neg.sub_one alpha.neg s1 s2 h1 h2
    simp only [search_child, Bool.false_eq_true, if_false]
    cases hx : search p child alpha.neg.sub_one alpha.neg s1 with
    | error e =>
      rw [same_outcome_error_left _ _ _ e hrel hx]
      rfl
    | ok r1 =>
      obtain ⟨r2, hy, k1, k2, k3, k4⟩ := same_outcome_ok_left _ _ _ r1 hrel hx
      rw [hy]
      simp only
      rw [← k1, ← k2, ← k3]
      by_cases hc : (alpha.lt r1.score.neg && r1.score.neg.lt beta) = true
      · rw [if_pos hc, if_pos hc]
        have hrel2 := hs r1.position r1.node beta.neg r1.score.neg.neg r1.stackNodeStack
          r2.stackNodeStack (hsize _ _ _ _ _ _ h1 hx).2 (hsize _ _ _ _ _ _ h2 hy).2
        cases hx2 : search r1.position r1.node beta.neg r1.score.neg.neg r1.stackNodeStack with
        | error e =>
          rw [same_outcome_error_left _ _ _ e hrel2 hx2]
          rfl
        | ok q1 =>
          obtain ⟨q2, hy2, j1, j2, j3, j4⟩ := same_outcome_ok_left _ _ _ q1 hrel2 hx2
          rw [hy2]
          exact ⟨by show q1.score.neg = q2.score.neg; rw [j1], j2, j3,
            by show r1.trace ++ q1.trace = r2.trace ++ q2.trace; rw [k4, j4]⟩
      · rw [if_neg hc, if_neg hc]
        exact ⟨rfl, rfl, rfl, k4⟩

theorem child_loop_independent {Pos Mv : Type} (g : Game Pos Mv)
    (search : Pos → game_tree_node Mv → Score → Score → List (game_tree_node Mv) →
      Except Failure (pvs_result Pos Mv))
    (hs : ∀ p node a b s1 s2, s1.length ≤ STACK_NODE_STACK_CAPACITY →
      s2.length ≤ STACK_NODE_STACK_CAPACITY →
      same_outcome pvs_result.same (search p node a b s1) (search p node a b s2))
    (hsize : ∀ p node a b stack r, stack.length ≤ STACK_NODE_STACK_CAPACITY →
      search p node a b stack = Except.ok r →
      stack.length ≤ r.stackNodeStack.length ∧
        r.stackNodeStack.length ≤ STACK_NODE_STACK_CAPACITY)
    (beta : Score) :
    ∀ (cs : List (game_tree_node Mv)) (first : Bool) (p : Pos) (alpha : Score)
      (s1 s2 : List (game_tree_node Mv)),
      s1.length ≤ STACK_NODE_STACK_CAPACITY → s2.length ≤ STACK_NODE_STACK_CAPACITY →
      same_outcome loop_result.same (child_loop g search beta first cs p alpha s1)
        (child_loop g search beta first cs p alpha s2) := by
  intro cs
  induction cs with
  | nil =>
    intro first p alpha s1 s2 _ _
    simp only [child_loop]
    exact ⟨rfl, rfl, rfl, rfl⟩
  | cons c rest ih =>
    intro first p alpha s1 s2 h1 h2
    simp only [child_loop]
    cases hm : c.move with
    | none => rfl
    | some m =>
      simp only
      have hrel := search_child_independent search hs hsize first (g.move_piece p m) c alpha beta
        s1 s2 h1 h2
      cases hx : search_child search first (g.move_piece p m) c alpha beta s1 with
      | error e =>
        rw [same_outcome_error_left _ _ _ e hrel hx]
        rfl
      | ok r1 =>
        obtain ⟨r2, hy, k1, k2, k3, k4⟩ := same_outcome_ok_left _ _ _ r1 hrel hx
        rw [hy]
        simp only
        rw [← k1, ← k2, ← k3, ← k4]
        have z1 := (search_child_size search hsize _ _ _ _ _ _ _ h1 hx).2
        have z2 := (search_child_size search hsize _ _ _ _ _ _ _ h2 hy).2
        by_cases hcut : (Score.max alpha r1.score).ge beta = true
        · rw [if_pos hcut, if_pos hcut]
          exact ⟨rfl, rfl, rfl, rfl⟩
        · rw [if_neg hcut, if_neg hcut]
          have hrel2 := ih false (g.undo r1.position) (Score.max alpha r1.score)
            r1.stackNodeStack r2.stackNodeStack z1 z2
          cases hx2 : child_loop g search beta false rest (g.undo r1.position)
              (Score.max alpha r1.score) r1.stackNodeStack with
          | error e =>
            rw [same_outcome_error_left _ _ _ e hrel2 hx2]
            rfl
          | ok l1 =>
            obtain ⟨l2, hy2, j1, j2, j3, j4⟩ := same_outcome_ok_left _ _ _ l1 hrel2 hx2
            rw [hy2]
            exact ⟨j1, j2, by show r1.node :: l1.children = r1.node :: l2.children; rw [j3],
              by show Event.apply m :: r1.trace ++ Event.undo :: l1.trace
                  = Event.apply m :: r1.trace ++ Event.undo :: l2.trace; rw [j4]⟩

theorem needs_expansion_true {Mv : Type} (use : game_tree_node Mv) :
    needs_expansion true use = true := by
  simp [needs_expansion]

/-- The outcome of a call does not depend on the arena it starts from, as
long as the arena has at most 32 slots: score, position, node of the caller
and trace are the same, and so is the failure of a failing call. -/
theorem pvs_fuel_independent {Pos Mv : Type} (g : Game Pos Mv) :
    ∀ (fuel : Nat) (pl : player) (p : Pos) (node : game_tree_node Mv) (sd depth : Int)
      (alpha beta : Score) (s1 s2 : List (game_tree_node Mv)),
      s1.length ≤ STACK_NODE_STACK_CAPACITY → s2.length ≤ STACK_NODE_STACK_CAPACITY →
      same_outcome pvs_result.same (pvs_fuel g fuel pl p node sd depth alpha beta s1)
        (pvs_fuel g fuel pl p node sd depth alpha beta s2) := by
  intro fuel
  induction fuel with
  | zero =>
    intro pl p node sd depth alpha beta s1 s2 _ _
    simp only [pvs_fuel]
    rfl
  | succ fuel ih =>
    intro pl p node sd depth alpha beta s1 s2 h1 h2
    have hloop := fun cs (t1 t2 : List (game_tree_node Mv)) k1 k2 =>
      child_loop_independent g
        (fun p n a b s => pvs_fuel g fuel (opponent_v pl) p n sd (depth - 1) a b s)
        (fun p1 n1 a b t1 t2 k1 k2 => ih (opponent_v pl) p1 n1 sd (depth - 1) a b t1 t2 k1 k2)
        (fun p1 n1 a b s r hl hr =>
          pvs_fuel_size g fuel (opponent_v pl) p1 n1 sd (depth - 1) a b s r hl hr)
        beta cs true p alpha t1 t2 k1 k2
    by_cases hk : sd - depth ≥ USE_STACK_DEPTH
    · by_cases hcap : sd - depth ≥ 36
      · rw [pvs_fuel_overflow g fuel pl p node sd depth alpha beta s1 h1 hcap,
          pvs_fuel_overflow g fuel pl p node sd depth alpha beta s2 h2 hcap]
        rfl
      · obtain ⟨t1, ha1⟩ := acquire_slot_ok s1 (decide (sd - depth ≥ USE_STACK_DEPTH))
          (sd - depth - USE_STACK_DEPTH) (by simp only [USE_STACK_DEPTH]; omega)
        obtain ⟨t2, ha2⟩ := acquire_slot_ok s2 (decide (sd - depth ≥ USE_STACK_DEPTH))
          (sd - depth - USE_STACK_DEPTH) (by simp only [USE_STACK_DEPTH]; omega)
        have z1 := (acquire_slot_size s1 t1 _ _ h1 ha1).2
        have z2 := (acquire_slot_size s2 t2 _ _ h2 ha2).2
        rw [pvs_fuel, pvs_fuel]
        simp only [ha1, ha2]
        rw [decide_eq_true hk]
        simp only [needs_expansion_true, store_node, if_true,
          expand_frame_fresh g pl p true _ (needs_expansion_true _), Option.getD_some]
        by_cases hterm : (decide (depth = 0) ||
            ((g.generate_legal_moves pl p).map game_tree_node.stub).isEmpty) = true
        · rw [if_pos hterm, if_pos hterm]
          exact ⟨rfl, rfl, rfl, rfl⟩
        · rw [if_neg hterm, if_neg hterm]
          have hrel := hloop ((g.generate_legal_moves pl p).map game_tree_node.stub)
            (store_stack true (sd - depth - USE_STACK_DEPTH).toNat t1
              (expand_frame g pl p true
                (select_frame true (sd - depth - USE_STACK_DEPTH).toNat t1 node)))
            (store_stack true (sd - depth - USE_STACK_DEPTH).toNat t2
              (expand_frame g pl p true
                (select_frame true (sd - depth - USE_STACK_DEPTH).toNat t2 node)))
            (by rw [length_store_stack]; exact z1) (by rw [length_store_stack]; exact z2)
          cases hx : child_loop g
              (fun p n a b s => pvs_fuel g fuel (opponent_v pl) p n sd (depth - 1) a b s)
              beta true ((g.generate_legal_moves pl p).map game_tree_node.stub) p alpha
              (store_stack true (sd - depth - USE_STACK_DEPTH).toNat t1
                (expand_frame g pl p true
                  (select_frame true (sd - depth - USE_STACK_DEPTH).toNat t1 node))) with
          | error e =>
            rw [same_outcome_error_left _ _ _ e hrel hx]
            rfl
          | ok l1 =>
            obtain ⟨l2, hy, j1, j2, j3, j4⟩ := same_outcome_ok_left _ _ _ l1 hrel hx
            rw [hy]
            exact ⟨j1, j2, rfl, by
              show entry_trace pl p sd depth alpha beta true _ true ++ l1.trace
                = entry_trace pl p sd depth alpha beta true _ true ++ l2.trace
              rw [j4]⟩
    · rw [pvs_fuel, pvs_fuel]
      rw [decide_eq_false hk]
      simp only [acquire_slot_caller, select_frame, store_stack, store_node, Bool.false_eq_true,
        if_false]
      by_cases hterm : (decide (depth = 0) ||
          ((expand_frame g pl p false node).children.getD []).isEmpty) = true
      · rw [if_pos hterm, if_pos hterm]
        exact ⟨rfl, rfl, rfl, rfl⟩
      · rw [if_neg hterm, if_neg hterm]
        have hrel := hloop ((expand_frame g pl p false node).children.getD []) s1 s2 h1 h2
        cases hx : child_loop g
            (fun p n a b s => pvs_fuel g fuel (opponent_v pl) p n sd (depth - 1) a b s)
            beta true ((expand_frame g pl p false node).children.getD []) p alpha s1 with
        | error e =>
          rw [same_outcome_error_left _ _ _ e hrel hx]
          rfl
        | ok l1 =>
          obtain ⟨l2, hy, j1, j2, j3, j4⟩ := same_outcome_ok_left _ _ _ l1 hrel hx
          rw [hy]
          exact ⟨j1, j2, by
            show ((expand_frame g pl p false node).set_children (some l1.children)).set_eval
                (some l1.alpha)
              = ((expand_frame g pl p false node).set_children (some l2.children)).set_eval
                (some l2.alpha)
            rw [j1, j3], by
            show entry_trace pl p sd depth alpha beta false _ _ ++ l1.trace
              = entry_trace pl p sd depth alpha beta false _ _ ++ l2.trace
            rw [j4]⟩

/-! ## What a call leaves behind -/

theorem search_child_unwound_ok {Pos Mv : Type}
    (search : Pos → game_tree_node Mv → Score → Score → List (game_tree_node Mv) →
      Except Failure (pvs_result Pos Mv))
    (unwound : Pos → game_tree_node Mv → Score → Score → List (game_tree_node Mv) →
      pvs_unwound Pos Mv)
    (hu : ∀ p node a b stack r, search p node a b stack = Except.ok r →
      unwound p node a b stack
        = { position := r.position, node := r.node, stackNodeStack := r.stackNodeStack })
    (first : Bool) (p : Pos) (child : game_tree_node Mv) (alpha beta : Score)
    (stack : List (game_tree_node Mv)) (r : pvs_result Pos Mv)
    (h : search_child search first p child alpha beta stack = Except.ok r) :
    search_child_unwound search unwound first p child alpha beta stack
      = { position := r.position, node := r.node, stackNodeStack := r.stackNodeStack } := by
  rcases search_child_ok_cases search first p child alpha beta stack r h with
    ⟨hf, r1, h1, rfl⟩ | ⟨hf, r1, h1, hcase⟩
  · subst hf
    simp only [search_child_unwound, if_true]
    exact hu _ _ _ _ _ r1 h1
  · subst hf
    simp only [search_child_unwound, Bool.false_eq_true, if_false, h1]
    rcases hcase with ⟨hc, r2, h2, rfl⟩ | ⟨hc, rfl⟩
    · rw [if_pos hc]
      exact hu _ _ _ _ _ r2 h2
    · rw [hc]
      rfl

theorem child_loop_unwound_ok {Pos Mv : Type} (g : Game Pos Mv)
    (search : Pos → game_tree_node Mv → Score → Score → List (game_tree_node Mv) →
      Except Failure (pvs_result Pos Mv))
    (unwound : Pos → game_tree_node Mv → Score → Score → List (game_tree_node Mv) →
      pvs_unwound Pos Mv)
    (beta : Score) :
    ∀ (cs : List (game_tree_node Mv)) (first : Bool) (p : Pos) (alpha : Score)
      (stack : List (game_tree_node Mv)) (l : loop_result Pos Mv),
      child_loop g search beta first cs p alpha stack = Except.ok l →
      child_loop_unwound g search unwound beta first cs p alpha stack
        = { position := l.position, children := l.children,
            stackNodeStack := l.stackNodeStack } := by
  intro cs
  induction cs with
  | nil =>
    intro first p alpha stack l h
    simp only [child_loop] at h
    cases h
    rfl
  | cons c rest ih =>
    intro first p alpha stack l h
    obtain ⟨m, r, hm, hr, hcase⟩ := child_loop_ok_cases g search beta first c rest p alpha stack l h
    rcases hcase with ⟨hcut, rfl⟩ | ⟨hcut, l1, hl1, rfl⟩
    · simp only [child_loop_unwound, hm, hr, hcut, if_true]
    · simp only [child_loop_unwound, hm, hr, hcut, Bool.false_eq_true, if_false,
        ih _ _ _ _ _ hl1]

/-- For a call that returns, `pvs_fuel_unwound` is what `pvs_fuel` returns. -/
theorem pvs_fuel_unwound_ok {Pos Mv : Type} (g : Game Pos Mv) (fuel : Nat) (pl : player)
    (p : Pos) (node : game_tree_node Mv) (sd depth : Int) (alpha beta : Score)
    (stack : List (game_tree_node Mv)) (r : pvs_result Pos Mv)
    (h : pvs_fuel g fuel pl p node sd depth alpha beta stack = Except.ok r) :
    pvs_fuel_unwound g fuel pl p node sd depth alpha beta stack
      = { position := r.position, node := r.node, stackNodeStack := r.stackNodeStack } := by
  cases fuel with
  | zero => simp [pvs_fuel] at h
  | succ fuel =>
    obtain ⟨stack1, hacq, hcase⟩ := pvs_fuel_ok_cases g fuel pl p node sd depth alpha beta stack r
      _ _ rfl rfl h
    rw [pvs_fuel_unwound]
    simp only [hacq]
    rcases hcase with ⟨hterm, rfl⟩ | ⟨hterm, l, hl, rfl⟩
    · rw [if_pos hterm]
    · rw [hterm]
      simp only [Bool.false_eq_true, if_false, hl]

theorem search_child_unwound_independent {Pos Mv : Type}
    (search : Pos → game_tree_node Mv → Score → Score → List (game_tree_node Mv) →
      Except Failure (pvs_result Pos Mv))
    (unwound : Pos → game_tree_node Mv → Score → Score → List (game_tree_node Mv) →
      pvs_unwound Pos Mv)
    (hs : ∀ p node a b s1 s2, s1.length ≤ STACK_NODE_STACK_CAPACITY →
      s2.length ≤ STACK_NODE_STACK_CAPACITY →
      same_outcome pvs_result.same (search p node a b s1) (search p node a b s2))
    (hsize : ∀ p node a b stack r, stack.length ≤ STACK_NODE_STACK_CAPACITY →
      search p node a b stack = Except.ok r →
      stack.length ≤ r.stackNodeStack.length ∧
        r.stackNodeStack.length ≤ STACK_NODE_STACK_CAPACITY)
    (hu : ∀ p node a b s1 s2, s1.length ≤ STACK_NODE_STACK_CAPACITY →
      s2.length ≤ STACK_NODE_STACK_CAPACITY →
      pvs_unwound.same (unwound p node a b s1) (unwound p node a b s2))
    (first : Bool) (p : Pos) (child : game_tree_node Mv) (alpha beta : Score)
    (s1 s2 : List (game_tree_node Mv))
    (h1 : s1.length ≤ STACK_NODE_STACK_CAPACITY) (h2 : s2.length ≤ STACK_NODE_STACK_CAPACITY) :
    pvs_unwound.same (search_child_unwound search unwound first p child alpha beta s1)
      (search_child_unwound search unwound first p child alpha beta s2) := by
  cases first with
  | true =>
    simp only [search_child_unwound, if_true]
    exact hu _ _ _ _ _ _ h1 h2
  | false =>
    have hrel := hs p child alpha.neg.sub_one alpha.neg s1 s2 h1 h2
    simp only [search_child_unwound, Bool.false_eq_true, if_false]
    cases hx : search p child alpha.neg.sub_one alpha.neg s1 with
    | error e =>
      rw [same_outcome_error_left _ _ _ e hrel hx]
      exact hu _ _ _ _ _ _ h1 h2
    | ok r1 =>
      obtain ⟨r2, hy, k1, k2, k3, -⟩ := same_outcome_ok_left _ _ _ r1 hrel hx
      rw [hy]
      simp only
      rw [← k1, ← k2, ← k3]
      by_cases hc : (alpha.lt r1.score.neg && r1.score.neg.lt beta) = true
      · rw [if_pos hc, if_pos hc]
        exact hu _ _ _ _ _ _ (hsize _ _ _ _ _ _ h1 hx).2 (hsize _ _ _ _ _ _ h2 hy).2
      · rw [if_neg hc, if_neg hc]
        exact ⟨rfl, rfl⟩

theorem child_loop_unwound_independent {Pos Mv : Type} (g : Game Pos Mv)
    (search : Pos → game_tree_node Mv → Score → Score → List (game_tree_node Mv) →
      Except Failure (pvs_result Pos Mv))
    (unwound : Pos → game_tree_node Mv → Score → Score → List (game_tree_node Mv) →
      pvs_unwound Pos Mv)
    (hs : ∀ p node a b s1 s2, s1.length ≤ STACK_NODE_STACK_CAPACITY →
      s2.length ≤ STACK_NODE_STACK_CAPACITY →
      same_outcome pvs_result.same (search p node a b s1) (search p node a b s2))
    (hsize : ∀ p node a b stack r, stack.length ≤ STACK_NODE_STACK_CAPACITY →
      search p node a b stack = Except.ok r →
      stack.length ≤ r.stackNodeStack.length ∧
        r.stackNodeStack.length ≤ STACK_NODE_STACK_CAPACITY)
    (hu : ∀ p node a b s1 s2, s1.length ≤ STACK_NODE_STACK_CAPACITY →
      s2.length ≤ STACK_NODE_STACK_CAPACITY →
      pvs_unwound.same (unwound p node a b s1) (unwound p node a b s2))
    (beta : Score) :
    ∀ (cs : List (game_tree_node Mv)) (first : Bool) (p : Pos) (alpha : Score)
      (s1 s2 : List (game_tree_node Mv)),
      s1.length ≤ STACK_NODE_STACK_CAPACITY → s2.length ≤ STACK_NODE_STACK_CAPACITY →
      loop_unwound.same (child_loop_unwound g search unwound beta first cs p alpha s1)
        (child_loop_unwound g search unwound beta first cs p alpha s2) := by
  intro cs
  induction cs with
  | nil =>
    intro first p alpha s1 s2 _ _
    simp only [child_loop_unwound]
    exact ⟨rfl, rfl⟩
  | cons c rest ih =>
    intro first p alpha s1 s2 h1 h2
    simp only [child_loop_unwound]
    cases hm : c.move with
    | none => exact ⟨rfl, rfl⟩
    | some m =>
      simp only
      have hrel := search_child_independent search hs hsize first (g.move_piece p m) c alpha beta
        s1 s2 h1 h2
      cases hx : search_child search first (g.move_piece p m) c alpha beta s1 with
      | error e =>
        rw [same_outcome_error_left _ _ _ e hrel hx]
        obtain ⟨j1, j2⟩ := search_child_unwound_independent search unwound hs hsize hu first
          (g.move_piece p m) c alpha beta s1 s2 h1 h2
        exact ⟨j1, by
          show (search_child_unwound search unwound first (g.move_piece p m) c alpha beta
              s1).node :: rest
            = (search_child_unwound search unwound first (g.move_piece p m) c alpha beta
              s2).node :: rest
          rw [j2]⟩
      | ok r1 =>
        obtain ⟨r2, hy, k1, k2, k3, -⟩ := same_outcome_ok_left _ _ _ r1 hrel hx
        rw [hy]
        simp only
        rw [← k1, ← k2, ← k3]
        have z1 := (search_child_size search hsize _ _ _ _ _ _ _ h1 hx).2
        have z2 := (search_child_size search hsize _ _ _ _ _ _ _ h2 hy).2
        by_cases hcut : (Score.max alpha r1.score).ge beta = true
        · rw [if_pos hcut, if_pos hcut]
          exact ⟨rfl, rfl⟩
        · rw [if_neg hcut, if_neg hcut]
          obtain ⟨j1, j2⟩ := ih false (g.undo r1.position) (Score.max alpha r1.score)
            r1.stackNodeStack r2.stackNodeStack z1 z2
          exact ⟨j1, by
            show r1.node :: (child_loop_unwound g search unwound beta false rest
                (g.undo r1.position) (Score.max alpha r1.score) r1.stackNodeStack).children
              = r1.node :: (child_loop_unwound g search unwound beta false rest
                (g.undo r1.position) (Score.max alpha r1.score) r2.stackNodeStack).children
            rw [j2]⟩

/-- What a call leaves behind in the position and in the node of the caller
when control leaves it does not depend on the arena it starts from, as long as
the arena has at most 32 slots. -/
theorem pvs_fuel_unwound_independent {Pos Mv : Type} (g : Game Pos Mv) :
    ∀ (fuel : Nat) (pl : player) (p : Pos) (node : game_tree_node Mv) (sd depth : Int)
      (alpha beta : Score) (s1 s2 : List (game_tree_node Mv)),
      s1.length ≤ STACK_NODE_STACK_CAPACITY → s2.length ≤ STACK_NODE_STACK_CAPACITY →
      pvs_unwound.same (pvs_fuel_unwound g fuel pl p node sd depth alpha beta s1)
        (pvs_fuel_unwound g fuel pl p node sd depth alpha beta s2) := by
  intro fuel
  induction fuel with
  | zero =>
    intro pl p node sd depth alpha beta s1 s2 _ _
    simp only [pvs_fuel_unwound]
    exact ⟨rfl, rfl⟩
  | succ fuel ih =>
    intro pl p node sd depth alpha beta s1 s2 h1 h2
    have hsearch := fun p1 n1 a b (t1 t2 : List (game_tree_node Mv)) k1 k2 =>
      pvs_fuel_independent g fuel (opponent_v pl) p1 n1 sd (depth - 1) a b t1 t2 k1 k2
    have hsize := fun p1 n1 a b (s : List (game_tree_node Mv)) r hl hr =>
      pvs_fuel_size g fuel (opponent_v pl) p1 n1 sd (depth - 1) a b s r hl hr
    have hloop := fun cs (t1 t2 : List (game_tree_node Mv)) k1 k2 =>
      child_loop_independent g
        (fun p n a b s => pvs_fuel g fuel (opponent_v pl) p n sd (depth - 1) a b s)
        hsearch hsize beta cs true p alpha t1 t2 k1 k2
    have hloopu := fun cs (t1 t2 : List (game_tree_node Mv)) k1 k2 =>
      child_loop_unwound_independent g
        (fun p n a b s => pvs_fuel g fuel (opponent_v pl) p n sd (depth - 1) a b s)
        (fun p n a b s => pvs_fuel_unwound g fuel (opponent_v pl) p n sd (depth - 1) a b s)
        hsearch hsize
        (fun p1 n1 a b t1 t2 k1 k2 => ih (opponent_v pl) p1 n1 sd (depth - 1) a b t1 t2 k1 k2)
        beta cs true p alpha t1 t2 k1 k2
    by_cases hk : sd - depth ≥ USE_STACK_DEPTH
    · rw [pvs_fuel_unwound, pvs_fuel_unwound]
      rw [decide_eq_true hk]
      cases ha1 : acquire_slot s1 true (sd - depth - USE_STACK_DEPTH) with
      | error e1 =>
        cases ha2 : acquire_slot s2 true (sd - depth - USE_STACK_DEPTH) with
        | error e2 => exact ⟨rfl, rfl⟩
        | ok t2 =>
          exfalso
          obtain ⟨-, -, h3⟩ := acquire_slot_error _ _ _ _ ha1
          have hcap : sd - depth ≥ 36 := by
            have : (32 : Int) ≤ ((Nat.max STACK_NODE_STACK_CAPACITY s1.length : Nat) : Int) := by
              have : 32 ≤ Nat.max STACK_NODE_STACK_CAPACITY s1.length := Nat.le_max_left _ _
              exact_mod_cast this
            simp only [USE_STACK_DEPTH] at h3
            omega
          have y1 := (acquire_slot_size s2 t2 _ _ h2 ha2).2
          have y2 := (acquire_slot_length s2 t2 _ (by simp only [USE_STACK_DEPTH]; omega) ha2).1
          simp only [STACK_NODE_STACK_CAPACITY, USE_STACK_DEPTH] at y1 y2
          omega
      | ok t1 =>
        cases ha2 : acquire_slot s2 true (sd - depth - USE_STACK_DEPTH) with
        | error e2 =>
          exfalso
          obtain ⟨-, -, h3⟩ := acquire_slot_error _ _ _ _ ha2
          have hcap : sd - depth ≥ 36 := by
            have : (32 : Int) ≤ ((Nat.max STACK_NODE_STACK_CAPACITY s2.length : Nat) : Int) := by
              have : 32 ≤ Nat.max STACK_NODE_STACK_CAPACITY s2.length := Nat.le_max_left _ _
              exact_mod_cast this
            simp only [USE_STACK_DEPTH] at h3
            omega
          have y1 := (acquire_slot_size s1 t1 _ _ h1 ha1).2
          have y2 := (acquire_slot_length s1 t1 _ (by simp only [USE_STACK_DEPTH]; omega) ha1).1
          simp only [STACK_NODE_STACK_CAPACITY, USE_STACK_DEPTH] at y1 y2
          omega
        | ok t2 =>
          have z1 := (acquire_slot_size s1 t1 _ _ h1 ha1).2
          have z2 := (acquire_slot_size s2 t2 _ _ h2 ha2).2
          simp only [needs_expansion_true, store_node, if_true,
            expand_frame_fresh g pl p true _ (needs_expansion_true _), Option.getD_some]
          by_cases hterm : (decide (depth = 0) ||
              ((g.generate_legal_moves pl p).map game_tree_node.stub).isEmpty) = true
          · rw [if_pos hterm, if_pos hterm]
            exact ⟨rfl, rfl⟩
          · rw [if_neg hterm, if_neg hterm]
            have y1 : (store_stack true (sd - depth - USE_STACK_DEPTH).toNat t1
                (expand_frame g pl p true
                  (select_frame true (sd - depth - USE_STACK_DEPTH).toNat t1 node))).length
                ≤ STACK_NODE_STACK_CAPACITY := by rw [length_store_stack]; exact z1
            have y2 : (store_stack true (sd - depth - USE_STACK_DEPTH).toNat t2
                (expand_frame g pl p true
                  (select_frame true (sd - depth - USE_STACK_DEPTH).toNat t2 node))).length
                ≤ STACK_NODE_STACK_CAPACITY := by rw [length_store_stack]; exact z2
            have hrel := hloop ((g.generate_legal_moves pl p).map game_tree_node.stub) _ _ y1 y2
            have hrelu := hloopu ((g.generate_legal_moves pl p).map game_tree_node.stub) _ _ y1 y2
            cases hx : child_loop g
                (fun p n a b s => pvs_fuel g fuel (opponent_v pl) p n sd (depth - 1) a b s)
                beta true ((g.generate_legal_moves pl p).map game_tree_node.stub) p alpha
                (store_stack true (sd - depth - USE_STACK_DEPTH).toNat t1
                  (expand_frame g pl p true
                    (select_frame true (sd - depth - USE_STACK_DEPTH).toNat t1 node))) with
            | error e =>
              rw [same_outcome_error_left _ _ _ e hrel hx]
              exact ⟨hrelu.1, rfl⟩
            | ok l1 =>
              obtain ⟨l2, hy, -, j2, -, -⟩ := same_outcome_ok_left _ _ _ l1 hrel hx
              rw [hy]
              exact ⟨j2, rfl⟩
    · rw [pvs_fuel_unwound, pvs_fuel_unwound]
      rw [decide_eq_false hk]
      simp only [acquire_slot_caller, select_frame, store_stack, store_node, Bool.false_eq_true,
        if_false]
      by_cases hterm : (decide (depth = 0) ||
          ((expand_frame g pl p false node).children.getD []).isEmpty) = true
      · rw [if_pos hterm, if_pos hterm]
        exact ⟨rfl, rfl⟩
      · rw [if_neg hterm, if_neg hterm]
        have hrel := hloop ((expand_frame g pl p false node).children.getD []) s1 s2 h1 h2
        have hrelu := hloopu ((expand_frame g pl p false node).children.getD []) s1 s2 h1 h2
        cases hx : child_loop g
            (fun p n a b s => pvs_fuel g fuel (opponent_v pl) p n sd (depth - 1) a b s)
            beta true ((expand_frame g pl p false node).children.getD []) p alpha s1 with
        | error e =>
          rw [same_outcome_error_left _ _ _ e hrel hx]
          exact ⟨hrelu.1, by
            show (expand_frame g pl p false node).set_children (some _)
              = (expand_frame g pl p false node).set_children (some _)
            rw [hrelu.2]⟩
        | ok l1 =>
          obtain ⟨l2, hy, j1, j2, j3, -⟩ := same_outcome_ok_left _ _ _ l1 hrel hx
          rw [hy]
          exact ⟨j2, by
            show ((expand_frame g pl p false node).set_children (some l1.children)).set_eval
                (some l1.alpha)
              = ((expand_frame g pl p false node).set_children (some l2.children)).set_eval
                (some l2.alpha)
            rw [j1, j3]⟩

theorem process_item_unwound_independent {Pos Mv : Type} (g : Game Pos Mv) (Player : player)
    (d : Int) (workItem : work_item Pos Mv) (s1 s2 : List (game_tree_node Mv))
    (h1 : s1.length ≤ STACK_NODE_STACK_CAPACITY) (h2 : s2.length ≤ STACK_NODE_STACK_CAPACITY) :
    (process_item_unwound g Player d workItem s1).item
        = (process_item_unwound g Player d workItem s2).item ∧
      (process_item_unwound g Player d workItem s1).sEvalBoard
        = (process_item_unwound g Player d workItem s2).sEvalBoard := by
  unfold process_item_unwound
  cases hm : workItem.node.move with
  | none => exact ⟨rfl, rfl⟩
  | some m =>
    simp only
    have hrel : same_outcome pvs_result.same
        (pvs g (opponent_v Player) (g.move_piece workItem.position m) workItem.node d d
          Score.ninf Score.pinf s1)
        (pvs g (opponent_v Player) (g.move_piece workItem.position m) workItem.node d d
          Score.ninf Score.pinf s2) :=
      pvs_fuel_independent g _ _ _ _ _ _ _ _ s1 s2 h1 h2
    have hrelu : pvs_unwound.same
        (pvs_left g (opponent_v Player) (g.move_piece workItem.position m) workItem.node d d
          Score.ninf Score.pinf s1)
        (pvs_left g (opponent_v Player) (g.move_piece workItem.position m) workItem.node d d
          Score.ninf Score.pinf s2) :=
      pvs_fuel_unwound_independent g _ _ _ _ _ _ _ _ s1 s2 h1 h2
    cases hx : pvs g (opponent_v Player) (g.move_piece workItem.position m) workItem.node d d
        Score.ninf Score.pinf s1 with
    | error e =>
      rw [same_outcome_error_left _ _ _ e hrel hx]
      simp only
      rw [hrelu.1, hrelu.2]
      exact ⟨rfl, rfl⟩
    | ok r1 =>
      obtain ⟨r2, hy, k1, k2, k3, k4⟩ := same_outcome_ok_left _ _ _ r1 hrel hx
      rw [hy]
      simp only
      rw [← k3, ← k2]
      cases he : r1.node.eval with
      | none => exact ⟨rfl, rfl⟩
      | some e =>
        simp only
        cases hres : workItem.result with
        | some n => exact ⟨rfl, rfl⟩
        | none => exact ⟨rfl, rfl⟩

theorem process_item_independent {Pos Mv : Type} (g : Game Pos Mv) (Player : player) (d : Int)
    (workItem : work_item Pos Mv) (s1 s2 : List (game_tree_node Mv))
    (h1 : s1.length ≤ STACK_NODE_STACK_CAPACITY) (h2 : s2.length ≤ STACK_NODE_STACK_CAPACITY) :
    same_outcome item_result.same (process_item g Player d workItem s1)
      (process_item g Player d workItem s2) := by
  unfold process_item
  cases hm : workItem.node.move with
  | none => rfl
  | some m =>
    simp only
    have hrel : same_outcome pvs_result.same
        (pvs g (opponent_v Player) (g.move_piece workItem.position m) workItem.node d d
          Score.ninf Score.pinf s1)
        (pvs g (opponent_v Player) (g.move_piece workItem.position m) workItem.node d d
          Score.ninf Score.pinf s2) :=
      pvs_fuel_independent g _ _ _ _ _ _ _ _ s1 s2 h1 h2
    cases hx : pvs g (opponent_v Player) (g.move_piece workItem.position m) workItem.node d d
        Score.ninf Score.pinf s1 with
    | error e =>
      rw [same_outcome_error_left _ _ _ e hrel hx]
      rfl
    | ok r1 =>
      obtain ⟨r2, hy, k1, k2, k3, k4⟩ := same_outcome_ok_left _ _ _ r1 hrel hx
      rw [hy]
      simp only
      rw [← k3]
      cases he : r1.node.eval with
      | none => rfl
      | some e =>
        simp only
        cases hres : workItem.result with
        | some n => rfl
        | none => exact ⟨rfl, k2⟩

theorem drain_independent {Pos Mv : Type} (g : Game Pos Mv) (Player : player) (d : Int) :
    ∀ (items : List (work_item Pos Mv)) (index : Nat) (board1 board2 : Pos)
      (s1 s2 : List (game_tree_node Mv)),
      s1.length ≤ STACK_NODE_STACK_CAPACITY → s2.length ≤ STACK_NODE_STACK_CAPACITY →
      (drain g Player d index items board1 s1).items
        = (drain g Player d index items board2 s2).items ∧
      (drain g Player d index items board1 s1).fulfilled
        = (drain g Player d index items board2 s2).fulfilled ∧
      (drain g Player d index items board1 s1).failure
        = (drain g Player d index items board2 s2).failure := by
  intro items
  induction items with
  | nil =>
    intro index board1 board2 s1 s2 _ _
    exact ⟨rfl, rfl, rfl⟩
  | cons it rest ih =>
    intro index board1 board2 s1 s2 h1 h2
    have hrel := process_item_independent g Player d it s1 s2 h1 h2
    cases hx : process_item g Player d it s1 with
    | error e =>
      have hy := same_outcome_error_left _ _ _ e hrel hx
      simp only [drain, hx, hy, and_self, and_true]
      rw [(process_item_unwound_independent g Player d it s1 s2 h1 h2).1]
    | ok r1 =>
      obtain ⟨r2, hy, k1, k2⟩ := same_outcome_ok_left _ _ _ r1 hrel hx
      have z1 := (process_item_size g Player d it s1 r1 h1 hx).2
      have z2 := (process_item_size g Player d it s2 r2 h2 hy).2
      obtain ⟨j1, j2, j3⟩ := ih (index + 1) r1.sEvalBoard r2.sEvalBoard r1.stackNodeStack
        r2.stackNodeStack z1 z2
      simp only [drain, hx, hy]
      exact ⟨by rw [k1, j1], by rw [k1, j2], j3⟩

/-- C30: with `valid_moves` replacing the children of a frame by the legal
moves of the position, for any two contents of the arena of at most 32 slots
and any two contents of the scratch position: the search of a work item
returns the same score, node and position or fails in the same way; the body
of the batch loop publishes the same node or fails in the same way; and a
whole batch satisfies the same promises with the same nodes. -/
theorem leftover_state_independence {Pos Mv : Type} (g : Game Pos Mv) (Player : player)
    (d : Int) (workItem : work_item Pos Mv) (items : List (work_item Pos Mv)) (index : Nat)
    (board1 board2 : Pos) (s1 s2 : List (game_tree_node Mv))
    (h1 : s1.length ≤ STACK_NODE_STACK_CAPACITY) (h2 : s2.length ≤ STACK_NODE_STACK_CAPACITY) :
    (∀ m, workItem.node.move = some m →
      (∀ r1, pvs g (opponent_v Player) (g.move_piece workItem.position m) workItem.node d d
          Score.ninf Score.pinf s1 = Except.ok r1 →
        ∃ r2, pvs g (opponent_v Player) (g.move_piece workItem.position m) workItem.node d d
            Score.ninf Score.pinf s2 = Except.ok r2 ∧
          r2.score = r1.score ∧ r2.node = r1.node ∧ r2.position = r1.position) ∧
      (∀ e, pvs g (opponent_v Player) (g.move_piece workItem.position m) workItem.node d d
          Score.ninf Score.pinf s1 = Except.error e →
        pvs g (opponent_v Player) (g.move_piece workItem.position m) workItem.node d d
          Score.ninf Score.pinf s2 = Except.error e)) ∧
    (∀ it1, process_item g Player d workItem s1 = Except.ok it1 →
      ∃ it2, process_item g Player d workItem s2 = Except.ok it2 ∧ it2.item = it1.item) ∧
    (∀ e, process_item g Player d workItem s1 = Except.error e →
      process_item g Player d workItem s2 = Except.error e) ∧
    (drain g Player d index items board1 s1).items
      = (drain g Player d index items board2 s2).items ∧
    (drain g Player d index items board1 s1).fulfilled
      = (drain g Player d index items board2 s2).fulfilled ∧
    (drain g Player d index items board1 s1).failure
      = (drain g Player d index items board2 s2).failure := by
  have hitem := process_item_independent g Player d workItem s1 s2 h1 h2
  refine ⟨?_, ?_, ?_, drain_independent g Player d items index board1 board2 s1 s2 h1 h2⟩
  · intro m _
    have hrel : same_outcome pvs_result.same
        (pvs g (opponent_v Player) (g.move_piece workItem.position m) workItem.node d d
          Score.ninf Score.pinf s1)
        (pvs g (opponent_v Player) (g.move_piece workItem.position m) workItem.node d d
          Score.ninf Score.pinf s2) :=
      pvs_fuel_independent g _ _ _ _ _ _ _ _ s1 s2 h1 h2
    constructor
    · intro r1 hr1
      obtain ⟨r2, hy, k1, k2, k3, -⟩ := same_outcome_ok_left _ _ _ r1 hrel hr1
      exact ⟨r2, hy, k1.symm, k3.symm, k2.symm⟩
    · intro e he
      exact same_outcome_error_left _ _ _ e hrel he
  · intro it1 hit1
    obtain ⟨it2, hy, k1, -⟩ := same_outcome_ok_left _ _ _ it1 hitem hit1
    exact ⟨it2, hy, k1.symm⟩
  · intro e he
    exact same_outcome_error_left _ _ _ e hitem he

/-- An instance of C30: a batch of one item of the endless game at ply depth
6, from the empty arena and scratch position 0 and from an arena with a used
slot and scratch position 7. -/
theorem leftover_state_independence_witness :
    (drain endless_game player.White 6 0
        [{ position := 0, node := game_tree_node.stub (), result := none }] 0 []).items
      = (drain endless_game player.White 6 0
        [{ position := 0, node := game_tree_node.stub (), result := none }] 7
        [game_tree_node.mk (some ()) (some [game_tree_node.stub (), game_tree_node.stub ()])
          (some (Score.fin 77))]).items ∧
    (drain endless_game player.White 6 0
        [{ position := 0, node := game_tree_node.stub (), result := none }] 0 []).fulfilled
      = (drain endless_game player.White 6 0
        [{ position := 0, node := game_tree_node.stub (), result := none }] 7
        [game_tree_node.mk (some ()) (some [game_tree_node.stub (), game_tree_node.stub ()])
          (some (Score.fin 77))]).fulfilled ∧
    (drain endless_game player.White 6 0
        [{ position := 0, node := game_tree_node.stub (), result := none }] 0 []).failure
      = (drain endless_game player.White 6 0
        [{ position := 0, node := game_tree_node.stub (), result := none }] 7
        [game_tree_node.mk (some ()) (some [game_tree_node.stub (), game_tree_node.stub ()])
          (some (Score.fin 77))]).failure :=
  (leftover_state_independence endless_game player.White 6
    { position := 0, node := game_tree_node.stub (), result := none }
    [{ position := 0, node := game_tree_node.stub (), result := none }] 0 0 7 []
    [game_tree_node.mk (some ()) (some [game_tree_node.stub (), game_tree_node.stub ()])
      (some (Score.fin 77))] (by decide) (by decide)).2.2.2

/-- An instance of C21: the child loop of the two-move scenario, at its
first child. -/
theorem pvs_search_rule_witness :
    ∃ l, child_loop two_move_game
        (fun p n a b s => pvs_fuel two_move_game 1 (opponent_v player.Black) p n 1 (1 - 1) a b s)
        Score.pinf true [game_tree_node.stub 1, game_tree_node.stub 2] [0] Score.ninf []
        = Except.ok l ∧
      ∃ m r, (game_tree_node.stub 1 : game_tree_node Nat).move = some m ∧
        search_child
          (fun p n a b s =>
            pvs_fuel two_move_game 1 (opponent_v player.Black) p n 1 (1 - 1) a b s)
          true (two_move_game.move_piece [0] m) (game_tree_node.stub 1) Score.ninf Score.pinf []
          = Except.ok r ∧
        (true = true →
          ∃ r1, pvs_fuel two_move_game 1 (opponent_v player.Black)
              (two_move_game.move_piece [0] m) (game_tree_node.stub 1) 1 (1 - 1)
              Score.pinf.neg Score.ninf.neg [] = Except.ok r1 ∧
            calls_at (1 - 1) r.trace
              = [Event.enter (opponent_v player.Black) 1 (1 - 1) Score.pinf.neg
                  Score.ninf.neg] ∧
            r.score = r1.score.neg ∧ r.node = r1.node) ∧
        (true = false →
          ∃ r1, pvs_fuel two_move_game 1 (opponent_v player.Black)
              (two_move_game.move_piece [0] m) (game_tree_node.stub 1) 1 (1 - 1)
              Score.ninf.neg.sub_one Score.ninf.neg [] = Except.ok r1 ∧
            ((Score.ninf.lt r1.score.neg = true ∧ r1.score.neg.lt Score.pinf = true) →
              ∃ r2, pvs_fuel two_move_game 1 (opponent_v player.Black) r1.position r1.node 1
                  (1 - 1) Score.pinf.neg r1.score.neg.neg r1.stackNodeStack = Except.ok r2 ∧
                calls_at (1 - 1) r.trace
                  = [Event.enter (opponent_v player.Black) 1 (1 - 1) Score.ninf.neg.sub_one
                      Score.ninf.neg,
                     Event.enter (opponent_v player.Black) 1 (1 - 1) Score.pinf.neg
                       r1.score.neg.neg] ∧
                r.score = r2.score.neg ∧ r.node = r2.node) ∧
            (¬ (Score.ninf.lt r1.score.neg = true ∧ r1.score.neg.lt Score.pinf = true) →
              calls_at (1 - 1) r.trace
                = [Event.enter (opponent_v player.Black) 1 (1 - 1) Score.ninf.neg.sub_one
                    Score.ninf.neg] ∧
              r.score = r1.score.neg ∧ r.node = r1.node)) ∧
        (calls_at (1 - 1) r.trace).length ≤ 2 ∧
        ((Score.max Score.ninf r.score).ge Score.pinf = true →
          l.alpha = Score.max Score.ninf r.score ∧
          l.children = r.node :: [game_tree_node.stub 2]) ∧
        ((Score.max Score.ninf r.score).ge Score.pinf = false →
          ∃ l1, child_loop two_move_game
              (fun p n a b s =>
                pvs_fuel two_move_game 1 (opponent_v player.Black) p n 1 (1 - 1) a b s)
              Score.pinf false [game_tree_node.stub 2] (two_move_game.undo r.position)
              (Score.max Score.ninf r.score) r.stackNodeStack = Except.ok l1 ∧
            l.alpha = l1.alpha ∧ l.children = r.node :: l1.children) :=
  ⟨_, rfl, (pvs_search_rule two_move_game 1 player.Black 1 1 Score.pinf true
    (game_tree_node.stub 1) [game_tree_node.stub 2] [0] Score.ninf [] _ rfl).2⟩

end chess
